import Mathlib

/-!
# aacfactory/rings

A shallow embedding of the consistent-hash ring `HashRing` (`hashed.go`) and of
the operations on it, followed by the counter `Sequence` (`sequence.go`), the
ring buffer `ImmutableRing` (`immutable.go`) and the linked `Ring` (`ring.go`),
each introduced where its definitions start.

* Entries are Go pointers (`*HashRingEntry[E]`).  A pointer is a natural
  number, the store `heap` maps a pointer to the record it points to, and the
  slice `r.entries` is the list of pointers in slice order.
* `uint64` values are natural numbers below `2 ^ 64`; the one subtraction of
  the source, `High - Low`, is taken modulo `2 ^ 64`.
* A run-time panic (index out of range, `makeslice` with a negative capacity)
  is the result `none`.
* `sort.Sort` belongs to Go's standard library.  For a slice of at most twelve
  elements (at most six before Go 1.19) it is the insertion sort
  `insertionSort` below; the operations take the sorting routine as the
  parameter `srt`, and what is proved of all rings assumes of it only what
  `SortSpec` says.  The concrete runs use `insertionSort` on rings small enough
  for it to be what Go runs.
* `Session.run` plays a sequence of calls, the closures `active` and `cancel`
  being named by the `Add` that returned them.
-/

namespace Rings

/-- Modelled from the spec: the interface `Entry` is declared outside `hashed.go`;
the spec gives it "a stable, unique string identity (`Key()`)".  The inhabitant
of `E` is Go's zero value of the type. -/
class Entry (E : Type) extends Inhabited E where
  Key : E → String

/-- The constant `maxEntries = uint64(256)`. -/
def maxEntries : Nat := 256

/-- The number of `uint64` values. -/
def u64 : Nat := 2 ^ 64

/-- The struct `HashRingEntry[E]`. -/
structure HashRingEntry (E : Type) where
  Entry : E
  Active : Bool
  Low : Nat
  High : Nat
deriving DecidableEq, Repr

namespace HashRingEntry

variable {E : Type}

/-- The method `(*HashRingEntry).Less`: ascending by `(High, Low)`. -/
def Less (entry o : HashRingEntry E) : Bool :=
  if entry.High < o.High then true
  else entry.High == o.High && decide (entry.Low < o.Low)

/-- The method `(*HashRingEntry).RangeSize`: `High - Low` in `uint64`. -/
def RangeSize (entry : HashRingEntry E) : Nat :=
  (entry.High + u64 - entry.Low) % u64

/-- The test `hashed.Low <= n && hashed.High > n` of `HashRingEntries.Get`. -/
def covers (hashed : HashRingEntry E) (n : Nat) : Bool :=
  decide (hashed.Low ≤ n) && decide (hashed.High > n)

end HashRingEntry

/-! ## `HashRingEntries.Get` -/

namespace HashRingEntries

variable {E : Type}

/-- The first loop of `Get`: starting with `idx = -1`, the index `i` (counted
from `i`) of the first entry whose range holds `n`; `none` is `idx = -1`. -/
def scan (n : Nat) : List (HashRingEntry E) → Nat → Option Nat
  | [], _ => none
  | hashed :: rest, i => if hashed.covers n then some i else scan n rest (i + 1)

/-- The backward loop of `Get`, entered with `idx` and the current `entry`:
`idx--`, stop with `has = false` below zero, else look at `entries[idx]`. -/
def walkBack (entries : List (HashRingEntry E)) :
    Nat → HashRingEntry E → Option (HashRingEntry E × Bool)
  | 0, entry => some (entry, false)
  | idx + 1, _ =>
    match entries[idx]? with
    | none => none
    | some entry => if entry.Active then some (entry, true) else walkBack entries idx entry

/-- The method `HashRingEntries.Get(n)`; `none` is the panic of `entries[idx]`
with `idx = -1`. -/
def Get (entries : List (HashRingEntry E)) (n : Nat) : Option (HashRingEntry E × Bool) :=
  match scan n entries 0 with
  | none => none
  | some idx =>
    match entries[idx]? with
    | none => none
    | some entry => if entry.Active then some (entry, true) else walkBack entries idx entry

end HashRingEntries

/-! ## The ring -/

/-- The struct `HashRing[E]` (the lock left out) together with the store its
entry pointers point into; `next` is the first pointer not yet allocated. -/
structure HashRing (E : Type) where
  heap : Nat → HashRingEntry E
  next : Nat
  entries : List Nat

namespace HashRing

variable {E : Type}

/-- The records of `r.entries`, in slice order. -/
def view (r : HashRing E) : List (HashRingEntry E) :=
  r.entries.map r.heap

/-- The store after `*p = v`. -/
def store (heap : Nat → HashRingEntry E) (p : Nat) (v : HashRingEntry E) :
    Nat → HashRingEntry E :=
  fun q => if q = p then v else heap q

end HashRing

/-- The loops of `NewHashed` on the records: every entry starts as
`{entry, true, 0, 0}`, entry `i` gets `[span * i, span * (i + 1))`, and the
last `High` is set to `maxEntries`.  (`span * (i + 1) ≤ 256`: no `uint64`
product overflows.) -/
def NewHashedEntries {E : Type} (entries : List E) : List (HashRingEntry E) :=
  let hashedEntries : List (HashRingEntry E) :=
    entries.map (fun entry => { Entry := entry, Active := true, Low := 0, High := 0 })
  if entries.length > 0 then
    let span := maxEntries / hashedEntries.length
    let ranged := hashedEntries.enum.map
      (fun ie => { ie.2 with Low := span * ie.1, High := span * (ie.1 + 1) })
    ranged.modify (fun entry => { entry with High := maxEntries }) (entries.length - 1)
  else hashedEntries

/-- The constructor `NewHashed(entries...)`: entry `i` is allocated at pointer `i`. -/
def NewHashed {E : Type} [Entry E] (entries : List E) : HashRing E :=
  let hashedEntries := NewHashedEntries entries
  { heap := fun p => hashedEntries.getD p { Entry := default, Active := false, Low := 0, High := 0 }
    next := hashedEntries.length
    entries := List.range hashedEntries.length }

/-- The method `HashRing.Get(key)`, the hash `xxhash.Sum64` being the parameter
`sum64`; on `has = false` the returned entry is the zero value of `E`. -/
def HashRing.Get {E K : Type} [Entry E] (sum64 : K → Nat) (r : HashRing E) (key : K) :
    Option (E × Bool) :=
  let idx := sum64 key % maxEntries
  match HashRingEntries.Get r.view idx with
  | none => none
  | some (hashed, hasHashed) =>
    if !hasHashed then some (default, false) else some (hashed.Entry, true)

/-! ## `sort.Sort` -/

/-- The inner loop of Go's `insertionSort`, `for j := i; j > a && Less(j, j-1); j--`
with `Swap(j, j-1)`: the element `x` moves down past each neighbour it is less
than.  The part before `x` is held nearest neighbour first. -/
def sink (less : Nat → Nat → Bool) (x : Nat) : List Nat → List Nat
  | [] => [x]
  | y :: front => if less x y then y :: sink less x front else x :: y :: front

/-- The outer loop of Go's `insertionSort`, `for i := a + 1; i < b; i++`:
`done` is the part already passed (held last element first), the second list
the elements still to come. -/
def insertionLoop (less : Nat → Nat → Bool) : List Nat → List Nat → List Nat
  | done, [] => done.reverse
  | done, x :: rest => insertionLoop less (sink less x done) rest

/-- Go's `insertionSort(data, 0, n)`, which is what `sort.Sort` runs on a slice
of at most twelve elements. -/
def insertionSort (less : Nat → Nat → Bool) (data : List Nat) : List Nat :=
  insertionLoop less [] data

/-- What is assumed of `sort.Sort`: it permutes the slice (it only calls
`Swap`), and the outcome is ordered whenever `Less` is a strict weak order. -/
structure SortSpec (srt : (Nat → Nat → Bool) → List Nat → List Nat) : Prop where
  perm : ∀ less data, (srt less data).Perm data
  sorted : ∀ less data,
    (∀ a, less a a = false) →
    (∀ a b c, less a b = true → less b c = true → less a c = true) →
    (∀ a b c, less a b = false → less b c = false → less a c = false) →
    (srt less data).Pairwise (fun a b => less b a = false)

namespace HashRing

variable {E : Type}

/-- The method `HashRingEntries.Less(i, j)` on two pointers of the slice. -/
def lessAt (heap : Nat → HashRingEntry E) (p q : Nat) : Bool :=
  (heap p).Less (heap q)

/-- The method `RangeSizeSortedHashRingEntries.Less(i, j)` on two pointers:
`entries[i].RangeSize() < entries[j].RangeSize() && entries[j].Active`. -/
def rangeSizeLessAt (heap : Nat → HashRingEntry E) (p q : Nat) : Bool :=
  decide ((heap p).RangeSize < (heap q).RangeSize) && (heap q).Active

/-- The method `HashRingEntries.BiggestRangeAndActiveOne`.  Both sorts work in
place on the slice, so the slice as left behind is returned with the result;
`none` is the panic of `sorted[sorted.Len()-1]` on an empty slice, and the
result `nil` is the inner `none`. -/
def BiggestRangeAndActiveOne (srt : (Nat → Nat → Bool) → List Nat → List Nat)
    (heap : Nat → HashRingEntry E) (entries : List Nat) : Option (List Nat × Option Nat) :=
  let sorted := srt (rangeSizeLessAt heap) entries
  match sorted.getLast? with
  | none => none
  | some target =>
    let entries := srt (lessAt heap) sorted
    if !(heap target).Active then some (entries, none) else some (entries, some target)

end HashRing

/-- The inner loop of `intersect`, `for t := tLow; t < tHigh; t++`, with its
number of rounds left. -/
def intersectInner (s : Nat) : Nat → Nat → Bool
  | 0, _ => false
  | rounds + 1, t => if s = t then true else intersectInner s rounds (t + 1)

/-- The outer loop of `intersect`, `for s := sLow; s < sHigh; s++`, with its
number of rounds left. -/
def intersectOuter (tLow tHigh : Nat) : Nat → Nat → Bool
  | 0, _ => false
  | rounds + 1, s =>
    if intersectInner s (tHigh - tLow) tLow then true
    else intersectOuter tLow tHigh rounds (s + 1)

/-- The function `intersect`: the loop over `s` runs `sHigh - sLow` rounds (none
when `sHigh ≤ sLow`), and no `s++` or `t++` overflows, the variable being
below a `uint64` bound. -/
def intersect (sLow sHigh tLow tHigh : Nat) : Bool :=
  intersectOuter tLow tHigh (sHigh - sLow) sLow

/-- What the closures `active` and `cancel` returned by `Add` capture: the
pointers `hashed` and `prevActiveHashed` (`none` is `nil`) and `entry`. -/
structure Closures (E : Type) where
  hashed : Nat
  prevActiveHashed : Option Nat
  entry : E

/-- The results of `Add` with the ring as `Add` leaves it; `closures = none`
stands for `active = cancel = nil`. -/
structure AddResult (E : Type) where
  ring : HashRing E
  prevActive : E
  cLow : Nat
  cHigh : Nat
  closures : Option (Closures E)
  ok : Bool

namespace HashRing

variable {E : Type} [Entry E]

/-- The method `HashRing.Add(entry)`; `none` is a panic. -/
def Add (srt : (Nat → Nat → Bool) → List Nat → List Nat) (r : HashRing E) (entry : E) :
    Option (AddResult E) :=
  if r.entries.length ≥ maxEntries then
    some { ring := r, prevActive := default, cLow := 0, cHigh := 0, closures := none, ok := false }
  else
    let hashed := r.next
    let heap := store r.heap hashed
      { Entry := entry, Active := false, Low := 0, High := maxEntries }
    if r.entries.length = 0 then
      some { ring := { heap := heap, next := hashed + 1, entries := r.entries ++ [hashed] }
             prevActive := default
             cLow := (heap hashed).Low
             cHigh := (heap hashed).High
             closures := some { hashed := hashed, prevActiveHashed := none, entry := entry }
             ok := true }
    else
      match BiggestRangeAndActiveOne srt heap r.entries with
      | none => none
      | some (entries, none) =>
        some { ring := { heap := heap, next := hashed + 1, entries := entries }
               prevActive := default, cLow := 0, cHigh := 0, closures := none, ok := false }
      | some (entries, some prevActiveHashed) =>
        let heap := store heap hashed { heap hashed with
          Low := ((heap prevActiveHashed).RangeSize / 2 + (heap prevActiveHashed).Low) % u64 }
        let heap := store heap hashed { heap hashed with High := (heap prevActiveHashed).High }
        let heap := store heap prevActiveHashed
          { heap prevActiveHashed with High := (heap hashed).Low }
        some { ring := { heap := heap, next := hashed + 1
                         entries := srt (lessAt heap) (entries ++ [hashed]) }
               prevActive := (heap prevActiveHashed).Entry
               cLow := (heap hashed).Low
               cHigh := (heap hashed).High
               closures := some { hashed := hashed, prevActiveHashed := some prevActiveHashed
                                  entry := entry }
               ok := true }

/-- The closure `active` returned by `Add`: `hashed.Active = true`. -/
def active (r : HashRing E) (c : Closures E) : HashRing E :=
  { r with heap := store r.heap c.hashed { r.heap c.hashed with Active := true } }

/-- The closure `cancel` returned by `Add`; `none` is the panic of
`make(..., 0, r.entries.Len()-1)` on an empty ring. -/
def cancel (srt : (Nat → Nat → Bool) → List Nat → List Nat) (r : HashRing E) (c : Closures E) :
    Option (HashRing E) :=
  let heap := match c.prevActiveHashed with
    | some prevActiveHashed =>
      store r.heap prevActiveHashed { r.heap prevActiveHashed with High := (r.heap c.hashed).High }
    | none => r.heap
  if r.entries.length = 0 then none
  else
    let entries := r.entries.filter
      (fun hashedEntry => !(Entry.Key (heap hashedEntry).Entry == Entry.Key c.entry))
    some { r with heap := heap, entries := srt (lessAt heap) entries }

/-- The method `HashRing.AddDeclared(entry, low, high)`: the ring as it leaves
it, and `ok`. -/
def AddDeclared (srt : (Nat → Nat → Bool) → List Nat → List Nat) (r : HashRing E) (entry : E)
    (low high : Nat) : HashRing E × Bool :=
  if r.entries.length ≥ maxEntries then (r, false)
  else
    let hashed := r.next
    let heap := store r.heap hashed { Entry := entry, Active := true, Low := low, High := high }
    if r.entries.length = 0 then
      ({ heap := heap, next := hashed + 1, entries := r.entries ++ [hashed] }, true)
    else if r.entries.any (fun e => intersect (heap e).Low (heap e).High low high) then
      ({ heap := heap, next := hashed + 1, entries := r.entries }, false)
    else
      ({ heap := heap, next := hashed + 1, entries := srt (lessAt heap) (r.entries ++ [hashed]) },
        true)

end HashRing

/-! ## Sequences of calls -/

/-- One call on a ring: `Add`, `AddDeclared`, or one of the two closures that
the `k`-th `Add` of the sequence returned. -/
inductive Call (E : Type) where
  | Add (entry : E)
  | AddDeclared (entry : E) (low high : Nat)
  | active (k : Nat)
  | cancel (k : Nat)

/-- A ring together with the closures the `Add` calls so far returned, in call
order (`none` for an `Add` that returned `ok = false`, whose closures are `nil`). -/
structure Session (E : Type) where
  ring : HashRing E
  closures : List (Option (Closures E))

/-- One call; `none` when the call panics or names a closure that is `nil` or
was never returned. -/
def Session.call {E : Type} [Entry E] (srt : (Nat → Nat → Bool) → List Nat → List Nat)
    (s : Session E) : Call E → Option (Session E)
  | .Add entry =>
    match s.ring.Add srt entry with
    | none => none
    | some res => some { ring := res.ring, closures := s.closures ++ [res.closures] }
  | .AddDeclared entry low high =>
    some { s with ring := (s.ring.AddDeclared srt entry low high).1 }
  | .active k =>
    match s.closures[k]? with
    | some (some c) => some { s with ring := s.ring.active c }
    | _ => none
  | .cancel k =>
    match s.closures[k]? with
    | some (some c) =>
      match s.ring.cancel srt c with
      | none => none
      | some ring => some { s with ring := ring }
    | _ => none

/-- The calls of a list, one after the other. -/
def Session.run {E : Type} [Entry E] (srt : (Nat → Nat → Bool) → List Nat → List Nat) :
    Session E → List (Call E) → Option (Session E)
  | s, [] => some s
  | s, c :: rest =>
    match s.call srt c with
    | none => none
    | some s => Session.run srt s rest

/-- The ring `NewHashed(entries...)` before any call. -/
def Session.start {E : Type} [Entry E] (entries : List E) : Session E :=
  { ring := NewHashed entries, closures := [] }

/-- The struct `Item` of the tests. -/
structure Item where
  key : String
  value : Int
deriving DecidableEq, Repr

instance : Entry Item where
  default := { key := "", value := 0 }
  Key := fun item => item.key

/-- The value `(High - Low) / 2 + Low`, in `uint64`, at which `Add` splits an entry. -/
def HashRingEntry.mid {E : Type} (entry : HashRingEntry E) : Nat :=
  (entry.RangeSize / 2 + entry.Low) % u64

/-- The store in `Add` once `hashed` is allocated, at the pointer `r.next`. -/
def HashRing.allocated {E : Type} (r : HashRing E) (entry : E) : Nat → HashRingEntry E :=
  HashRing.store r.heap r.next { Entry := entry, Active := false, Low := 0, High := maxEntries }

/-- The slice in `Add` as `BiggestRangeAndActiveOne` leaves it. -/
def HashRing.resorted {E : Type} (srt : (Nat → Nat → Bool) → List Nat → List Nat)
    (r : HashRing E) (entry : E) : List Nat :=
  srt (HashRing.lessAt (r.allocated entry))
    (srt (HashRing.rangeSizeLessAt (r.allocated entry)) r.entries)

/-- The store after the three assignments with which `Add` splits the entry at `P`. -/
def HashRing.splitHeap {E : Type} (r : HashRing E) (entry : E) (P : Nat) :
    Nat → HashRingEntry E :=
  HashRing.store
    (HashRing.store r.heap r.next
      { Entry := entry, Active := false, Low := (r.heap P).mid, High := (r.heap P).High })
    P { r.heap P with High := (r.heap P).mid }

/-- The ring after `Add` has split the entry at `P`. -/
def HashRing.split {E : Type} (srt : (Nat → Nat → Bool) → List Nat → List Nat)
    (r : HashRing E) (entry : E) (P : Nat) : HashRing E :=
  { heap := r.splitHeap entry P
    next := r.next + 1
    entries := srt (HashRing.lessAt (r.splitHeap entry P)) (r.resorted srt entry ++ [r.next]) }

/-- The pointers of the slice are distinct and allocated. -/
def HashRing.WF {E : Type} (r : HashRing E) : Prop :=
  r.entries.Nodup ∧ ∀ p ∈ r.entries, p < r.next

/-- Every entry of the slice is an interval `[Low, High)` with `Low ≤ High`
(`High` a `uint64`), and no slot is held by two entries of the slice. -/
def HashRing.Inv {E : Type} (r : HashRing E) : Prop :=
  r.WF ∧
  (∀ p ∈ r.entries, (r.heap p).Low ≤ (r.heap p).High ∧ (r.heap p).High < 2 ^ 64) ∧
  (∀ p ∈ r.entries, ∀ q ∈ r.entries, p ≠ q →
    ∀ m, ¬ ((r.heap p).covers m = true ∧ (r.heap q).covers m = true))

/-- The sequences of calls in which every declared range has `low ≤ high` (both
`uint64`) and a `cancel` closure is only called while no `Add` has been called
since the `Add` that returned it: `adds` counts the `Add` calls so far, and the
closures of the last of them have the index `adds - 1`. -/
def disciplined {E : Type} : Nat → List (Call E) → Bool
  | _, [] => true
  | adds, .Add _ :: rest => disciplined (adds + 1) rest
  | adds, .AddDeclared _ low high :: rest =>
    decide (low ≤ high) && decide (high < 2 ^ 64) && disciplined adds rest
  | adds, .active _ :: rest => disciplined adds rest
  | adds, .cancel k :: rest => decide (k + 1 = adds) && disciplined adds rest

/-- What the closures of the last `Add` find as long as no other `Add` is
called: the staged record and the record of the previous owner are allocated
and differ, and either the staged entry is in the slice, with the key of
`entry`, and the previous owner ends where it starts (no `cancel()` yet), or the
previous owner, if it is in the slice, ends where the staged record ends (after
a `cancel()`). -/
def HashRing.Cancellable {E : Type} [Entry E] (r : HashRing E) (c : Closures E) : Prop :=
  c.hashed < r.next ∧
  ∀ p, c.prevActiveHashed = some p → p < r.next ∧ p ≠ c.hashed ∧
    ((c.hashed ∈ r.entries ∧ (r.heap p).High = (r.heap c.hashed).Low ∧
        Entry.Key (r.heap c.hashed).Entry = Entry.Key c.entry) ∨
      (p ∈ r.entries → (r.heap p).High = (r.heap c.hashed).High))

/-! ## `Sequence` (`sequence.go`) and `ImmutableRing` (`immutable.go`)

The atomic operations are taken one at a time, in the order of the calls.
`uint32` values are natural numbers below `2 ^ 32`. -/

/-- The number of `uint32` values. -/
def u32 : Nat := 2 ^ 32

/-- The struct `Sequence`: the counter and its padding. -/
structure Sequence where
  value : Nat
  padding : List Nat
deriving DecidableEq, Repr

/-- The constructor `NewSequence`. -/
def NewSequence : Sequence :=
  { value := 0, padding := [0, 1, 2, 3, 4, 5, 6] }

namespace Sequence

/-- The method `Sequence.Next`: `atomic.AddUint32(&seq.value, 1) - 1`, with the
sequence as the call leaves it. -/
def Next (seq : Sequence) : Sequence × Nat :=
  let added := (seq.value + 1) % u32
  ({ seq with value := added }, (added + u32 - 1) % u32)

/-- The method `Sequence.Value`: `atomic.LoadUint32(&seq.value) - 1`. -/
def Value (seq : Sequence) : Nat :=
  (seq.value + u32 - 1) % u32

/-- The sequence after `n` calls of `Next` in a row, and what the calls returned. -/
def run : Sequence → Nat → Sequence × List Nat
  | seq, 0 => (seq, [])
  | seq, n + 1 => ((seq.Next.1.run n).1, seq.Next.2 :: (seq.Next.1.run n).2)

end Sequence

/-- The platform: `unsafe.Alignof` of a slice variable is the size of a machine
word, 4 bytes with 32-bit and 8 bytes with 64-bit pointers. -/
inductive Arch where
  | bits32
  | bits64
deriving DecidableEq, Repr

/-- The value `unsafe.Alignof(elements)`. -/
def Arch.align : Arch → Nat
  | .bits32 => 4
  | .bits64 => 8

/-- The struct `ImmutableRing[E]`.  `elements` holds, cell by cell, the value of
the `element` that the pointer `elements[j]` points to; `elementBasePtr` and
`elementMSize` only serve to address the cell `elements[j]` and are left out. -/
structure ImmutableRing (E : Type) where
  sequence : Sequence
  elements : List E
  size : Nat
  shift : Nat
  align : Nat
  mask : Nat
  key : String

namespace ImmutableRing

variable {E : Type}

/-- The cell that `elementAt(idx)` addresses: `idx & r.mask * r.align` in `uint32`. -/
def cell (r : ImmutableRing E) (idx : Nat) : Nat :=
  ((idx &&& r.mask) * r.align) % u32

/-- The method `elementAt(idx)` followed by the read of `.value`; `none` when
the address lies outside `elements` (the pointer arithmetic is unchecked). -/
def elementAt (r : ImmutableRing E) (idx : Nat) : Option E :=
  r.elements[r.cell idx]?

/-- The last loop of `NewImmutable`, `r.elementAt(i).value = filledValues[i]`
for `i` up to `capacity`, with its number of rounds left. -/
def fill [Entry E] (filledValues : List E) : Nat → Nat → ImmutableRing E →
    Option (ImmutableRing E)
  | 0, _, r => some r
  | rounds + 1, i, r =>
    if r.cell i < r.elements.length then
      fill filledValues rounds (i + 1)
        { r with elements := r.elements.set (r.cell i) (filledValues.getD i default) }
    else none

/-- The method `ImmutableRing.Next`, with the ring as the call leaves it. -/
def Next (r : ImmutableRing E) : Option (ImmutableRing E × E) :=
  if r.size = 0 then none
  else
    match ({ r with sequence := r.sequence.Next.1 } : ImmutableRing E).elementAt
        (r.sequence.Next.2 % r.size) with
    | none => none
    | some value => some ({ r with sequence := r.sequence.Next.1 }, value)

/-- The method `ImmutableRing.Head`. -/
def Head (r : ImmutableRing E) : Option (E × Bool) :=
  match r.elementAt r.sequence.Value with
  | none => none
  | some value => some (value, true)

/-- The ring after `n` calls of `Next` in a row, and what the calls returned. -/
def run : ImmutableRing E → Nat → Option (ImmutableRing E × List E)
  | r, 0 => some (r, [])
  | r, n + 1 =>
    match r.Next with
    | none => none
    | some (r1, value) =>
      match r1.run n with
      | none => none
      | some (r2, values) => some (r2, value :: values)

end ImmutableRing

/-- The first loop of `NewImmutable`: the map `keys` after `keys[value.Key()]++`
for every value (a key not in the map counts as `0`). -/
def keyCounts {E : Type} [Entry E] : List E → (String → Nat) → (String → Nat)
  | [], keys => keys
  | value :: rest, keys =>
    keyCounts rest
      (fun k => if k = Entry.Key value then keys (Entry.Key value) + 1 else keys k)

/-- The test `err != ""` of `NewImmutable`: some key of the map has `n > 1`. -/
def duplicated {E : Type} [Entry E] (values : List E) : Bool :=
  values.any (fun value => decide (keyCounts values (fun _ => 0) (Entry.Key value) > 1))

/-- The loop of `NewImmutable` that doubles `capacity`, with its number of
rounds left; `math.Pow(2, doubleTimes)` and its conversion to `uint32` are
exact up to `doubleTimes = 31`.  The result is `capacity` and `doubleTimes`. -/
def capacityLoop (valuesLen : Nat) : Nat → Nat → Option (Nat × Nat)
  | 0, _ => none
  | rounds + 1, doubleTimes =>
    if 2 ^ doubleTimes ≥ valuesLen then some (2 ^ doubleTimes, doubleTimes)
    else capacityLoop valuesLen rounds (doubleTimes + 1)

/-- The constructor `NewImmutable(key, values)`.  `none` is a panic: the two
explicit ones, the division `i % valuesLen` by zero, and `&elements[0]` on an
empty slice.  `none` is also the result for more than `2 ^ 31` values (after
the conversion to `uint32`), where `uint32(math.Pow(2, 32))` is left to the
implementation by the language. -/
def NewImmutable {E : Type} [Entry E] (arch : Arch) (key : String) (values : List E) :
    Option (ImmutableRing E) :=
  if values.length = 0 then none
  else if duplicated values then none
  else
    let valuesLen := values.length % u32
    match capacityLoop valuesLen 31 1 with
    | none => none
    | some (capacity, doubleTimes) =>
      if valuesLen = 0 then none
      else
        let filledValues := (List.range capacity).map
          (fun i => values.getD (i % valuesLen) default)
        let align := arch.align
        let mask := capacity - 1
        if (capacity * align) % u32 = 0 then none
        else
          ImmutableRing.fill filledValues capacity 0
            { sequence := NewSequence
              elements := List.replicate ((capacity * align) % u32) default
              size := capacity
              shift := doubleTimes
              align := align
              mask := mask
              key := key }

/-- A list of `n` values with pairwise distinct keys: value `i` has the key made
of `i` letters `a`. -/
def distinctItems (n : Nat) : List Item :=
  (List.range n).map (fun i => Item.mk (String.mk (List.replicate i 'a')) i)

/-- The pointers of the slice are distinct and allocated, and every record of
the store, in the slice or not, is an interval that ends inside the keyspace:
`Low ≤ High ≤ maxEntries`. -/
def HashRing.Within {E : Type} (r : HashRing E) : Prop :=
  r.WF ∧ ∀ p, (r.heap p).Low ≤ (r.heap p).High ∧ (r.heap p).High ≤ maxEntries

/-- The closures returned so far capture allocated records, and the record of
a previous owner starts no later than the record staged out of it. -/
def Session.Anchored {E : Type} (s : Session E) : Prop :=
  ∀ c, some c ∈ s.closures → c.hashed < s.ring.next ∧
    ∀ p, c.prevActiveHashed = some p →
      p < s.ring.next ∧ (s.ring.heap p).Low ≤ (s.ring.heap c.hashed).Low

/-- Every range declared by the calls is an interval inside the keyspace:
`low ≤ high ≤ maxEntries`. -/
def declaredInKeyspace {E : Type} : List (Call E) → Bool
  | [] => true
  | .AddDeclared _ low high :: rest =>
    decide (low ≤ high) && decide (high ≤ maxEntries) && declaredInKeyspace rest
  | .Add _ :: rest => declaredInKeyspace rest
  | .active _ :: rest => declaredInKeyspace rest
  | .cancel _ :: rest => declaredInKeyspace rest

/-! ## The linked ring (`ring.go`)

Nodes are Go pointers: a pointer is a natural number, `nodes` maps it to the
`node` it points to, and `nil` is `none`.  A `nil` dereference is the result
`none`.  The lock is left out; the calls are taken one at a time. -/

/-- The struct `node[E]`. -/
structure node (E : Type) where
  next : Option Nat
  prev : Option Nat
  value : E

/-- The struct `Ring[E]` with the store its node pointers point into; `fresh` is
the first pointer not yet allocated. -/
structure Ring (E : Type) where
  nodes : Nat → node E
  fresh : Nat
  key : String
  head : Option Nat
  size : Int

namespace Ring

variable {E : Type} [Entry E]

/-- The store after `*p = v`. -/
def store (nodes : Nat → node E) (p : Nat) (v : node E) : Nat → node E :=
  fun q => if q = p then v else nodes q

/-- The constructor `New(key)` without values. -/
def New (key : String) : Ring E :=
  { nodes := fun _ => { next := none, prev := none, value := default }
    fresh := 0, key := key, head := none, size := 0 }

/-- The method `next()`: the node `r.head`, and `r.head = r.head.next`. -/
def next (r : Ring E) : Option (Ring E × Nat) :=
  match r.head with
  | none => none
  | some n => some ({ r with head := (r.nodes n).next }, n)

/-- The loop of `get(key)`, with its number of rounds left: the ring as the
loop leaves it and the node found, if any. -/
def getLoop (key : String) : Nat → Ring E → Option (Ring E × Option Nat)
  | 0, r => some (r, none)
  | rounds + 1, r =>
    match r.next with
    | none => none
    | some (r, n) =>
      if Entry.Key (r.nodes n).value = key then some (r, some n)
      else getLoop key rounds r

/-- The method `get(key)`: the loop, after which `r.head` is set back. -/
def get (r : Ring E) (key : String) : Option (Ring E × Option Nat) :=
  if r.size = 0 then some (r, none)
  else
    match getLoop key r.size.toNat r with
    | none => none
    | some (r1, value) => some ({ r1 with head := r.head }, value)

/-- The method `Push(v)`. -/
def Push (r : Ring E) (v : E) : Option (Ring E × Bool) :=
  match r.get (Entry.Key v) with
  | none => none
  | some (r, some _) => some (r, false)
  | some (r, none) =>
    let e := r.fresh
    let nodes := store r.nodes e { next := none, prev := none, value := v }
    match r.head with
    | none =>
      let nodes := store nodes e { nodes e with next := some e }
      let nodes := store nodes e { nodes e with prev := some e }
      some ({ r with nodes := nodes, fresh := e + 1, head := some e, size := r.size + 1 }, true)
    | some head =>
      match (nodes head).prev with
      | none => none
      | some prev =>
        let nodes := store nodes prev { nodes prev with next := some e }
        let nodes := store nodes e { nodes e with prev := some prev }
        let nodes := store nodes e { nodes e with next := some head }
        let nodes := store nodes head { nodes head with prev := some e }
        some ({ r with nodes := nodes, fresh := e + 1, size := r.size + 1 }, true)

/-- The method `Pop()`: the ring, the value `e` and `ok`. -/
def Pop (r : Ring E) : Option (Ring E × E × Bool) :=
  match r.head with
  | none => some (r, default, false)
  | some head =>
    let e := (r.nodes head).value
    let size := r.size - 1
    if size = 0 then some ({ r with head := none, size := size }, e, false)
    else
      match (r.nodes head).next with
      | none => none
      | some next =>
        let nodes := store r.nodes next { r.nodes next with prev := (r.nodes head).prev }
        some ({ r with nodes := nodes, head := some next, size := size }, e, false)

/-- The loop of `Remove(key)`, with its number of rounds left and the local
variable `head`: the ring and `head` as the loop leaves them. -/
def removeLoop (key : String) : Nat → Ring E → Option Nat → Option (Ring E × Option Nat)
  | 0, r, head => some (r, head)
  | rounds + 1, r, head =>
    match r.next with
    | none => none
    | some (r, e) =>
      if Entry.Key (r.nodes e).value = key then
        match (r.nodes e).prev with
        | none => none
        | some prev =>
          let unlink : Option (Ring E × Option Nat) :=
            let nodes := store r.nodes prev { r.nodes prev with next := (r.nodes e).next }
            match head with
            | none => none
            | some h =>
              if Entry.Key (nodes h).value = key then
                some ({ r with nodes := nodes }, (r.nodes e).next)
              else some ({ r with nodes := nodes }, head)
          if Entry.Key (r.nodes prev).value = key then
            match (r.nodes e).next with
            | none => none
            | some next =>
              if Entry.Key (r.nodes next).value = key then some (r, none) else unlink
          else unlink
      else removeLoop key rounds r head

/-- The method `Remove(key)`. -/
def Remove (r : Ring E) (key : String) : Option (Ring E) :=
  match r.head with
  | none => some r
  | some _ =>
    match removeLoop key r.size.toNat r r.head with
    | none => none
    | some (r1, head) => some { r1 with head := head, size := r1.size - 1 }

/-- The method `Next()`: the ring and the value. -/
def Next (r : Ring E) : Option (Ring E × E) :=
  if r.size = 0 then some (r, default)
  else
    match r.next with
    | none => none
    | some (r, n) => some (r, (r.nodes n).value)

/-- The loop of `SeekTo(key)`, with its number of rounds left. -/
def seekLoop (key : String) : Nat → Ring E → Option (Ring E × Bool)
  | 0, r => some (r, false)
  | rounds + 1, r =>
    match r.next with
    | none => none
    | some (r, n) =>
      if Entry.Key (r.nodes n).value = key then some ({ r with head := some n }, true)
      else seekLoop key rounds r

/-- The method `SeekTo(key)`. -/
def SeekTo (r : Ring E) (key : String) : Option (Ring E × Bool) :=
  if r.size = 0 then some (r, false) else seekLoop key r.size.toNat r

/-- The method `Len()`. -/
def Len (r : Ring E) : Int :=
  r.size

/-- The values met from `start` along the `next` links, up to `fuel` of them,
until the links lead back to `stop`. -/
def walk (r : Ring E) (stop : Nat) : Nat → Nat → List E
  | 0, _ => []
  | fuel + 1, n =>
    (r.nodes n).value ::
      (match (r.nodes n).next with
       | none => []
       | some m => if m = stop then [] else walk r stop fuel m)

/-- The values of the nodes on the cycle reached from `r.head` by the `next`
links (at most `fuel` of them); none when the ring is empty. -/
def cycle (r : Ring E) (fuel : Nat) : List E :=
  match r.head with
  | none => []
  | some head => walk r head fuel head

end Ring

/-- One call on a linked ring. -/
inductive RingCall (E : Type) where
  | Push (v : E)
  | Pop
  | Remove (key : String)
  | SeekTo (key : String)
  | Next

/-- The calls of a list, one after the other, on a linked ring. -/
def Ring.run {E : Type} [Entry E] : Ring E → List (RingCall E) → Option (Ring E)
  | r, [] => some r
  | r, .Push v :: rest =>
    match r.Push v with
    | none => none
    | some (r, _) => Ring.run r rest
  | r, .Pop :: rest =>
    match r.Pop with
    | none => none
    | some (r, _, _) => Ring.run r rest
  | r, .Remove key :: rest =>
    match r.Remove key with
    | none => none
    | some r => Ring.run r rest
  | r, .SeekTo key :: rest =>
    match r.SeekTo key with
    | none => none
    | some (r, _) => Ring.run r rest
  | r, .Next :: rest =>
    match r.Next with
    | none => none
    | some (r, _) => Ring.run r rest

end Rings

/-! # Properties -/

set_option linter.unusedSectionVars false

namespace Rings

/-! ## `NewHashed` -/

theorem map_getD_range {α : Type} (l : List α) (d : α) :
    (List.range l.length).map (fun p => l.getD p d) = l := by
  apply List.ext_getElem?
  intro i
  by_cases hi : i < l.length
  · simp [List.getElem?_map, List.getElem?_range hi, List.getD_eq_getElem?_getD,
      List.getElem?_eq_getElem hi]
  · have hi2 : l.length ≤ i := Nat.le_of_not_lt hi
    simp [List.getElem?_eq_none hi2, hi2]

theorem view_NewHashed {E : Type} [Entry E] (entries : List E) :
    (NewHashed entries).view = NewHashedEntries entries := by
  unfold NewHashed HashRing.view
  exact map_getD_range _ _

/-- The records `NewHashed` builds, entry by entry. -/
theorem NewHashedEntries_getElem? {E : Type} (entries : List E) (i : Nat) :
    (NewHashedEntries entries)[i]? = entries[i]?.map (fun entry =>
      { Entry := entry, Active := true, Low := maxEntries / entries.length * i,
        High := if i + 1 = entries.length then maxEntries
                else maxEntries / entries.length * (i + 1) }) := by
  unfold NewHashedEntries
  by_cases h0 : entries.length > 0
  · simp only [h0, if_true, List.length_map]
    rw [List.getElem?_modify]
    simp only [List.getElem?_map, List.getElem?_enum]
    cases hx : entries[i]? with
    | none => simp
    | some x =>
      have hi : i < entries.length := by
        by_contra hc
        rw [List.getElem?_eq_none (Nat.le_of_not_lt hc)] at hx
        cases hx
      by_cases hl : entries.length - 1 = i
      · have : i + 1 = entries.length := by omega
        simp [hl, this]
      · have : ¬ (i + 1 = entries.length) := by omega
        simp [hl, this]
  · have hnil : entries = [] := by
      cases entries with
      | nil => rfl
      | cons a t => simp at h0
    subst hnil
    simp

theorem NewHashedEntries_length {E : Type} (entries : List E) :
    (NewHashedEntries entries).length = entries.length := by
  simp only [NewHashedEntries]
  split <;> simp

/-- C1: for a list of `n` entries with `1 ≤ n ≤ 256`, `NewHashed` builds `n`
ring entries in input order, all active, entry `i` with the range
`[i * span, (i + 1) * span)` for `span = 256 / n`, except that the last range
ends at `256`; two different entries share no slot, and the slots some entry
holds are exactly those of `[0, 256)`. -/
theorem C1_NewHashed_partition {E : Type} [Entry E] (entries : List E)
    (h1 : 1 ≤ entries.length) (h256 : entries.length ≤ 256) :
    (NewHashed entries).view.length = entries.length ∧
    (∀ i, (NewHashed entries).view[i]? = entries[i]?.map (fun entry =>
      ({ Entry := entry, Active := true, Low := i * (256 / entries.length),
         High := if i + 1 = entries.length then 256
                 else (i + 1) * (256 / entries.length) } : HashRingEntry E))) ∧
    (∀ (i j : Nat) (x y : HashRingEntry E), i < j → (NewHashed entries).view[i]? = some x →
      (NewHashed entries).view[j]? = some y →
      ∀ m, ¬ (x.covers m = true ∧ y.covers m = true)) ∧
    (∀ m, m < 256 ↔ ∃ x ∈ (NewHashed entries).view, x.covers m = true) := by
  have hget : ∀ i, (NewHashed entries).view[i]? = entries[i]?.map (fun entry =>
      ({ Entry := entry, Active := true, Low := i * (256 / entries.length),
         High := if i + 1 = entries.length then 256
                 else (i + 1) * (256 / entries.length) } : HashRingEntry E)) := by
    intro i
    rw [view_NewHashed, NewHashedEntries_getElem?]
    simp only [maxEntries, Nat.mul_comm]
  have hlen : (NewHashed entries).view.length = entries.length := by
    simp [NewHashed, HashRing.view, NewHashedEntries]
    split <;> simp
  have hspan : 1 ≤ 256 / entries.length := by
    apply (Nat.le_div_iff_mul_le (by omega)).mpr
    omega
  have hmul : ∀ k, k ≤ entries.length → k * (256 / entries.length) ≤ 256 := by
    intro k hk
    calc k * (256 / entries.length) ≤ entries.length * (256 / entries.length) :=
          Nat.mul_le_mul_right _ hk
      _ ≤ 256 := Nat.mul_div_le 256 entries.length
  refine ⟨hlen, hget, ?_, ?_⟩
  · intro i j x y hij hx hy m ⟨hcx, hcy⟩
    rw [hget] at hx hy
    cases hei : entries[i]? with
    | none => rw [hei] at hx; cases hx
    | some ei =>
      cases hej : entries[j]? with
      | none => rw [hej] at hy; cases hy
      | some ej =>
        have hj : j < entries.length := by
          by_contra hc
          rw [List.getElem?_eq_none (Nat.le_of_not_lt hc)] at hej
          cases hej
        rw [hei] at hx
        rw [hej] at hy
        simp only [Option.map_some', Option.some.injEq] at hx hy
        subst hx
        subst hy
        have hne : ¬ (i + 1 = entries.length) := by omega
        simp only [HashRingEntry.covers, hne, if_false, Bool.and_eq_true,
          decide_eq_true_eq] at hcx hcy
        have : (i + 1) * (256 / entries.length) ≤ j * (256 / entries.length) :=
          Nat.mul_le_mul_right _ (by omega)
        omega
  · intro m
    constructor
    · intro hm
      by_cases hq : m / (256 / entries.length) + 1 < entries.length
      · have hi : m / (256 / entries.length) < entries.length := by omega
        have hx := hget (m / (256 / entries.length))
        rw [List.getElem?_eq_getElem hi] at hx
        simp only [Option.map_some'] at hx
        refine ⟨_, List.getElem?_mem hx, ?_⟩
        have hne : ¬ (m / (256 / entries.length) + 1 = entries.length) := by omega
        simp only [HashRingEntry.covers, hne, if_false, Bool.and_eq_true, decide_eq_true_eq]
        constructor
        · exact Nat.div_mul_le_self m _
        · rw [Nat.mul_comm]
          exact Nat.lt_mul_div_succ m (by omega)
      · have hi : entries.length - 1 < entries.length := by omega
        have hx := hget (entries.length - 1)
        rw [List.getElem?_eq_getElem hi] at hx
        simp only [Option.map_some'] at hx
        refine ⟨_, List.getElem?_mem hx, ?_⟩
        have he : entries.length - 1 + 1 = entries.length := by omega
        simp only [HashRingEntry.covers, he, if_true, Bool.and_eq_true, decide_eq_true_eq]
        refine ⟨?_, hm⟩
        have h3 : entries.length - 1 ≤ m / (256 / entries.length) := by omega
        calc (entries.length - 1) * (256 / entries.length)
            ≤ m / (256 / entries.length) * (256 / entries.length) :=
              Nat.mul_le_mul_right _ h3
          _ ≤ m := Nat.div_mul_le_self m _
    · rintro ⟨x, hx, hc⟩
      obtain ⟨i, hi⟩ := List.getElem?_of_mem hx
      rw [hget] at hi
      cases hei : entries[i]? with
      | none => rw [hei] at hi; cases hi
      | some ei =>
        have hil : i < entries.length := by
          by_contra hcon
          rw [List.getElem?_eq_none (Nat.le_of_not_lt hcon)] at hei
          cases hei
        rw [hei] at hi
        simp only [Option.map_some', Option.some.injEq] at hi
        subst hi
        simp only [HashRingEntry.covers, Bool.and_eq_true, decide_eq_true_eq] at hc
        have := hmul (i + 1) (by omega)
        split at hc <;> omega

/-- C1 at the three entries of `TestHashed`: the ranges are `[0, 85)`,
`[85, 170)` and `[170, 256)`. -/
theorem C1_NewHashed_partition_witness :
    (1 ≤ [Item.mk "1" 1, Item.mk "2" 2, Item.mk "3" 3].length ∧
      [Item.mk "1" 1, Item.mk "2" 2, Item.mk "3" 3].length ≤ 256) ∧
    (NewHashed [Item.mk "1" 1, Item.mk "2" 2, Item.mk "3" 3]).view =
      [⟨Item.mk "1" 1, true, 0, 85⟩, ⟨Item.mk "2" 2, true, 85, 170⟩,
        ⟨Item.mk "3" 3, true, 170, 256⟩] ∧
    (∀ m, m < 256 ↔ ∃ x ∈ (NewHashed [Item.mk "1" 1, Item.mk "2" 2, Item.mk "3" 3]).view,
      x.covers m = true) :=
  ⟨⟨by decide, by decide⟩, by decide,
    (C1_NewHashed_partition [Item.mk "1" 1, Item.mk "2" 2, Item.mk "3" 3]
      (by decide) (by decide)).2.2.2⟩

/-! ## `HashRingEntries.Get` -/

namespace HashRingEntries

variable {E : Type}

theorem scan_first (n : Nat) (entries : List (HashRingEntry E)) (i s : Nat) (x : HashRingEntry E)
    (hi : entries[i]? = some x) (hc : x.covers n = true)
    (hfirst : ∀ k y, k < i → entries[k]? = some y → y.covers n = false) :
    scan n entries s = some (s + i) := by
  induction entries generalizing i s with
  | nil => simp at hi
  | cons a t ih =>
    cases i with
    | zero =>
      simp only [List.getElem?_cons_zero, Option.some.injEq] at hi
      subst hi
      simp [scan, hc]
    | succ i =>
      have ha : a.covers n = false := hfirst 0 a (Nat.succ_pos i) (by simp)
      simp only [List.getElem?_cons_succ] at hi
      have := ih i (s + 1) hi (fun k y hk hy => hfirst (k + 1) y (by omega) (by simpa using hy))
      simp only [scan, ha, Bool.false_eq_true, if_false, this]
      congr 1
      omega

theorem scan_none (n : Nat) (entries : List (HashRingEntry E)) (s : Nat)
    (h : ∀ x ∈ entries, x.covers n = false) : scan n entries s = none := by
  induction entries generalizing s with
  | nil => rfl
  | cons a t ih =>
    have ha : a.covers n = false := h a (by simp)
    simp only [scan, ha, Bool.false_eq_true, if_false]
    exact ih (s + 1) (fun x hx => h x (by simp [hx]))

theorem walkBack_inactive (entries : List (HashRingEntry E)) (idx : Nat) (e0 : HashRingEntry E)
    (hlen : idx ≤ entries.length)
    (h : ∀ k z, k < idx → entries[k]? = some z → z.Active = false) :
    ∃ e, walkBack entries idx e0 = some (e, false) := by
  induction idx generalizing e0 with
  | zero => exact ⟨e0, rfl⟩
  | succ idx ih =>
    have hlt : idx < entries.length := by omega
    have hz := h idx entries[idx] (by omega) (List.getElem?_eq_getElem hlt)
    simp only [walkBack, List.getElem?_eq_getElem hlt, hz, Bool.false_eq_true, if_false]
    exact ih _ (by omega) (fun k z hk hz => h k z (by omega) hz)

theorem walkBack_active (entries : List (HashRingEntry E)) (idx j : Nat) (e0 y : HashRingEntry E)
    (hj : j < idx) (hy : entries[j]? = some y) (hact : y.Active = true)
    (hlen : idx ≤ entries.length)
    (h : ∀ k z, j < k → k < idx → entries[k]? = some z → z.Active = false) :
    walkBack entries idx e0 = some (y, true) := by
  induction idx generalizing e0 with
  | zero => omega
  | succ idx ih =>
    have hlt : idx < entries.length := by omega
    by_cases hji : j = idx
    · subst hji
      simp [walkBack, hy, hact]
    · have hz := h idx entries[idx] (by omega) (by omega) (List.getElem?_eq_getElem hlt)
      simp only [walkBack, List.getElem?_eq_getElem hlt, hz, Bool.false_eq_true, if_false]
      exact ih _ (by omega) (by omega) (fun k z hk1 hk2 hz => h k z hk1 (by omega) hz)

theorem walkBack_has (entries : List (HashRingEntry E)) (idx : Nat) (e0 e : HashRingEntry E)
    (h : walkBack entries idx e0 = some (e, true)) :
    ∃ j, j < idx ∧ entries[j]? = some e ∧ e.Active = true := by
  induction idx generalizing e0 with
  | zero => simp [walkBack] at h
  | succ idx ih =>
    simp only [walkBack] at h
    cases hx : entries[idx]? with
    | none => simp [hx] at h
    | some x =>
      simp only [hx] at h
      by_cases ha : x.Active = true
      · simp only [ha, if_true, Option.some.injEq, Prod.mk.injEq, and_true] at h
        subst h
        exact ⟨idx, by omega, hx, ha⟩
      · simp only [ha, if_false] at h
        obtain ⟨j, hj, hje, hja⟩ := ih x h
        exact ⟨j, by omega, hje, hja⟩

end HashRingEntries

/-- C2: let `i` be the first index of the list whose range holds the slot `n`.
If entry `i` is active, `Get(n)` returns it with `has = true`; if it is not,
`Get(n)` returns with `has = true` the entry at the greatest index `j < i` that
is active; and `Get(n)` returns normally, with `has = false` exactly when no
entry at an index `≤ i` is active. -/
theorem C2_Get_first_or_nearest_lower {E : Type} (entries : List (HashRingEntry E)) (n i : Nat)
    (x : HashRingEntry E) (hi : entries[i]? = some x) (hc : x.covers n = true)
    (hfirst : ∀ k y, k < i → entries[k]? = some y → y.covers n = false) :
    (x.Active = true → HashRingEntries.Get entries n = some (x, true)) ∧
    (x.Active = false → ∀ j y, j < i → entries[j]? = some y → y.Active = true →
      (∀ k z, j < k → k < i → entries[k]? = some z → z.Active = false) →
      HashRingEntries.Get entries n = some (y, true)) ∧
    (∃ e has, HashRingEntries.Get entries n = some (e, has) ∧
      (has = false ↔ ∀ k z, k ≤ i → entries[k]? = some z → z.Active = false)) := by
  have hscan := HashRingEntries.scan_first n entries i 0 x hi hc hfirst
  rw [Nat.zero_add] at hscan
  have hlt : i < entries.length := by
    by_contra hcon
    rw [List.getElem?_eq_none (Nat.le_of_not_lt hcon)] at hi
    cases hi
  refine ⟨?_, ?_, ?_⟩
  · intro ha
    simp [HashRingEntries.Get, hscan, hi, ha]
  · intro ha j y hj hy hya hbetween
    simp only [HashRingEntries.Get, hscan, hi, ha, Bool.false_eq_true, if_false]
    exact HashRingEntries.walkBack_active entries i j x y hj hy hya (by omega) hbetween
  · by_cases ha : x.Active = true
    · refine ⟨x, true, by simp [HashRingEntries.Get, hscan, hi, ha], ?_⟩
      constructor
      · intro h
        cases h
      · intro h
        have := h i x (Nat.le_refl i) hi
        rw [ha] at this
        cases this
    · have ha2 : x.Active = false := by simpa using ha
      by_cases hall : ∀ k z, k < i → entries[k]? = some z → z.Active = false
      · obtain ⟨e, he⟩ := HashRingEntries.walkBack_inactive entries i x (by omega) hall
        refine ⟨e, false, by simp [HashRingEntries.Get, hscan, hi, ha2, he], ?_⟩
        constructor
        · intro _ k z hk hz
          by_cases hki : k = i
          · subst hki
            rw [hi] at hz
            cases hz
            exact ha2
          · exact hall k z (by omega) hz
        · intro _
          rfl
      · have hex : ∃ j, j < i ∧ ∃ z, entries[j]? = some z ∧ z.Active = true := by
          by_contra hcon
          apply hall
          intro k z hk hz
          by_contra hza
          exact hcon ⟨k, hk, z, hz, by simpa using hza⟩
        have hfin : ∃ j, j < i ∧ (∃ z, entries[j]? = some z ∧ z.Active = true) ∧
            ∀ k, j < k → k < i → ¬ ∃ z, entries[k]? = some z ∧ z.Active = true := by
          classical
          obtain ⟨j, hj⟩ := hex
          let S := (Finset.range i).filter
            (fun j => ∃ z, entries[j]? = some z ∧ z.Active = true)
          have hne : S.Nonempty := ⟨j, by simp [S, hj.1, hj.2]⟩
          refine ⟨S.max' hne, ?_, ?_, ?_⟩
          · have := S.max'_mem hne
            simp only [S, Finset.mem_filter, Finset.mem_range] at this
            exact this.1
          · have := S.max'_mem hne
            simp only [S, Finset.mem_filter, Finset.mem_range] at this
            exact this.2
          · intro k hk1 hk2 hkz
            have hkS : k ∈ S := by simp [S, hk2, hkz]
            have := S.le_max' k hkS
            omega
        obtain ⟨j, hj, ⟨y, hy, hya⟩, hmax⟩ := hfin
        have hw := HashRingEntries.walkBack_active entries i j x y hj hy hya (by omega)
          (fun k z hk1 hk2 hz => by
            by_contra hza
            exact hmax k hk1 hk2 ⟨z, hz, by simpa using hza⟩)
        refine ⟨y, true, by simp [HashRingEntries.Get, hscan, hi, ha2, hw], ?_⟩
        constructor
        · intro h
          cases h
        · intro h
          have := h j y (by omega) hy
          rw [hya] at this
          cases this

/-- C2 on the ring `A:[0,85)`, `B:[85,170)` staged, `C:[170,256)`: slot `90`
falls to the staged `B` and is answered by `A`. -/
theorem C2_Get_first_or_nearest_lower_witness :
    HashRingEntries.Get
      [⟨Item.mk "A" 1, true, 0, 85⟩, ⟨Item.mk "B" 2, false, 85, 170⟩,
        ⟨Item.mk "C" 3, true, 170, 256⟩] 90 = some (⟨Item.mk "A" 1, true, 0, 85⟩, true) :=
  (C2_Get_first_or_nearest_lower
    [⟨Item.mk "A" 1, true, 0, 85⟩, ⟨Item.mk "B" 2, false, 85, 170⟩,
      ⟨Item.mk "C" 3, true, 170, 256⟩] 90 1 ⟨Item.mk "B" 2, false, 85, 170⟩
    (by decide) (by decide)
    (by
      intro k y hk hy
      have hk0 : k = 0 := by omega
      subst hk0
      simp only [List.getElem?_cons_zero, Option.some.injEq] at hy
      subst hy
      decide)).2.1 rfl 0 ⟨Item.mk "A" 1, true, 0, 85⟩ (by decide) (by decide) (by decide)
    (by
      intro k z hk1 hk2
      omega)

/-- C3: `HashRing.Get` panics where no entry holds the slot of the key (the
result `none` is the index-out-of-range panic of `entries[idx]` with
`idx = -1`): on the empty ring `NewHashed()` for every key, and on the ring
with the one declared range `[0, 10)` for a key hashing to slot `20`. -/
theorem C3_Get_panics_without_owner :
    (∀ (sum64 : List Nat → Nat) (key : List Nat),
      HashRing.Get sum64 (NewHashed ([] : List Item)) key = none) ∧
    HashRing.Get (fun (_ : List Nat) => 20)
      ((NewHashed ([] : List Item)).AddDeclared insertionSort (Item.mk "A" 1) 0 10).1 [] = none :=
  ⟨fun _ _ => rfl, by decide⟩

/-! ## `sort.Sort` -/

theorem sink_perm (less : Nat → Nat → Bool) (x : Nat) (front : List Nat) :
    (sink less x front).Perm (x :: front) := by
  induction front with
  | nil => exact List.Perm.refl _
  | cons y t ih =>
    by_cases h : less x y = true
    · simp only [sink, h, if_true]
      exact (List.Perm.cons y ih).trans (List.Perm.swap x y t)
    · simp only [sink, h, if_false]
      exact List.Perm.refl _

theorem insertionLoop_perm (less : Nat → Nat → Bool) (done rest : List Nat) :
    (insertionLoop less done rest).Perm (done ++ rest) := by
  induction rest generalizing done with
  | nil =>
    simp only [insertionLoop, List.append_nil]
    exact List.reverse_perm done
  | cons x t ih =>
    simp only [insertionLoop]
    refine (ih _).trans ?_
    refine ((sink_perm less x done).append_right t).trans ?_
    exact List.perm_middle.symm

theorem sink_sorted (less : Nat → Nat → Bool)
    (htrans : ∀ a b c, less a b = true → less b c = true → less a c = true)
    (hirr : ∀ a, less a a = false)
    (hneg : ∀ a b c, less a b = false → less b c = false → less a c = false)
    (x : Nat) (front : List Nat) (h : front.Pairwise (fun a b => less a b = false)) :
    (sink less x front).Pairwise (fun a b => less a b = false) := by
  induction front with
  | nil => simp [sink]
  | cons y t ih =>
    rw [List.pairwise_cons] at h
    by_cases hxy : less x y = true
    · rw [sink, if_pos hxy, List.pairwise_cons]
      refine ⟨?_, ih h.2⟩
      intro b hb
      rcases List.mem_cons.mp ((sink_perm less x t).mem_iff.mp hb) with hbx | hbt
      · subst hbx
        by_contra hc
        have hyb : less y b = true := by simpa using hc
        have := htrans b y b hxy hyb
        rw [hirr b] at this
        cases this
      · exact h.1 b hbt
    · have hxy2 : less x y = false := by simpa using hxy
      rw [sink, if_neg hxy, List.pairwise_cons]
      refine ⟨?_, List.pairwise_cons.mpr h⟩
      intro b hb
      rcases List.mem_cons.mp hb with hby | hbt
      · subst hby
        exact hxy2
      · exact hneg x y b hxy2 (h.1 b hbt)

theorem insertionLoop_sorted (less : Nat → Nat → Bool)
    (htrans : ∀ a b c, less a b = true → less b c = true → less a c = true)
    (hirr : ∀ a, less a a = false)
    (hneg : ∀ a b c, less a b = false → less b c = false → less a c = false)
    (done rest : List Nat) (h : done.Pairwise (fun a b => less a b = false)) :
    (insertionLoop less done rest).Pairwise (fun a b => less b a = false) := by
  induction rest generalizing done with
  | nil =>
    simp only [insertionLoop]
    exact List.pairwise_reverse.mpr h
  | cons x t ih =>
    simp only [insertionLoop]
    exact ih _ (sink_sorted less htrans hirr hneg x done h)

/-- Go's insertion sort does what is assumed of `sort.Sort`. -/
theorem insertionSort_spec : SortSpec insertionSort where
  perm := fun less data => by
    simpa [insertionSort] using insertionLoop_perm less [] data
  sorted := fun less data hirr htrans hneg =>
    insertionLoop_sorted less htrans hirr hneg [] data List.Pairwise.nil

theorem WF_NewHashed {E : Type} [Entry E] (entries : List E) : (NewHashed entries).WF := by
  refine ⟨List.nodup_range _, ?_⟩
  intro p hp
  exact List.mem_range.mp hp

/-! ## `intersect` and `AddDeclared` -/

theorem intersectInner_iff (s rounds t : Nat) :
    intersectInner s rounds t = true ↔ t ≤ s ∧ s < t + rounds := by
  induction rounds generalizing t with
  | zero => simp [intersectInner]
  | succ k ih =>
    by_cases hst : s = t
    · subst hst
      simp [intersectInner]
    · simp only [intersectInner, hst, if_false, ih]
      omega

theorem intersectOuter_iff (tLow tHigh rounds s : Nat) :
    intersectOuter tLow tHigh rounds s = true ↔
      ∃ x, s ≤ x ∧ x < s + rounds ∧ tLow ≤ x ∧ x < tHigh := by
  induction rounds generalizing s with
  | zero =>
    simp only [intersectOuter, Bool.false_eq_true, false_iff]
    rintro ⟨x, h1, h2, _, _⟩
    omega
  | succ k ih =>
    by_cases hin : intersectInner s (tHigh - tLow) tLow = true
    · rw [intersectOuter, if_pos hin]
      rw [intersectInner_iff] at hin
      simp only [true_iff]
      exact ⟨s, by omega, by omega, by omega, by omega⟩
    · rw [intersectOuter, if_neg hin, ih]
      rw [intersectInner_iff] at hin
      constructor
      · rintro ⟨x, h1, h2, h3, h4⟩
        exact ⟨x, by omega, by omega, h3, h4⟩
      · rintro ⟨x, h1, h2, h3, h4⟩
        refine ⟨x, ?_, by omega, h3, h4⟩
        by_contra hc
        have : x = s := by omega
        subst this
        omega

theorem intersect_iff (sLow sHigh tLow tHigh : Nat) :
    intersect sLow sHigh tLow tHigh = true ↔ max sLow tLow < min sHigh tHigh := by
  unfold intersect
  rw [intersectOuter_iff]
  constructor
  · rintro ⟨x, h1, h2, h3, h4⟩
    simp only [Nat.lt_min, Nat.max_lt]
    omega
  · intro h
    simp only [Nat.lt_min, Nat.max_lt] at h
    refine ⟨max sLow tLow, ?_, ?_, ?_, ?_⟩ <;> simp only [Nat.max_def] <;> split <;> omega

theorem store_same {E : Type} (heap : Nat → HashRingEntry E) (p : Nat) (v : HashRingEntry E) :
    HashRing.store heap p v p = v := by
  simp [HashRing.store]

theorem store_of_ne {E : Type} (heap : Nat → HashRingEntry E) (p : Nat) (v : HashRingEntry E)
    (q : Nat) (h : q ≠ p) : HashRing.store heap p v q = heap q := by
  simp [HashRing.store, h]

theorem store_store {E : Type} (heap : Nat → HashRingEntry E) (p : Nat)
    (v w : HashRingEntry E) :
    HashRing.store (HashRing.store heap p v) p w = HashRing.store heap p w := by
  funext q
  simp only [HashRing.store]
  split <;> rfl

theorem store_fresh {E : Type} (r : HashRing E) (hwf : r.WF) (v : HashRingEntry E) :
    ∀ p ∈ r.entries, HashRing.store r.heap r.next v p = r.heap p := by
  intro p hp
  have := hwf.2 p hp
  simp only [HashRing.store]
  rw [if_neg (by omega)]

theorem AddDeclared_full {E : Type} [Entry E]
    (srt : (Nat → Nat → Bool) → List Nat → List Nat) (r : HashRing E) (e : E) (low high : Nat)
    (hfull : r.entries.length ≥ maxEntries) : r.AddDeclared srt e low high = (r, false) := by
  rw [HashRing.AddDeclared, if_pos hfull]

theorem AddDeclared_empty {E : Type} [Entry E]
    (srt : (Nat → Nat → Bool) → List Nat → List Nat) (r : HashRing E) (e : E) (low high : Nat)
    (hfull : ¬ r.entries.length ≥ maxEntries) (h0 : r.entries.length = 0) :
    r.AddDeclared srt e low high =
      ({ heap := HashRing.store r.heap r.next
            { Entry := e, Active := true, Low := low, High := high }
         next := r.next + 1, entries := r.entries ++ [r.next] }, true) := by
  rw [HashRing.AddDeclared, if_neg hfull]
  simp only [if_pos h0]

theorem AddDeclared_overlap {E : Type} [Entry E]
    (srt : (Nat → Nat → Bool) → List Nat → List Nat) (r : HashRing E) (e : E) (low high : Nat)
    (hfull : ¬ r.entries.length ≥ maxEntries) (h0 : ¬ r.entries.length = 0)
    (hov : (r.entries.any (fun p => intersect
      (HashRing.store r.heap r.next { Entry := e, Active := true, Low := low, High := high } p).Low
      (HashRing.store r.heap r.next { Entry := e, Active := true, Low := low, High := high } p).High
      low high)) = true) :
    r.AddDeclared srt e low high =
      ({ heap := HashRing.store r.heap r.next
            { Entry := e, Active := true, Low := low, High := high }
         next := r.next + 1, entries := r.entries }, false) := by
  rw [HashRing.AddDeclared, if_neg hfull]
  simp only [if_neg h0, if_pos hov]

theorem AddDeclared_inserted {E : Type} [Entry E]
    (srt : (Nat → Nat → Bool) → List Nat → List Nat) (r : HashRing E) (e : E) (low high : Nat)
    (hfull : ¬ r.entries.length ≥ maxEntries) (h0 : ¬ r.entries.length = 0)
    (hov : ¬ (r.entries.any (fun p => intersect
      (HashRing.store r.heap r.next { Entry := e, Active := true, Low := low, High := high } p).Low
      (HashRing.store r.heap r.next { Entry := e, Active := true, Low := low, High := high } p).High
      low high)) = true) :
    r.AddDeclared srt e low high =
      ({ heap := HashRing.store r.heap r.next
            { Entry := e, Active := true, Low := low, High := high }
         next := r.next + 1
         entries := srt (HashRing.lessAt (HashRing.store r.heap r.next
            { Entry := e, Active := true, Low := low, High := high })) (r.entries ++ [r.next]) },
        true) := by
  rw [HashRing.AddDeclared, if_neg hfull]
  simp only [if_neg h0, if_neg hov]

/-- C10: on a ring with fewer than 256 entries `AddDeclared(e, low, high)`
returns `ok = false` exactly when some entry `[eLow, eHigh)` of the ring has
`max(eLow, low) < min(eHigh, high)`, which is what `intersect` decides for all
arguments; on `ok = false`, whatever the size of the ring, the entry list and
every record are as before; on `ok = true` the ring holds the entries it held,
unchanged, and the new active entry `e` with the range `[low, high)`. -/
theorem C10_AddDeclared_overlap {E : Type} [Entry E]
    (srt : (Nat → Nat → Bool) → List Nat → List Nat) (hs : SortSpec srt)
    (r : HashRing E) (hwf : r.WF) (e : E) (low high : Nat) :
    (r.entries.length < 256 →
      ((r.AddDeclared srt e low high).2 = false ↔
        ∃ x ∈ r.view, max x.Low low < min x.High high)) ∧
    (∀ sLow sHigh tLow tHigh,
      intersect sLow sHigh tLow tHigh = true ↔ max sLow tLow < min sHigh tHigh) ∧
    ((r.AddDeclared srt e low high).2 = false →
      (r.AddDeclared srt e low high).1.entries = r.entries ∧
      (r.AddDeclared srt e low high).1.view = r.view) ∧
    ((r.AddDeclared srt e low high).2 = true →
      (r.AddDeclared srt e low high).1.view.Perm
        (r.view ++ [{ Entry := e, Active := true, Low := low, High := high }])) := by
  have hfresh := store_fresh r hwf { Entry := e, Active := true, Low := low, High := high }
  have hnext : HashRing.store r.heap r.next
      { Entry := e, Active := true, Low := low, High := high } r.next =
      { Entry := e, Active := true, Low := low, High := high } := by
    simp [HashRing.store]
  have hview : r.entries.map (HashRing.store r.heap r.next
      { Entry := e, Active := true, Low := low, High := high }) = r.view := by
    unfold HashRing.view
    exact List.map_congr_left hfresh
  have hany : (r.entries.any (fun p => intersect
      (HashRing.store r.heap r.next { Entry := e, Active := true, Low := low, High := high } p).Low
      (HashRing.store r.heap r.next { Entry := e, Active := true, Low := low, High := high } p).High
      low high) = true) ↔ ∃ x ∈ r.view, max x.Low low < min x.High high := by
    simp only [List.any_eq_true, HashRing.view, List.mem_map]
    constructor
    · rintro ⟨p, hp, hint⟩
      rw [hfresh p hp, intersect_iff] at hint
      exact ⟨r.heap p, ⟨p, hp, rfl⟩, hint⟩
    · rintro ⟨x, ⟨p, hp, rfl⟩, hx⟩
      refine ⟨p, hp, ?_⟩
      rw [hfresh p hp, intersect_iff]
      exact hx
  by_cases hfull : r.entries.length ≥ maxEntries
  · rw [AddDeclared_full srt r e low high hfull]
    refine ⟨?_, intersect_iff, fun _ => ⟨rfl, rfl⟩, ?_⟩
    · intro hlen
      simp only [maxEntries] at hfull
      omega
    · intro h
      cases h
  · by_cases h0 : r.entries.length = 0
    · rw [AddDeclared_empty srt r e low high hfull h0]
      have hnil : r.entries = [] := List.length_eq_zero.mp h0
      refine ⟨?_, intersect_iff, ?_, ?_⟩
      · intro _
        simp [HashRing.view, hnil]
      · intro h
        cases h
      · intro _
        simp [HashRing.view, hnil, hnext]
    · by_cases hov : (r.entries.any (fun p => intersect
        (HashRing.store r.heap r.next
          { Entry := e, Active := true, Low := low, High := high } p).Low
        (HashRing.store r.heap r.next
          { Entry := e, Active := true, Low := low, High := high } p).High
        low high) = true)
      · rw [AddDeclared_overlap srt r e low high hfull h0 hov]
        refine ⟨?_, intersect_iff, ?_, ?_⟩
        · intro _
          simp only [true_iff]
          exact hany.mp hov
        · intro _
          exact ⟨rfl, hview⟩
        · intro h
          cases h
      · rw [AddDeclared_inserted srt r e low high hfull h0 hov]
        refine ⟨?_, intersect_iff, ?_, ?_⟩
        · intro _
          simp only [Bool.true_eq_false, false_iff]
          exact fun hx => hov (hany.mpr hx)
        · intro h
          cases h
        · intro _
          unfold HashRing.view
          refine ((hs.perm _ _).map _).trans ?_
          simp only [List.map_append, List.map_cons, List.map_nil, hnext]
          rw [hview]
          rfl

/-- C10 on `A:[0,85)`, `B:[85,170)`, `C:[170,256)`: declaring `[80, 90)` for `D`
is refused and the ring stays as it was. -/
theorem C10_AddDeclared_overlap_witness :
    SortSpec insertionSort ∧
    (NewHashed [Item.mk "A" 1, Item.mk "B" 2, Item.mk "C" 3]).WF ∧
    ((NewHashed [Item.mk "A" 1, Item.mk "B" 2, Item.mk "C" 3]).AddDeclared insertionSort
      (Item.mk "D" 4) 80 90).2 = false ∧
    ((NewHashed [Item.mk "A" 1, Item.mk "B" 2, Item.mk "C" 3]).AddDeclared insertionSort
      (Item.mk "D" 4) 80 90).1.view =
      (NewHashed [Item.mk "A" 1, Item.mk "B" 2, Item.mk "C" 3]).view :=
  ⟨insertionSort_spec, WF_NewHashed _, by decide,
    ((C10_AddDeclared_overlap insertionSort insertionSort_spec
      (NewHashed [Item.mk "A" 1, Item.mk "B" 2, Item.mk "C" 3]) (WF_NewHashed _)
      (Item.mk "D" 4) 80 90).2.2.1 (by decide)).2⟩

/-! ## `Add` case by case -/

section AddCases

variable {E : Type} [Entry E] (srt : (Nat → Nat → Bool) → List Nat → List Nat)

theorem Add_full (r : HashRing E) (e : E) (hfull : r.entries.length ≥ maxEntries) :
    r.Add srt e = some { ring := r, prevActive := default, cLow := 0, cHigh := 0,
                         closures := none, ok := false } := by
  rw [HashRing.Add, if_pos hfull]

theorem Add_empty (r : HashRing E) (e : E) (h0 : r.entries.length = 0) :
    r.Add srt e = some
      { ring := { heap := HashRing.store r.heap r.next
                    { Entry := e, Active := false, Low := 0, High := maxEntries }
                  next := r.next + 1, entries := r.entries ++ [r.next] }
        prevActive := default, cLow := 0, cHigh := maxEntries
        closures := some { hashed := r.next, prevActiveHashed := none, entry := e }
        ok := true } := by
  have hfull : ¬ r.entries.length ≥ maxEntries := by
    simp only [maxEntries]
    omega
  rw [HashRing.Add, if_neg hfull]
  simp only [if_pos h0, HashRing.store, if_true]

theorem Add_refused (r : HashRing E) (e : E) (target : Nat)
    (hfull : ¬ r.entries.length ≥ maxEntries) (h0 : ¬ r.entries.length = 0)
    (hlast : (srt (HashRing.rangeSizeLessAt (r.allocated e)) r.entries).getLast? = some target)
    (hact : (r.allocated e target).Active = false) :
    r.Add srt e = some
      { ring := { heap := r.allocated e, next := r.next + 1, entries := r.resorted srt e }
        prevActive := default, cLow := 0, cHigh := 0, closures := none, ok := false } := by
  unfold HashRing.allocated at hlast hact
  unfold HashRing.resorted HashRing.allocated
  rw [HashRing.Add, if_neg hfull]
  simp only [if_neg h0, HashRing.BiggestRangeAndActiveOne, hlast, hact, Bool.not_false, if_true]

theorem Add_split (r : HashRing E) (hwf : r.WF) (e : E) (P : Nat) (hP : P ∈ r.entries)
    (hfull : ¬ r.entries.length ≥ maxEntries) (h0 : ¬ r.entries.length = 0)
    (hlast : (srt (HashRing.rangeSizeLessAt (r.allocated e)) r.entries).getLast? = some P)
    (hact : (r.heap P).Active = true) :
    r.Add srt e = some
      { ring := r.split srt e P
        prevActive := (r.heap P).Entry
        cLow := (r.heap P).mid
        cHigh := (r.heap P).High
        closures := some { hashed := r.next, prevActiveHashed := some P, entry := e }
        ok := true } := by
  have hPn : P ≠ r.next := by
    have := hwf.2 P hP
    omega
  have h1 : HashRing.store r.heap r.next
      { Entry := e, Active := false, Low := 0, High := maxEntries } P = r.heap P := by
    simp [HashRing.store, hPn]
  unfold HashRing.allocated at hlast
  unfold HashRing.split HashRing.splitHeap HashRing.resorted HashRing.allocated
    HashRingEntry.mid
  rw [HashRing.Add, if_neg hfull]
  simp only [if_neg h0, HashRing.BiggestRangeAndActiveOne, hlast, h1, hact, Bool.not_true,
    Bool.false_eq_true, if_false, store_same, store_store,
    fun heap v => store_of_ne heap r.next v P hPn,
    fun heap v => store_of_ne heap P v r.next (Ne.symm hPn)]

theorem allocated_of_mem (r : HashRing E) (hwf : r.WF) (e : E) (p : Nat) (hp : p ∈ r.entries) :
    r.allocated e p = r.heap p :=
  store_fresh r hwf _ p hp

/-- The entry `Add` looks at: the last one after the sort by range size. -/
theorem Add_target (hs : SortSpec srt) (r : HashRing E) (e : E) (h0 : ¬ r.entries.length = 0) :
    ∃ target, (srt (HashRing.rangeSizeLessAt (r.allocated e)) r.entries).getLast? = some target ∧
      target ∈ r.entries := by
  have hperm := hs.perm (HashRing.rangeSizeLessAt (r.allocated e)) r.entries
  have hne : srt (HashRing.rangeSizeLessAt (r.allocated e)) r.entries ≠ [] := by
    intro hnil
    rw [hnil] at hperm
    exact h0 (by simpa using hperm.length_eq.symm)
  refine ⟨_, List.getLast?_eq_getLast _ hne, ?_⟩
  exact hperm.mem_iff.mp (List.getLast_mem hne)

theorem resorted_perm (hs : SortSpec srt) (r : HashRing E) (e : E) :
    (r.resorted srt e).Perm r.entries :=
  (hs.perm _ _).trans (hs.perm _ _)

theorem split_entries_perm (hs : SortSpec srt) (r : HashRing E) (e : E) (P : Nat) :
    (r.split srt e P).entries.Perm (r.entries ++ [r.next]) :=
  (hs.perm _ _).trans ((resorted_perm srt hs r e).append_right _)

theorem splitHeap_next (r : HashRing E) (hwf : r.WF) (e : E) (P : Nat) (hP : P ∈ r.entries) :
    r.splitHeap e P r.next =
      { Entry := e, Active := false, Low := (r.heap P).mid, High := (r.heap P).High } := by
  have hPn : r.next ≠ P := by
    have := hwf.2 P hP
    omega
  rw [HashRing.splitHeap, store_of_ne _ _ _ _ hPn, store_same]

theorem splitHeap_source (r : HashRing E) (e : E) (P : Nat) :
    r.splitHeap e P P = { r.heap P with High := (r.heap P).mid } := by
  rw [HashRing.splitHeap, store_same]

theorem splitHeap_other (r : HashRing E) (e : E) (P q : Nat) (hq : q ≠ P) (hn : q ≠ r.next) :
    r.splitHeap e P q = r.heap q := by
  rw [HashRing.splitHeap, store_of_ne _ _ _ _ hq, store_of_ne _ _ _ _ hn]

/-- Every call of `Add` on a ring below capacity that is not empty ends in one
of two ways, decided by the entry that the sort by range size puts last. -/
theorem Add_cases (hs : SortSpec srt) (r : HashRing E) (hwf : r.WF) (e : E)
    (hfull : ¬ r.entries.length ≥ maxEntries) (h0 : ¬ r.entries.length = 0) :
    ∃ P, P ∈ r.entries ∧
      (srt (HashRing.rangeSizeLessAt (r.allocated e)) r.entries).getLast? = some P ∧
      (((r.heap P).Active = false ∧
        r.Add srt e = some
          { ring := { heap := r.allocated e, next := r.next + 1, entries := r.resorted srt e }
            prevActive := default, cLow := 0, cHigh := 0, closures := none, ok := false }) ∨
       ((r.heap P).Active = true ∧
        r.Add srt e = some
          { ring := r.split srt e P
            prevActive := (r.heap P).Entry
            cLow := (r.heap P).mid
            cHigh := (r.heap P).High
            closures := some { hashed := r.next, prevActiveHashed := some P, entry := e }
            ok := true })) := by
  obtain ⟨P, hlast, hP⟩ := Add_target srt hs r e h0
  refine ⟨P, hP, hlast, ?_⟩
  by_cases hact : (r.heap P).Active = true
  · exact Or.inr ⟨hact, Add_split srt r hwf e P hP hfull h0 hlast hact⟩
  · have hact2 : (r.heap P).Active = false := by simpa using hact
    refine Or.inl ⟨hact2, Add_refused srt r e P hfull h0 hlast ?_⟩
    rw [allocated_of_mem r hwf e P hP]
    exact hact2

end AddCases

/-- C4: `Add` splits an entry that is not the largest active one.  On the ring
built by `NewHashed(A, B)`, `Add(C)`, `Add(D)`, `active` of `C`, `Add(E)`,
`Add(F)`, `active` of `E`, which is `A:[0,64)`, `D:[64,128)` staged,
`B:[128,160)`, `F:[160,192)` staged, `C:[192,224)`, `E:[224,256)`, the call
`Add(G)` succeeds with previous owner `E` (size 32) and stages `[240,256)`, while
the active `A` has size 64.  (Six entries: `sort.Sort` is the insertion sort.) -/
theorem C4_Add_splits_smaller_active_range :
    (Session.run insertionSort (Session.start [Item.mk "A" 1, Item.mk "B" 2])
      [.Add (Item.mk "C" 3), .Add (Item.mk "D" 4), .active 0, .Add (Item.mk "E" 5),
        .Add (Item.mk "F" 6), .active 2]).map (fun s => s.ring.view) =
      some [⟨Item.mk "A" 1, true, 0, 64⟩, ⟨Item.mk "D" 4, false, 64, 128⟩,
        ⟨Item.mk "B" 2, true, 128, 160⟩, ⟨Item.mk "F" 6, false, 160, 192⟩,
        ⟨Item.mk "C" 3, true, 192, 224⟩, ⟨Item.mk "E" 5, true, 224, 256⟩] ∧
    (Session.run insertionSort (Session.start [Item.mk "A" 1, Item.mk "B" 2])
      [.Add (Item.mk "C" 3), .Add (Item.mk "D" 4), .active 0, .Add (Item.mk "E" 5),
        .Add (Item.mk "F" 6), .active 2]).bind (fun s =>
          (s.ring.Add insertionSort (Item.mk "G" 7)).map
            (fun res => (res.ok, res.prevActive, res.cLow, res.cHigh, res.ring.view))) =
      some (true, Item.mk "E" 5, 240, 256,
        [⟨Item.mk "A" 1, true, 0, 64⟩, ⟨Item.mk "D" 4, false, 64, 128⟩,
          ⟨Item.mk "B" 2, true, 128, 160⟩, ⟨Item.mk "F" 6, false, 160, 192⟩,
          ⟨Item.mk "C" 3, true, 192, 224⟩, ⟨Item.mk "E" 5, true, 224, 240⟩,
          ⟨Item.mk "G" 7, false, 240, 256⟩]) := by
  constructor <;> decide

/-- `Add` is refused although an active entry is there to split: after
`NewHashed(A)` and `Add(B)` the ring is `A:[0,128)`, `B:[128,256)` staged, the
sort by range size leaves the staged `B` last, and `Add(C)` returns `ok = false`. -/
theorem Add_refused_beside_active_entry :
    (Session.run insertionSort (Session.start [Item.mk "A" 1]) [.Add (Item.mk "B" 2)]).map
      (fun s => s.ring.view) =
      some [⟨Item.mk "A" 1, true, 0, 128⟩, ⟨Item.mk "B" 2, false, 128, 256⟩] ∧
    (Session.run insertionSort (Session.start [Item.mk "A" 1]) [.Add (Item.mk "B" 2)]).bind
      (fun s => (s.ring.Add insertionSort (Item.mk "C" 3)).map (fun res => res.ok)) =
      some false := by
  constructor <;> decide

/-- C5, as the code has it, at the empty ring: `Add` stages the entry over
`[0, 256)` and returns `ok = true`. -/
theorem C5_Add_on_empty_ring_succeeds :
    ((NewHashed ([] : List Item)).Add insertionSort (Item.mk "A" 1)).map
      (fun res => (res.ok, res.cLow, res.cHigh, res.ring.view)) =
      some (true, 0, 256, [⟨Item.mk "A" 1, false, 0, 256⟩]) := by
  decide

/-- C5, amended: `Add` returns normally; it returns `ok = false` when the ring
holds 256 entries or more, and when the ring is not empty and none of its
entries is active; it returns `ok = true` on the empty ring, and on a ring that
is not empty, holds fewer than 256 entries, and has only active entries. -/
theorem C5_Add_ok {E : Type} [Entry E] (srt : (Nat → Nat → Bool) → List Nat → List Nat)
    (hs : SortSpec srt) (r : HashRing E) (hwf : r.WF) (e : E) :
    ∃ res, r.Add srt e = some res ∧
      (256 ≤ r.entries.length → res.ok = false) ∧
      (r.entries ≠ [] → (∀ p ∈ r.entries, (r.heap p).Active = false) → res.ok = false) ∧
      (r.entries = [] → res.ok = true) ∧
      (r.entries ≠ [] → r.entries.length < 256 →
        (∀ p ∈ r.entries, (r.heap p).Active = true) → res.ok = true) := by
  by_cases hfull : r.entries.length ≥ maxEntries
  · refine ⟨_, Add_full srt r e hfull, fun _ => rfl, fun _ _ => rfl, ?_, ?_⟩
    · intro hnil
      rw [hnil] at hfull
      simp [maxEntries] at hfull
    · intro _ hlt
      simp only [maxEntries] at hfull
      omega
  · by_cases h0 : r.entries.length = 0
    · have hnil : r.entries = [] := List.length_eq_zero.mp h0
      refine ⟨_, Add_empty srt r e h0, ?_, fun hne => absurd hnil hne, fun _ => rfl,
        fun _ _ _ => rfl⟩
      intro h
      omega
    · obtain ⟨P, hP, _, hcase⟩ := Add_cases srt hs r hwf e hfull h0
      rcases hcase with ⟨hact, hadd⟩ | ⟨hact, hadd⟩
      · refine ⟨_, hadd, fun _ => rfl, fun _ _ => rfl, ?_, ?_⟩
        · intro hnil
          exact absurd (by simp [hnil]) h0
        · intro _ _ hall
          rw [hall P hP] at hact
          cases hact
      · refine ⟨_, hadd, ?_, ?_, fun _ => rfl, fun _ _ _ => rfl⟩
        · intro h
          simp only [maxEntries] at hfull
          omega
        · intro _ hall
          rw [hall P hP] at hact
          cases hact

/-- C5, amended, on `A:[0,85)`, `B:[85,170)`, `C:[170,256)`, all active: `Add(D)`
returns `ok = true`. -/
theorem C5_Add_ok_witness :
    SortSpec insertionSort ∧
    (NewHashed [Item.mk "A" 1, Item.mk "B" 2, Item.mk "C" 3]).WF ∧
    ((NewHashed [Item.mk "A" 1, Item.mk "B" 2, Item.mk "C" 3]).Add insertionSort
      (Item.mk "D" 4)).map (fun res => res.ok) = some true :=
  ⟨insertionSort_spec, WF_NewHashed _, by
    obtain ⟨res, hres, _, _, _, hok⟩ := C5_Add_ok insertionSort insertionSort_spec
      (NewHashed [Item.mk "A" 1, Item.mk "B" 2, Item.mk "C" 3]) (WF_NewHashed _) (Item.mk "D" 4)
    rw [hres]
    simp only [Option.map_some', Option.some.injEq]
    exact hok (by decide) (by decide) (by decide)⟩

/-! ## The split -/

theorem mid_eq {E : Type} (x : HashRingEntry E) (hle : x.Low ≤ x.High) (hH : x.High < 2 ^ 64) :
    x.mid = x.Low + (x.High - x.Low) / 2 := by
  simp only [HashRingEntry.mid, HashRingEntry.RangeSize, u64]
  omega

theorem size_split {E : Type} (x : HashRingEntry E) (hL : x.Low < 2 ^ 64) (hH : x.High < 2 ^ 64) :
    ({ x with High := x.mid } : HashRingEntry E).RangeSize +
      ({ x with Low := x.mid } : HashRingEntry E).RangeSize = x.RangeSize := by
  simp only [HashRingEntry.mid, HashRingEntry.RangeSize, u64]
  omega

/-- What a successful `Add` that has a previous owner leaves behind. -/
theorem Add_ok_split {E : Type} [Entry E] (srt : (Nat → Nat → Bool) → List Nat → List Nat)
    (hs : SortSpec srt) (r : HashRing E) (hwf : r.WF) (e : E) (res : AddResult E)
    (c : Closures E) (P : Nat) (hres : r.Add srt e = some res) (hc : res.closures = some c)
    (hP : c.prevActiveHashed = some P) :
    P ∈ r.entries ∧ (r.heap P).Active = true ∧ ¬ r.entries.length ≥ maxEntries ∧
      (srt (HashRing.rangeSizeLessAt (r.allocated e)) r.entries).getLast? = some P ∧
      res = { ring := r.split srt e P
              prevActive := (r.heap P).Entry
              cLow := (r.heap P).mid
              cHigh := (r.heap P).High
              closures := some { hashed := r.next, prevActiveHashed := some P, entry := e }
              ok := true } := by
  by_cases hfull : r.entries.length ≥ maxEntries
  · rw [Add_full srt r e hfull] at hres
    cases hres
    cases hc
  · by_cases h0 : r.entries.length = 0
    · rw [Add_empty srt r e h0] at hres
      cases hres
      cases hc
      cases hP
    · obtain ⟨Q, hQ, hlast, hcase⟩ := Add_cases srt hs r hwf e hfull h0
      rcases hcase with ⟨_, hadd⟩ | ⟨hact, hadd⟩
      · rw [hadd] at hres
        cases hres
        cases hc
      · rw [hadd] at hres
        cases hres
        cases hc
        cases hP
        exact ⟨hQ, hact, hfull, hlast, rfl⟩

/-- C6: when `Add(e)` succeeds by splitting the entry `P` with the range
`[L, H)`, then with `mid = (H - L) / 2 + L` in `uint64`, which is
`L + (H - L) / 2` for `L ≤ H`, the call returns `(mid, H)` as the staged range,
the ring holds the entries it held and the new one, the new entry is
`{e, false, mid, H}`, the entry `P` has the range `[L, mid)` and is otherwise as
it was, every other entry is as it was, and the sizes of `P` and of the new
entry add up to the size `P` had. -/
theorem C6_Add_splits_at_midpoint {E : Type} [Entry E]
    (srt : (Nat → Nat → Bool) → List Nat → List Nat) (hs : SortSpec srt)
    (r : HashRing E) (hwf : r.WF) (e : E) (res : AddResult E) (c : Closures E) (P : Nat)
    (hres : r.Add srt e = some res) (hc : res.closures = some c)
    (hP : c.prevActiveHashed = some P) :
    res.ok = true ∧ P ∈ r.entries ∧ c.hashed ∉ r.entries ∧
    res.prevActive = (r.heap P).Entry ∧
    res.cLow = (r.heap P).mid ∧ res.cHigh = (r.heap P).High ∧
    ((r.heap P).Low ≤ (r.heap P).High → (r.heap P).High < 2 ^ 64 →
      (r.heap P).mid = (r.heap P).Low + ((r.heap P).High - (r.heap P).Low) / 2) ∧
    res.ring.entries.Perm (r.entries ++ [c.hashed]) ∧
    res.ring.heap c.hashed =
      { Entry := e, Active := false, Low := (r.heap P).mid, High := (r.heap P).High } ∧
    res.ring.heap P = { r.heap P with High := (r.heap P).mid } ∧
    (∀ q ∈ r.entries, q ≠ P → res.ring.heap q = r.heap q) ∧
    ((r.heap P).Low < 2 ^ 64 → (r.heap P).High < 2 ^ 64 →
      (res.ring.heap P).RangeSize + (res.ring.heap c.hashed).RangeSize =
        (r.heap P).RangeSize) := by
  obtain ⟨hPm, _, _, _, heq⟩ := Add_ok_split srt hs r hwf e res c P hres hc hP
  subst heq
  cases hc
  have hfresh : r.next ∉ r.entries := fun h => Nat.lt_irrefl _ (hwf.2 _ h)
  have hnext := splitHeap_next r hwf e P hPm
  have hsrc := splitHeap_source r e P
  refine ⟨rfl, hPm, hfresh, rfl, rfl, rfl, mid_eq _, split_entries_perm srt hs r e P,
    hnext, hsrc, ?_, ?_⟩
  · intro q hq hqP
    exact splitHeap_other r e P q hqP (fun h => hfresh (h ▸ hq))
  · intro hL hH
    show (r.splitHeap e P P).RangeSize + (r.splitHeap e P r.next).RangeSize = _
    rw [hnext, hsrc]
    have := size_split (r.heap P) hL hH
    simpa [HashRingEntry.RangeSize] using this

/-- C6 on `A:[0,85)`, `B:[85,170)`, `C:[170,256)`: `Add(D)` splits `C` at
`213 = 170 + 43`, stages `D` over `[213,256)` and leaves `C` the range `[170,213)`. -/
theorem C6_Add_splits_at_midpoint_witness :
    SortSpec insertionSort ∧
    (NewHashed [Item.mk "A" 1, Item.mk "B" 2, Item.mk "C" 3]).WF ∧
    ((NewHashed [Item.mk "A" 1, Item.mk "B" 2, Item.mk "C" 3]).Add insertionSort
      (Item.mk "D" 4)).map (fun res => (res.ok, res.prevActive, res.cLow, res.cHigh,
        res.ring.view)) =
      some (true, Item.mk "C" 3, 213, 256,
        [⟨Item.mk "A" 1, true, 0, 85⟩, ⟨Item.mk "B" 2, true, 85, 170⟩,
          ⟨Item.mk "C" 3, true, 170, 213⟩, ⟨Item.mk "D" 4, false, 213, 256⟩]) ∧
    ((NewHashed [Item.mk "A" 1, Item.mk "B" 2, Item.mk "C" 3]).split insertionSort
        (Item.mk "D" 4) 2).heap 3 =
      { Entry := Item.mk "D" 4, Active := false
        Low := ((NewHashed [Item.mk "A" 1, Item.mk "B" 2, Item.mk "C" 3]).heap 2).mid
        High := ((NewHashed [Item.mk "A" 1, Item.mk "B" 2, Item.mk "C" 3]).heap 2).High } :=
  ⟨insertionSort_spec, WF_NewHashed _, by decide,
    (C6_Add_splits_at_midpoint insertionSort insertionSort_spec
      (NewHashed [Item.mk "A" 1, Item.mk "B" 2, Item.mk "C" 3]) (WF_NewHashed _)
      (Item.mk "D" 4) _ ⟨3, some 2, Item.mk "D" 4⟩ 2
      (Add_split insertionSort (NewHashed [Item.mk "A" 1, Item.mk "B" 2, Item.mk "C" 3])
        (WF_NewHashed _) (Item.mk "D" 4) 2 (by decide) (by decide) (by decide) (by decide)
        (by decide))
      rfl rfl).2.2.2.2.2.2.2.2.1⟩

/-! ## `cancel` -/

theorem Less_iff {E : Type} (a b : HashRingEntry E) :
    a.Less b = true ↔ a.High < b.High ∨ (a.High = b.High ∧ a.Low < b.Low) := by
  unfold HashRingEntry.Less
  by_cases h : a.High < b.High
  · simp [h]
  · simp only [h, if_false, Bool.and_eq_true, beq_iff_eq, decide_eq_true_eq, false_or]

theorem Less_eq_false_iff {E : Type} (a b : HashRingEntry E) :
    a.Less b = false ↔ ¬ (a.High < b.High ∨ (a.High = b.High ∧ a.Low < b.Low)) := by
  rw [← Less_iff]
  simp

theorem lessAt_irrefl {E : Type} (heap : Nat → HashRingEntry E) (a : Nat) :
    HashRing.lessAt heap a a = false := by
  rw [HashRing.lessAt, Less_eq_false_iff]
  omega

theorem lessAt_trans {E : Type} (heap : Nat → HashRingEntry E) (a b c : Nat)
    (h1 : HashRing.lessAt heap a b = true) (h2 : HashRing.lessAt heap b c = true) :
    HashRing.lessAt heap a c = true := by
  rw [HashRing.lessAt, Less_iff] at *
  omega

theorem lessAt_negtrans {E : Type} (heap : Nat → HashRingEntry E) (a b c : Nat)
    (h1 : HashRing.lessAt heap a b = false) (h2 : HashRing.lessAt heap b c = false) :
    HashRing.lessAt heap a c = false := by
  rw [HashRing.lessAt, Less_eq_false_iff] at *
  omega

/-- After `sort.Sort(entries)` the slice is in ascending `(High, Low)` order. -/
theorem sorted_lessAt {E : Type} (srt : (Nat → Nat → Bool) → List Nat → List Nat)
    (hs : SortSpec srt) (heap : Nat → HashRingEntry E) (l : List Nat) :
    (srt (HashRing.lessAt heap) l).Pairwise (fun a b => HashRing.lessAt heap b a = false) :=
  hs.sorted _ l (lessAt_irrefl heap) (lessAt_trans heap) (lessAt_negtrans heap)

/-- A strictly ascending list is the only ascending arrangement of its elements. -/
theorem ascending_unique (lt : Nat → Nat → Bool) (l1 l2 : List Nat) (hperm : l2.Perm l1)
    (h1 : l1.Pairwise (fun a b => lt a b = true))
    (h2 : l2.Pairwise (fun a b => lt b a = false)) : l2 = l1 := by
  induction l1 generalizing l2 with
  | nil => exact hperm.eq_nil
  | cons a t ih =>
    cases l2 with
    | nil => exact absurd hperm.symm.eq_nil (by simp)
    | cons b t2 =>
      rw [List.pairwise_cons] at h1 h2
      have hab : a = b := by
        by_contra hne
        have ha : a ∈ t2 := by
          have : a ∈ b :: t2 := hperm.mem_iff.mpr (List.mem_cons_self a t)
          rcases List.mem_cons.mp this with h | h
          · exact absurd h hne
          · exact h
        have hb : b ∈ t := by
          have : b ∈ a :: t := hperm.mem_iff.mp (List.mem_cons_self b t2)
          rcases List.mem_cons.mp this with h | h
          · exact absurd h.symm hne
          · exact h
        have := h1.1 b hb
        rw [h2.1 a ha] at this
        cases this
      subst hab
      rw [ih t2 (List.Perm.cons_inv hperm) h1.2 h2.2]

theorem cancel_eq {E : Type} [Entry E] (srt : (Nat → Nat → Bool) → List Nat → List Nat)
    (r : HashRing E) (c : Closures E) (P : Nat) (hP : c.prevActiveHashed = some P)
    (h0 : ¬ r.entries.length = 0) :
    r.cancel srt c = some { r with
      heap := HashRing.store r.heap P { r.heap P with High := (r.heap c.hashed).High }
      entries := srt (HashRing.lessAt
          (HashRing.store r.heap P { r.heap P with High := (r.heap c.hashed).High }))
        (r.entries.filter (fun q => !(Entry.Key
          (HashRing.store r.heap P { r.heap P with High := (r.heap c.hashed).High } q).Entry
            == Entry.Key c.entry))) } := by
  simp only [HashRing.cancel, hP, if_neg h0]

theorem cancel_eq_first {E : Type} [Entry E] (srt : (Nat → Nat → Bool) → List Nat → List Nat)
    (r : HashRing E) (c : Closures E) (hP : c.prevActiveHashed = none)
    (h0 : ¬ r.entries.length = 0) :
    r.cancel srt c = some { r with
      entries := srt (HashRing.lessAt r.heap)
        (r.entries.filter (fun q => !(Entry.Key (r.heap q).Entry == Entry.Key c.entry))) } := by
  simp only [HashRing.cancel, hP, if_neg h0]

/-- The slice that `cancel` sorts: of the old entries and the staged one, the
filter on the key leaves the old entries when none of them has the key of `e`. -/
theorem filter_key_perm {E : Type} [Entry E] (heap : Nat → HashRingEntry E) (e : E)
    (old l : List Nat) (n : Nat) (hperm : l.Perm (old ++ [n]))
    (hold : ∀ p ∈ old, Entry.Key (heap p).Entry ≠ Entry.Key e)
    (hn : Entry.Key (heap n).Entry = Entry.Key e) :
    (l.filter (fun q => !(Entry.Key (heap q).Entry == Entry.Key e))).Perm old := by
  refine (hperm.filter _).trans ?_
  rw [List.filter_append]
  have h1 : old.filter (fun q => !(Entry.Key (heap q).Entry == Entry.Key e)) = old := by
    apply List.filter_eq_self.mpr
    intro p hp
    simpa using hold p hp
  have h2 : [n].filter (fun q => !(Entry.Key (heap q).Entry == Entry.Key e)) = [] := by
    simp [hn]
  rw [h1, h2, List.append_nil]

/-- C7, as the code has it: after `NewHashed(A, B)` the call `Add` of a second
entry with the key `A` splits `B`, and `cancel` then removes both entries with
the key `A`: the ring `A:[0,128)`, `B:[128,256)` ends as `B:[128,256)`. -/
theorem C7_cancel_removes_entries_with_the_same_key :
    (Session.start [Item.mk "A" 1, Item.mk "B" 2]).ring.view =
      [⟨Item.mk "A" 1, true, 0, 128⟩, ⟨Item.mk "B" 2, true, 128, 256⟩] ∧
    (Session.run insertionSort (Session.start [Item.mk "A" 1, Item.mk "B" 2])
      [.Add (Item.mk "A" 3)]).map (fun s => s.ring.view) =
      some [⟨Item.mk "A" 1, true, 0, 128⟩, ⟨Item.mk "B" 2, true, 128, 192⟩,
        ⟨Item.mk "A" 3, false, 192, 256⟩] ∧
    (Session.run insertionSort (Session.start [Item.mk "A" 1, Item.mk "B" 2])
      [.Add (Item.mk "A" 3), .cancel 0]).map (fun s => s.ring.view) =
      some [⟨Item.mk "B" 2, true, 128, 256⟩] := by
  refine ⟨by decide, by decide, by decide⟩

/-- C7, amended: if the key of `e` differs from the key of every entry of the
ring and `Add(e)` succeeds, then the returned `cancel()`, called immediately
afterwards, returns normally and leaves a ring that holds the entries it held
before `Add`, every record as it was; when the ring before `Add` was in strictly
ascending `(High, Low)` order, the entries are also in the order they were in. -/
theorem C7_Add_then_cancel_restores {E : Type} [Entry E]
    (srt : (Nat → Nat → Bool) → List Nat → List Nat) (hs : SortSpec srt)
    (r : HashRing E) (hwf : r.WF) (e : E)
    (hkey : ∀ p ∈ r.entries, Entry.Key (r.heap p).Entry ≠ Entry.Key e)
    (res : AddResult E) (c : Closures E)
    (hres : r.Add srt e = some res) (hok : res.ok = true) (hc : res.closures = some c) :
    ∃ r', res.ring.cancel srt c = some r' ∧
      r'.entries.Perm r.entries ∧ r'.entries.length = r.entries.length ∧
      (∀ p ∈ r.entries, r'.heap p = r.heap p) ∧
      (r.entries.Pairwise (fun p q => HashRing.lessAt r.heap p q = true) →
        r'.entries = r.entries ∧ r'.view = r.view) := by
  have hfresh : r.next ∉ r.entries := fun h => Nat.lt_irrefl _ (hwf.2 _ h)
  -- the three facts from which the statement follows
  suffices hmain : ∃ r', res.ring.cancel srt c = some r' ∧ r'.entries.Perm r.entries ∧
      (∀ p ∈ r.entries, r'.heap p = r.heap p) ∧
      r'.entries.Pairwise (fun a b => HashRing.lessAt r'.heap b a = false) by
    obtain ⟨r', hcancel, hperm, hheap, hsorted⟩ := hmain
    refine ⟨r', hcancel, hperm, hperm.length_eq, hheap, ?_⟩
    intro hstrict
    have hentries : r'.entries = r.entries := by
      apply ascending_unique (HashRing.lessAt r'.heap) r.entries r'.entries hperm
      · refine hstrict.imp_of_mem ?_
        intro a b ha hb hab
        rw [HashRing.lessAt, hheap a ha, hheap b hb]
        exact hab
      · exact hsorted
    refine ⟨hentries, ?_⟩
    unfold HashRing.view
    rw [hentries]
    exact List.map_congr_left hheap
  by_cases hfull : r.entries.length ≥ maxEntries
  · rw [Add_full srt r e hfull] at hres
    cases hres
    cases hc
  · by_cases h0 : r.entries.length = 0
    · have hnil : r.entries = [] := List.length_eq_zero.mp h0
      rw [Add_empty srt r e h0] at hres
      cases hres
      cases hc
      rw [cancel_eq_first srt _ _ rfl (by simp [hnil])]
      refine ⟨_, rfl, ?_, ?_, sorted_lessAt srt hs _ _⟩
      · simp only [hnil, List.nil_append]
        refine (hs.perm _ _).trans ?_
        simp [store_same]
      · intro p hp
        rw [hnil] at hp
        cases hp
    · obtain ⟨P, hP, _, hcase⟩ := Add_cases srt hs r hwf e hfull h0
      rcases hcase with ⟨_, hadd⟩ | ⟨_, hadd⟩
      · rw [hadd] at hres
        cases hres
        cases hc
      · rw [hadd] at hres
        cases hres
        cases hc
        have hperm := split_entries_perm srt hs r e P
        have hlen : ¬ (r.split srt e P).entries.length = 0 := by
          rw [hperm.length_eq]
          simp
        rw [cancel_eq srt _ _ P rfl hlen]
        have hnext := splitHeap_next r hwf e P hP
        have hPn : r.next ≠ P := fun h => hfresh (h ▸ hP)
        have hrestored : ({ (r.split srt e P).heap P with
            High := ((r.split srt e P).heap r.next).High } : HashRingEntry E) = r.heap P := by
          show ({ r.splitHeap e P P with High := (r.splitHeap e P r.next).High } :
            HashRingEntry E) = r.heap P
          rw [hnext, splitHeap_source]
        have hheap : ∀ q ∈ r.entries, HashRing.store (r.split srt e P).heap P
            { (r.split srt e P).heap P with High := ((r.split srt e P).heap r.next).High } q =
            r.heap q := by
          intro q hq
          by_cases hqP : q = P
          · subst hqP
            rw [store_same, hrestored]
          · rw [store_of_ne _ _ _ _ hqP]
            exact splitHeap_other r e P q hqP (fun h => hfresh (h ▸ hq))
        refine ⟨_, rfl, ?_, hheap, sorted_lessAt srt hs _ _⟩
        refine (hs.perm _ _).trans ?_
        refine filter_key_perm _ e r.entries _ r.next hperm ?_ ?_
        · intro p hp
          rw [hheap p hp]
          exact hkey p hp
        · rw [store_of_ne _ _ _ _ hPn]
          show Entry.Key (r.splitHeap e P r.next).Entry = Entry.Key e
          rw [hnext]

/-- C7, amended, on `A:[0,85)`, `B:[85,170)`, `C:[170,256)`: `Add(D)` followed by
its `cancel()` gives back the three entries with their ranges. -/
theorem C7_Add_then_cancel_restores_witness :
    SortSpec insertionSort ∧
    (NewHashed [Item.mk "A" 1, Item.mk "B" 2, Item.mk "C" 3]).WF ∧
    (Session.run insertionSort (Session.start [Item.mk "A" 1, Item.mk "B" 2, Item.mk "C" 3])
      [.Add (Item.mk "D" 4), .cancel 0]).map (fun s => s.ring.view) =
      some [⟨Item.mk "A" 1, true, 0, 85⟩, ⟨Item.mk "B" 2, true, 85, 170⟩,
        ⟨Item.mk "C" 3, true, 170, 256⟩] ∧
    (∃ r', ((NewHashed [Item.mk "A" 1, Item.mk "B" 2, Item.mk "C" 3]).split insertionSort
        (Item.mk "D" 4) 2).cancel insertionSort ⟨3, some 2, Item.mk "D" 4⟩ = some r' ∧
      r'.entries.length = 3) :=
  ⟨insertionSort_spec, WF_NewHashed _, by decide, by
    obtain ⟨r', h1, _, h3, _⟩ := C7_Add_then_cancel_restores insertionSort insertionSort_spec
      (NewHashed [Item.mk "A" 1, Item.mk "B" 2, Item.mk "C" 3]) (WF_NewHashed _)
      (Item.mk "D" 4) (by decide) _ ⟨3, some 2, Item.mk "D" 4⟩
      (Add_split insertionSort (NewHashed [Item.mk "A" 1, Item.mk "B" 2, Item.mk "C" 3])
        (WF_NewHashed _) (Item.mk "D" 4) 2 (by decide) (by decide) (by decide) (by decide)
        (by decide)) rfl rfl
    exact ⟨r', h1, h3⟩⟩

/-! ## Lookup after `active` -/

theorem scan_some {E : Type} (n : Nat) (entries : List (HashRingEntry E)) (s : Nat)
    (h : ∃ x ∈ entries, x.covers n = true) :
    ∃ idx y, HashRingEntries.scan n entries s = some (s + idx) ∧ entries[idx]? = some y ∧
      y.covers n = true := by
  induction entries generalizing s with
  | nil =>
    obtain ⟨x, hx, _⟩ := h
    cases hx
  | cons a t ih =>
    by_cases ha : a.covers n = true
    · exact ⟨0, a, by simp [HashRingEntries.scan, ha], by simp, ha⟩
    · have ht : ∃ x ∈ t, x.covers n = true := by
        obtain ⟨x, hx, hcov⟩ := h
        rcases List.mem_cons.mp hx with hxa | hxt
        · subst hxa
          exact absurd hcov ha
        · exact ⟨x, hxt, hcov⟩
      obtain ⟨idx, y, h1, h2, h3⟩ := ih (s + 1) ht
      refine ⟨idx + 1, y, ?_, by simpa using h2, h3⟩
      rw [HashRingEntries.scan, if_neg ha, h1]
      congr 1
      omega

/-- An active entry that alone holds the slot `n` is what `Get(n)` returns. -/
theorem Get_of_unique {E : Type} (entries : List (HashRingEntry E)) (n : Nat)
    (x : HashRingEntry E) (hx : x ∈ entries) (hcov : x.covers n = true)
    (hact : x.Active = true) (huniq : ∀ y ∈ entries, y.covers n = true → y = x) :
    HashRingEntries.Get entries n = some (x, true) := by
  obtain ⟨idx, y, h1, h2, h3⟩ := scan_some n entries 0 ⟨x, hx, hcov⟩
  rw [Nat.zero_add] at h1
  have hy : y = x := huniq y (List.getElem?_mem h2) h3
  subst hy
  simp [HashRingEntries.Get, h1, h2, hact]

theorem mid_bounds {E : Type} (x : HashRingEntry E) (hle : x.Low ≤ x.High)
    (hH : x.High < 2 ^ 64) : x.Low ≤ x.mid ∧ x.mid ≤ x.High := by
  rw [mid_eq x hle hH]
  omega

/-- C8, as the code has it, on a ring with a declared range whose `Low` lies
above its `High`: after `AddDeclared(P, 2^64 - 2, 10)` and `AddDeclared(Q, 5, 8)`
no slot is held by both entries, `Add(D)` splits `P` (size 12 in `uint64`) and
stages `D` over `[4, 10)`, and after `active` the slot `6` is still answered by
`Q`. -/
theorem C8_activated_entry_hidden_behind_declared_range :
    (Session.run insertionSort (Session.start ([] : List Item))
      [.AddDeclared (Item.mk "P" 1) 18446744073709551614 10,
        .AddDeclared (Item.mk "Q" 2) 5 8]).map (fun s => s.ring.view) =
      some [⟨Item.mk "Q" 2, true, 5, 8⟩, ⟨Item.mk "P" 1, true, 18446744073709551614, 10⟩] ∧
    (Session.run insertionSort (Session.start ([] : List Item))
      [.AddDeclared (Item.mk "P" 1) 18446744073709551614 10,
        .AddDeclared (Item.mk "Q" 2) 5 8]).bind (fun s =>
          (s.ring.Add insertionSort (Item.mk "D" 4)).map
            (fun res => (res.ok, res.cLow, res.cHigh))) = some (true, 4, 10) ∧
    (Session.run insertionSort (Session.start ([] : List Item))
      [.AddDeclared (Item.mk "P" 1) 18446744073709551614 10,
        .AddDeclared (Item.mk "Q" 2) 5 8, .Add (Item.mk "D" 4), .active 0]).map
        (fun s => s.ring.view) =
      some [⟨Item.mk "P" 1, true, 18446744073709551614, 4⟩, ⟨Item.mk "Q" 2, true, 5, 8⟩,
        ⟨Item.mk "D" 4, true, 4, 10⟩] ∧
    (Session.run insertionSort (Session.start ([] : List Item))
      [.AddDeclared (Item.mk "P" 1) 18446744073709551614 10,
        .AddDeclared (Item.mk "Q" 2) 5 8, .Add (Item.mk "D" 4), .active 0]).bind
        (fun s => HashRingEntries.Get s.ring.view 6) =
      some (⟨Item.mk "Q" 2, true, 5, 8⟩, true) ∧
    (∀ m, (⟨Item.mk "P" 1, true, 18446744073709551614, 10⟩ : HashRingEntry Item).covers m =
      false) := by
  refine ⟨by decide, by decide, by decide, by decide, ?_⟩
  intro m
  simp only [HashRingEntry.covers, Bool.and_eq_false_iff, decide_eq_false_iff_not]
  omega

/-- C8, amended: on a ring whose entries have `Low ≤ High` and pairwise share
no slot, if `Add(e)` succeeds with the staged range `[cLow, cHigh)` and the
returned `active()` is then called, `HashRingEntries.Get(n)` returns the entry
`{e, true, cLow, cHigh}` with `has = true` for every slot `cLow ≤ n < cHigh`,
and `HashRing.Get` returns `e` with `has = true` for every key hashing to `n`. -/
theorem C8_activated_entry_is_found {E : Type} [Entry E]
    (srt : (Nat → Nat → Bool) → List Nat → List Nat) (hs : SortSpec srt)
    (r : HashRing E) (hwf : r.WF) (e : E)
    (hrange : ∀ p ∈ r.entries, (r.heap p).Low ≤ (r.heap p).High ∧ (r.heap p).High < 2 ^ 64)
    (hdisj : ∀ p ∈ r.entries, ∀ q ∈ r.entries, p ≠ q →
      ∀ m, ¬ ((r.heap p).covers m = true ∧ (r.heap q).covers m = true))
    (res : AddResult E) (c : Closures E)
    (hres : r.Add srt e = some res) (hok : res.ok = true) (hc : res.closures = some c)
    (n : Nat) (hlo : res.cLow ≤ n) (hhi : n < res.cHigh) :
    HashRingEntries.Get (res.ring.active c).view n =
      some ({ Entry := e, Active := true, Low := res.cLow, High := res.cHigh }, true) ∧
    (∀ (K : Type) (sum64 : K → Nat) (key : K), sum64 key % maxEntries = n →
      HashRing.Get sum64 (res.ring.active c) key = some (e, true)) := by
  have hfresh : r.next ∉ r.entries := fun h => Nat.lt_irrefl _ (hwf.2 _ h)
  suffices hget : HashRingEntries.Get (res.ring.active c).view n =
      some ({ Entry := e, Active := true, Low := res.cLow, High := res.cHigh }, true) by
    refine ⟨hget, ?_⟩
    intro K sum64 key hkey
    simp [HashRing.Get, hkey, hget]
  by_cases hfull : r.entries.length ≥ maxEntries
  · rw [Add_full srt r e hfull] at hres
    cases hres
    cases hc
  · by_cases h0 : r.entries.length = 0
    · have hnil : r.entries = [] := List.length_eq_zero.mp h0
      rw [Add_empty srt r e h0] at hres
      cases hres
      cases hc
      simp only [maxEntries] at hhi
      simp [HashRing.active, HashRing.view, hnil, store_same, HashRingEntries.Get,
        HashRingEntries.scan, HashRingEntry.covers, hhi, maxEntries]
    · obtain ⟨P, hP, _, hcase⟩ := Add_cases srt hs r hwf e hfull h0
      rcases hcase with ⟨_, hadd⟩ | ⟨_, hadd⟩
      · rw [hadd] at hres
        cases hres
        cases hc
      · rw [hadd] at hres
        cases hres
        cases hc
        simp only at hlo hhi
        have hperm := split_entries_perm srt hs r e P
        have hnext := splitHeap_next r hwf e P hP
        obtain ⟨hLH, hH⟩ := hrange P hP
        obtain ⟨hm1, hm2⟩ := mid_bounds (r.heap P) hLH hH
        have hnew : ((r.split srt e P).active ⟨r.next, some P, e⟩).heap r.next =
            { Entry := e, Active := true, Low := (r.heap P).mid, High := (r.heap P).High } := by
          show HashRing.store (r.splitHeap e P) r.next
            { r.splitHeap e P r.next with Active := true } r.next = _
          rw [store_same, hnext]
        have hold : ∀ q, q ≠ r.next →
            ((r.split srt e P).active ⟨r.next, some P, e⟩).heap q = r.splitHeap e P q := by
          intro q hq
          show HashRing.store (r.splitHeap e P) r.next
            { r.splitHeap e P r.next with Active := true } q = _
          rw [store_of_ne _ _ _ _ hq]
        apply Get_of_unique
        · unfold HashRing.view
          rw [← hnew]
          apply List.mem_map_of_mem
          show r.next ∈ (r.split srt e P).entries
          exact hperm.mem_iff.mpr (by simp)
        · simp only [HashRingEntry.covers, Bool.and_eq_true, decide_eq_true_eq]
          omega
        · rfl
        · intro y hy hcov
          unfold HashRing.view at hy
          obtain ⟨q, hq, rfl⟩ := List.mem_map.mp hy
          have hq2 : q ∈ r.entries ++ [r.next] := hperm.mem_iff.mp hq
          rcases List.mem_append.mp hq2 with hqold | hqnew
          · exfalso
            have hqn : q ≠ r.next := fun h => hfresh (h ▸ hqold)
            rw [hold q hqn] at hcov
            by_cases hqP : q = P
            · subst hqP
              rw [splitHeap_source] at hcov
              simp only [HashRingEntry.covers, Bool.and_eq_true, decide_eq_true_eq] at hcov
              omega
            · rw [splitHeap_other r e P q hqP hqn] at hcov
              refine hdisj q hqold P hP hqP n ⟨hcov, ?_⟩
              simp only [HashRingEntry.covers, Bool.and_eq_true, decide_eq_true_eq]
              omega
          · have hqn : q = r.next := by simpa using hqnew
            subst hqn
            exact hnew

/-- C8, amended, on `A:[0,85)`, `B:[85,170)`, `C:[170,256)`: after `Add(D)` and
`active()` the slot `220` is answered by `D`. -/
theorem C8_activated_entry_is_found_witness :
    SortSpec insertionSort ∧
    (NewHashed [Item.mk "A" 1, Item.mk "B" 2, Item.mk "C" 3]).WF ∧
    (213 ≤ 220 ∧ 220 < 256) ∧
    HashRingEntries.Get (((NewHashed [Item.mk "A" 1, Item.mk "B" 2, Item.mk "C" 3]).split
      insertionSort (Item.mk "D" 4) 2).active ⟨3, some 2, Item.mk "D" 4⟩).view 220 =
      some ({ Entry := Item.mk "D" 4, Active := true
              Low := ((NewHashed [Item.mk "A" 1, Item.mk "B" 2, Item.mk "C" 3]).heap 2).mid
              High := ((NewHashed [Item.mk "A" 1, Item.mk "B" 2, Item.mk "C" 3]).heap 2).High },
        true) :=
  ⟨insertionSort_spec, WF_NewHashed _, by decide,
    (C8_activated_entry_is_found insertionSort insertionSort_spec
      (NewHashed [Item.mk "A" 1, Item.mk "B" 2, Item.mk "C" 3]) (WF_NewHashed _)
      (Item.mk "D" 4) (by decide)
      (by
        intro p hp q hq hpq m
        have hp3 : p < 3 := List.mem_range.mp hp
        have hq3 : q < 3 := List.mem_range.mp hq
        interval_cases p <;> interval_cases q <;>
          simp [NewHashed, NewHashedEntries, HashRingEntry.covers, maxEntries] at hpq ⊢ <;>
          omega)
      _ ⟨3, some 2, Item.mk "D" 4⟩
      (Add_split insertionSort (NewHashed [Item.mk "A" 1, Item.mk "B" 2, Item.mk "C" 3])
        (WF_NewHashed _) (Item.mk "D" 4) 2 (by decide) (by decide) (by decide) (by decide)
        (by decide)) rfl rfl 220 (by decide) (by decide)).1⟩

/-! ## Disjoint ranges -/

/-- The ring keeps `Inv` when it keeps or drops entries and changes no range. -/
theorem Inv_restrict {E : Type} (r r' : HashRing E) (hinv : r.Inv)
    (hnodup : r'.entries.Nodup) (hsub : ∀ p ∈ r'.entries, p ∈ r.entries)
    (hnext : r.next ≤ r'.next)
    (hsame : ∀ p ∈ r.entries, (r'.heap p).Low = (r.heap p).Low ∧
      (r'.heap p).High = (r.heap p).High) : r'.Inv := by
  obtain ⟨hwf, hranged, hdisj⟩ := hinv
  refine ⟨⟨hnodup, ?_⟩, ?_, ?_⟩
  · intro p hp
    have := hwf.2 p (hsub p hp)
    omega
  · intro p hp
    obtain ⟨h1, h2⟩ := hsame p (hsub p hp)
    rw [h1, h2]
    exact hranged p (hsub p hp)
  · intro p hp q hq hpq m
    obtain ⟨h1, h2⟩ := hsame p (hsub p hp)
    obtain ⟨h3, h4⟩ := hsame q (hsub q hq)
    simp only [HashRingEntry.covers, h1, h2, h3, h4]
    exact hdisj p (hsub p hp) q (hsub q hq) hpq m

/-- The ring keeps `Inv` when it gains the entry at `r.next`, no old range
grows, and the new range meets no old one. -/
theorem Inv_extend {E : Type} (r r' : HashRing E) (hinv : r.Inv)
    (hperm : r'.entries.Perm (r.entries ++ [r.next])) (hnext : r'.next = r.next + 1)
    (hshrink : ∀ p ∈ r.entries, ∀ m, (r'.heap p).covers m = true → (r.heap p).covers m = true)
    (hranged : ∀ p ∈ r.entries ++ [r.next],
      (r'.heap p).Low ≤ (r'.heap p).High ∧ (r'.heap p).High < 2 ^ 64)
    (hnew : ∀ p ∈ r.entries, ∀ m,
      ¬ ((r'.heap p).covers m = true ∧ (r'.heap r.next).covers m = true)) : r'.Inv := by
  obtain ⟨hwf, _, hdisj⟩ := hinv
  have hfresh : r.next ∉ r.entries := fun h => Nat.lt_irrefl _ (hwf.2 _ h)
  have hmem : ∀ p, p ∈ r'.entries ↔ p ∈ r.entries ∨ p = r.next := by
    intro p
    rw [hperm.mem_iff]
    simp
  refine ⟨⟨?_, ?_⟩, ?_, ?_⟩
  · rw [hperm.nodup_iff]
    apply List.Nodup.append hwf.1 (List.nodup_singleton _)
    intro a ha1 ha2
    have : a = r.next := by simpa using ha2
    exact hfresh (this ▸ ha1)
  · intro p hp
    rcases (hmem p).mp hp with h | h
    · have := hwf.2 p h
      omega
    · omega
  · intro p hp
    exact hranged p (hperm.mem_iff.mp hp)
  · intro p hp q hq hpq m ⟨hcp, hcq⟩
    rcases (hmem p).mp hp with h1 | h1 <;> rcases (hmem q).mp hq with h2 | h2
    · exact hdisj p h1 q h2 hpq m ⟨hshrink p h1 m hcp, hshrink q h2 m hcq⟩
    · subst h2
      exact hnew p h1 m ⟨hcp, hcq⟩
    · subst h1
      exact hnew q h2 m ⟨hcq, hcp⟩
    · exact hpq (h1.trans h2.symm)

theorem Inv_NewHashed {E : Type} [Entry E] (entries : List E) : (NewHashed entries).Inv := by
  have hheap : ∀ p, p < entries.length → ∃ x,
      (NewHashed entries).heap p =
        ({ Entry := x, Active := true, Low := maxEntries / entries.length * p,
           High := if p + 1 = entries.length then maxEntries
                   else maxEntries / entries.length * (p + 1) } : HashRingEntry E) := by
    intro p hp
    have h := NewHashedEntries_getElem? entries p
    rw [List.getElem?_eq_getElem hp] at h
    refine ⟨entries[p], ?_⟩
    show (NewHashedEntries entries).getD p _ = _
    rw [List.getD_eq_getElem?_getD, h]
    rfl
  have hlen : (NewHashedEntries entries).length = entries.length := by
    have := (NewHashedEntries_length entries)
    exact this
  have hmul : ∀ k, k ≤ entries.length → maxEntries / entries.length * k ≤ 256 := by
    intro k hk
    calc maxEntries / entries.length * k ≤ maxEntries / entries.length * entries.length :=
          Nat.mul_le_mul_left _ hk
      _ ≤ 256 := Nat.div_mul_le_self 256 entries.length
  have hmem : ∀ p ∈ (NewHashed entries).entries, p < entries.length := by
    intro p hp
    have := List.mem_range.mp hp
    omega
  refine ⟨WF_NewHashed entries, ?_, ?_⟩
  · intro p hp
    have hp2 := hmem p hp
    obtain ⟨x, hx⟩ := hheap p hp2
    rw [hx]
    have h1 := hmul p (by omega)
    have h2 := hmul (p + 1) (by omega)
    have h3 : maxEntries / entries.length * p ≤ maxEntries / entries.length * (p + 1) :=
      Nat.mul_le_mul_left _ (by omega)
    simp only [maxEntries] at *
    split <;> omega
  · intro p hp q hq hpq m
    have hp2 := hmem p hp
    have hq2 := hmem q hq
    obtain ⟨x, hx⟩ := hheap p hp2
    obtain ⟨y, hy⟩ := hheap q hq2
    rw [hx, hy]
    simp only [HashRingEntry.covers, Bool.and_eq_true, decide_eq_true_eq]
    rcases Nat.lt_or_gt_of_ne hpq with hlt | hgt
    · have h3 : maxEntries / entries.length * (p + 1) ≤ maxEntries / entries.length * q :=
        Nat.mul_le_mul_left _ (by omega)
      have hne : ¬ (p + 1 = entries.length) := by omega
      rw [if_neg hne]
      omega
    · have h3 : maxEntries / entries.length * (q + 1) ≤ maxEntries / entries.length * p :=
        Nat.mul_le_mul_left _ (by omega)
      have hne : ¬ (q + 1 = entries.length) := by omega
      rw [if_neg hne]
      omega

theorem Inv_active {E : Type} [Entry E] (r : HashRing E) (c : Closures E) (hinv : r.Inv) :
    (r.active c).Inv := by
  refine Inv_restrict r _ hinv hinv.1.1 (fun p hp => hp) (Nat.le_refl _) ?_
  intro p _
  show (HashRing.store r.heap c.hashed { r.heap c.hashed with Active := true } p).Low = _ ∧
    (HashRing.store r.heap c.hashed { r.heap c.hashed with Active := true } p).High = _
  by_cases hp : p = c.hashed
  · subst hp
    rw [store_same]
    exact ⟨rfl, rfl⟩
  · rw [store_of_ne _ _ _ _ hp]
    exact ⟨rfl, rfl⟩

theorem Inv_AddDeclared {E : Type} [Entry E] (srt : (Nat → Nat → Bool) → List Nat → List Nat)
    (hs : SortSpec srt) (r : HashRing E) (hinv : r.Inv) (e : E) (low high : Nat)
    (hle : low ≤ high) (hhigh : high < 2 ^ 64) : (r.AddDeclared srt e low high).1.Inv := by
  have hwf := hinv.1
  have hfresh := store_fresh r hwf { Entry := e, Active := true, Low := low, High := high }
  have hnew : HashRing.store r.heap r.next
      { Entry := e, Active := true, Low := low, High := high } r.next =
      { Entry := e, Active := true, Low := low, High := high } := store_same _ _ _
  have hranged : ∀ p ∈ r.entries ++ [r.next],
      (HashRing.store r.heap r.next
        { Entry := e, Active := true, Low := low, High := high } p).Low ≤
      (HashRing.store r.heap r.next
        { Entry := e, Active := true, Low := low, High := high } p).High ∧
      (HashRing.store r.heap r.next
        { Entry := e, Active := true, Low := low, High := high } p).High < 2 ^ 64 := by
    intro p hp
    rcases List.mem_append.mp hp with h | h
    · rw [hfresh p h]
      exact hinv.2.1 p h
    · have hpn : p = r.next := by simpa using h
      subst hpn
      rw [hnew]
      exact ⟨hle, hhigh⟩
  have hshrink : ∀ p ∈ r.entries, ∀ m, (HashRing.store r.heap r.next
      { Entry := e, Active := true, Low := low, High := high } p).covers m = true →
      (r.heap p).covers m = true := by
    intro p hp m h
    rw [hfresh p hp] at h
    exact h
  by_cases hfull : r.entries.length ≥ maxEntries
  · rw [AddDeclared_full srt r e low high hfull]
    exact hinv
  · by_cases h0 : r.entries.length = 0
    · rw [AddDeclared_empty srt r e low high hfull h0]
      have hnil : r.entries = [] := List.length_eq_zero.mp h0
      refine Inv_extend r _ hinv (List.Perm.refl _) rfl hshrink hranged ?_
      intro p hp
      rw [hnil] at hp
      cases hp
    · by_cases hov : (r.entries.any (fun p => intersect
        (HashRing.store r.heap r.next
          { Entry := e, Active := true, Low := low, High := high } p).Low
        (HashRing.store r.heap r.next
          { Entry := e, Active := true, Low := low, High := high } p).High
        low high) = true)
      · rw [AddDeclared_overlap srt r e low high hfull h0 hov]
        refine Inv_restrict r _ hinv hwf.1 (fun p hp => hp) (Nat.le_succ _) ?_
        intro p hp
        show (HashRing.store r.heap r.next _ p).Low = _ ∧ (HashRing.store r.heap r.next _ p).High = _
        rw [hfresh p hp]
        exact ⟨rfl, rfl⟩
      · rw [AddDeclared_inserted srt r e low high hfull h0 hov]
        refine Inv_extend r _ hinv (hs.perm _ _) rfl hshrink hranged ?_
        intro p hp m ⟨hcp, hcn⟩
        apply hov
        rw [List.any_eq_true]
        refine ⟨p, hp, ?_⟩
        rw [intersect_iff]
        change (HashRing.store r.heap r.next _ p).covers m = true at hcp
        change (HashRing.store r.heap r.next _ r.next).covers m = true at hcn
        rw [hnew] at hcn
        simp only [HashRingEntry.covers, Bool.and_eq_true, decide_eq_true_eq] at hcp hcn
        simp only [Nat.lt_min, Nat.max_lt]
        omega

theorem Inv_Add {E : Type} [Entry E] (srt : (Nat → Nat → Bool) → List Nat → List Nat)
    (hs : SortSpec srt) (r : HashRing E) (hinv : r.Inv) (e : E) (res : AddResult E)
    (hres : r.Add srt e = some res) : res.ring.Inv := by
  have hwf := hinv.1
  have hfresh : r.next ∉ r.entries := fun h => Nat.lt_irrefl _ (hwf.2 _ h)
  by_cases hfull : r.entries.length ≥ maxEntries
  · rw [Add_full srt r e hfull] at hres
    cases hres
    exact hinv
  · by_cases h0 : r.entries.length = 0
    · have hnil : r.entries = [] := List.length_eq_zero.mp h0
      rw [Add_empty srt r e h0] at hres
      cases hres
      refine Inv_extend r _ hinv (List.Perm.refl _) rfl ?_ ?_ ?_
      · intro p hp
        rw [hnil] at hp
        cases hp
      · intro p hp
        rw [hnil] at hp
        have hpn : p = r.next := by simpa using hp
        subst hpn
        show (HashRing.store r.heap r.next _ r.next).Low ≤
          (HashRing.store r.heap r.next _ r.next).High ∧
          (HashRing.store r.heap r.next _ r.next).High < 2 ^ 64
        rw [store_same]
        simp [maxEntries]
      · intro p hp
        rw [hnil] at hp
        cases hp
    · obtain ⟨P, hP, _, hcase⟩ := Add_cases srt hs r hwf e hfull h0
      rcases hcase with ⟨_, hadd⟩ | ⟨_, hadd⟩
      · rw [hadd] at hres
        cases hres
        refine Inv_restrict r _ hinv ?_ ?_ (Nat.le_succ _) ?_
        · exact (resorted_perm srt hs r e).nodup_iff.mpr hwf.1
        · intro p hp
          exact (resorted_perm srt hs r e).mem_iff.mp hp
        · intro p hp
          show (r.allocated e p).Low = _ ∧ (r.allocated e p).High = _
          rw [allocated_of_mem r hwf e p hp]
          exact ⟨rfl, rfl⟩
      · rw [hadd] at hres
        cases hres
        obtain ⟨hLH, hH⟩ := hinv.2.1 P hP
        obtain ⟨hm1, hm2⟩ := mid_bounds (r.heap P) hLH hH
        have hnext := splitHeap_next r hwf e P hP
        have hPn : P ≠ r.next := fun h => hfresh (h ▸ hP)
        have hold : ∀ q ∈ r.entries, q ≠ P → r.splitHeap e P q = r.heap q :=
          fun q hq hqP => splitHeap_other r e P q hqP (fun h => hfresh (h ▸ hq))
        refine Inv_extend r _ hinv (split_entries_perm srt hs r e P) rfl ?_ ?_ ?_
        · intro q hq m hcov
          change (r.splitHeap e P q).covers m = true at hcov
          by_cases hqP : q = P
          · subst hqP
            rw [splitHeap_source] at hcov
            simp only [HashRingEntry.covers, Bool.and_eq_true, decide_eq_true_eq] at hcov ⊢
            omega
          · rw [hold q hq hqP] at hcov
            exact hcov
        · intro q hq
          show (r.splitHeap e P q).Low ≤ (r.splitHeap e P q).High ∧
            (r.splitHeap e P q).High < 2 ^ 64
          rcases List.mem_append.mp hq with h | h
          · by_cases hqP : q = P
            · subst hqP
              rw [splitHeap_source]
              exact ⟨hm1, Nat.lt_of_le_of_lt hm2 hH⟩
            · rw [hold q h hqP]
              exact hinv.2.1 q h
          · have hqn : q = r.next := by simpa using h
            subst hqn
            rw [hnext]
            exact ⟨hm2, hH⟩
        · intro q hq m ⟨hcq, hcn⟩
          change (r.splitHeap e P q).covers m = true at hcq
          change (r.splitHeap e P r.next).covers m = true at hcn
          rw [hnext] at hcn
          simp only [HashRingEntry.covers, Bool.and_eq_true, decide_eq_true_eq] at hcn
          by_cases hqP : q = P
          · subst hqP
            rw [splitHeap_source] at hcq
            simp only [HashRingEntry.covers, Bool.and_eq_true, decide_eq_true_eq] at hcq
            omega
          · rw [hold q hq hqP] at hcq
            refine hinv.2.2 q hq P hP hqP m ⟨hcq, ?_⟩
            simp only [HashRingEntry.covers, Bool.and_eq_true, decide_eq_true_eq]
            omega

/-- A `cancel()` called directly after its `Add` leaves entries of the ring as
it was before the `Add`, with the records they had. -/
theorem Inv_Add_cancel {E : Type} [Entry E] (srt : (Nat → Nat → Bool) → List Nat → List Nat)
    (hs : SortSpec srt) (r : HashRing E) (hinv : r.Inv) (e : E) (res : AddResult E)
    (c : Closures E) (r' : HashRing E) (hres : r.Add srt e = some res)
    (hc : res.closures = some c) (hcancel : res.ring.cancel srt c = some r') : r'.Inv := by
  have hwf := hinv.1
  have hfresh : r.next ∉ r.entries := fun h => Nat.lt_irrefl _ (hwf.2 _ h)
  have hnodup : (r.entries ++ [r.next]).Nodup := by
    apply List.Nodup.append hwf.1 (List.nodup_singleton _)
    intro a ha1 ha2
    have : a = r.next := by simpa using ha2
    exact hfresh (this ▸ ha1)
  by_cases hfull : r.entries.length ≥ maxEntries
  · rw [Add_full srt r e hfull] at hres
    cases hres
    cases hc
  · by_cases h0 : r.entries.length = 0
    · rw [Add_empty srt r e h0] at hres
      cases hres
      cases hc
      rw [cancel_eq_first srt _ _ rfl (by simp)] at hcancel
      cases hcancel
      refine Inv_restrict r _ hinv ?_ ?_ (Nat.le_succ _) ?_
      · exact (hs.perm _ _).nodup_iff.mpr (hnodup.filter _)
      · intro p hp
        have hp2 := (hs.perm _ _).mem_iff.mp hp
        rw [List.mem_filter] at hp2
        obtain ⟨hp3, hp4⟩ := hp2
        rcases List.mem_append.mp hp3 with h | h
        · exact h
        · have hpn : p = r.next := by simpa using h
          subst hpn
          simp [store_same] at hp4
      · intro p hp
        show (HashRing.store r.heap r.next _ p).Low = _ ∧ (HashRing.store r.heap r.next _ p).High = _
        rw [store_fresh r hwf _ p hp]
        exact ⟨rfl, rfl⟩
    · obtain ⟨P, hP, _, hcase⟩ := Add_cases srt hs r hwf e hfull h0
      rcases hcase with ⟨_, hadd⟩ | ⟨_, hadd⟩
      · rw [hadd] at hres
        cases hres
        cases hc
      · rw [hadd] at hres
        cases hres
        cases hc
        have hperm := split_entries_perm srt hs r e P
        have hlen : ¬ (r.split srt e P).entries.length = 0 := by
          rw [hperm.length_eq]
          simp
        rw [cancel_eq srt _ _ P rfl hlen] at hcancel
        cases hcancel
        have hnext := splitHeap_next r hwf e P hP
        have hPn : r.next ≠ P := fun h => hfresh (h ▸ hP)
        have hrestored : ({ (r.split srt e P).heap P with
            High := ((r.split srt e P).heap r.next).High } : HashRingEntry E) = r.heap P := by
          show ({ r.splitHeap e P P with High := (r.splitHeap e P r.next).High } :
            HashRingEntry E) = r.heap P
          rw [hnext, splitHeap_source]
        have hheap : ∀ q ∈ r.entries, HashRing.store (r.split srt e P).heap P
            { (r.split srt e P).heap P with High := ((r.split srt e P).heap r.next).High } q =
            r.heap q := by
          intro q hq
          by_cases hqP : q = P
          · subst hqP
            rw [store_same, hrestored]
          · rw [store_of_ne _ _ _ _ hqP]
            exact splitHeap_other r e P q hqP (fun h => hfresh (h ▸ hq))
        refine Inv_restrict r _ hinv ?_ ?_ (Nat.le_succ _) ?_
        · exact (hs.perm _ _).nodup_iff.mpr ((hperm.nodup_iff.mpr hnodup).filter _)
        · intro p hp
          have hp2 := (hs.perm _ _).mem_iff.mp hp
          rw [List.mem_filter] at hp2
          obtain ⟨hp3, hp4⟩ := hp2
          rcases List.mem_append.mp (hperm.mem_iff.mp hp3) with h | h
          · exact h
          · have hpn : p = r.next := by simpa using h
            subst hpn
            rw [store_of_ne _ _ _ _ hPn] at hp4
            change (!(Entry.Key (r.splitHeap e P r.next).Entry == Entry.Key e)) = true at hp4
            rw [hnext] at hp4
            simp at hp4
        · intro p hp
          show (HashRing.store _ P _ p).Low = _ ∧ (HashRing.store _ P _ p).High = _
          rw [hheap p hp]
          exact ⟨rfl, rfl⟩

/-- C9, as the code has it: a `cancel` called after other calls gives the
previous owner a range that is no longer free.  After `NewHashed(A)`, `Add(B)`,
`Add(C)`, `Add(D)`, each followed by its `active()`, the ring is `A:[0,64)`,
`D:[64,128)`, `B:[128,192)`, `C:[192,256)`; the `cancel()` returned by `Add(B)`
then sets `A.High` to `B.High = 192` and removes `B`: the active entries
`A:[0,192)` and `D:[64,128)` both hold slot `100`. -/
theorem C9_late_cancel_overlaps_active_ranges :
    (Session.run insertionSort (Session.start [Item.mk "A" 1])
      [.Add (Item.mk "B" 2), .active 0, .Add (Item.mk "C" 3), .active 1,
        .Add (Item.mk "D" 4), .active 2]).map (fun s => s.ring.view) =
      some [⟨Item.mk "A" 1, true, 0, 64⟩, ⟨Item.mk "D" 4, true, 64, 128⟩,
        ⟨Item.mk "B" 2, true, 128, 192⟩, ⟨Item.mk "C" 3, true, 192, 256⟩] ∧
    (Session.run insertionSort (Session.start [Item.mk "A" 1])
      [.Add (Item.mk "B" 2), .active 0, .Add (Item.mk "C" 3), .active 1,
        .Add (Item.mk "D" 4), .active 2, .cancel 0]).map (fun s => s.ring.view) =
      some [⟨Item.mk "D" 4, true, 64, 128⟩, ⟨Item.mk "A" 1, true, 0, 192⟩,
        ⟨Item.mk "C" 3, true, 192, 256⟩] ∧
    (⟨Item.mk "D" 4, true, 64, 128⟩ : HashRingEntry Item).covers 100 = true ∧
    (⟨Item.mk "A" 1, true, 0, 192⟩ : HashRingEntry Item).covers 100 = true := by
  refine ⟨by decide, by decide, by decide, by decide⟩

/-- The closures stay `Cancellable` when the ring allocates, keeps the ranges
and the entries of the allocated records, and gains or loses no allocated
pointer in its slice. -/
theorem Cancellable_frame {E : Type} [Entry E] (r r' : HashRing E) (c : Closures E)
    (h : r.Cancellable c) (hnext : r.next ≤ r'.next)
    (hsame : ∀ q, q < r.next → (r'.heap q).Low = (r.heap q).Low ∧
      (r'.heap q).High = (r.heap q).High ∧ (r'.heap q).Entry = (r.heap q).Entry)
    (hmem : ∀ q, q < r.next → (q ∈ r'.entries ↔ q ∈ r.entries)) : r'.Cancellable c := by
  obtain ⟨hc, hp⟩ := h
  refine ⟨Nat.lt_of_lt_of_le hc hnext, ?_⟩
  intro p hprev
  obtain ⟨hpn, hne, hcase⟩ := hp p hprev
  obtain ⟨_, h2, _⟩ := hsame p hpn
  obtain ⟨h4, h5, h6⟩ := hsame c.hashed hc
  refine ⟨Nat.lt_of_lt_of_le hpn hnext, hne, ?_⟩
  rcases hcase with ⟨hin, hhl, hkey⟩ | hB
  · left
    refine ⟨(hmem c.hashed hc).mpr hin, ?_, ?_⟩
    · rw [h2, h4]
      exact hhl
    · rw [h6]
      exact hkey
  · right
    intro hin
    rw [h2, h5]
    exact hB ((hmem p hpn).mp hin)

theorem Cancellable_active {E : Type} [Entry E] (r : HashRing E) (c c' : Closures E)
    (h : r.Cancellable c) : (r.active c').Cancellable c := by
  refine Cancellable_frame r _ c h (Nat.le_refl _) ?_ (fun q _ => Iff.rfl)
  intro q _
  show (HashRing.store r.heap c'.hashed { r.heap c'.hashed with Active := true } q).Low = _ ∧
    (HashRing.store r.heap c'.hashed { r.heap c'.hashed with Active := true } q).High = _ ∧
    (HashRing.store r.heap c'.hashed { r.heap c'.hashed with Active := true } q).Entry = _
  by_cases hq : q = c'.hashed
  · subst hq
    rw [store_same]
    exact ⟨rfl, rfl, rfl⟩
  · rw [store_of_ne _ _ _ _ hq]
    exact ⟨rfl, rfl, rfl⟩

theorem Cancellable_AddDeclared {E : Type} [Entry E]
    (srt : (Nat → Nat → Bool) → List Nat → List Nat) (hs : SortSpec srt) (r : HashRing E)
    (c : Closures E) (h : r.Cancellable c) (e : E) (low high : Nat) :
    (r.AddDeclared srt e low high).1.Cancellable c := by
  have hstore : ∀ q, q < r.next →
      (HashRing.store r.heap r.next
        { Entry := e, Active := true, Low := low, High := high } q).Low = (r.heap q).Low ∧
      (HashRing.store r.heap r.next
        { Entry := e, Active := true, Low := low, High := high } q).High = (r.heap q).High ∧
      (HashRing.store r.heap r.next
        { Entry := e, Active := true, Low := low, High := high } q).Entry = (r.heap q).Entry := by
    intro q hq
    rw [store_of_ne _ _ _ _ (Nat.ne_of_lt hq)]
    exact ⟨rfl, rfl, rfl⟩
  have hgain : ∀ q, q < r.next → (q ∈ r.entries ++ [r.next] ↔ q ∈ r.entries) := by
    intro q hq
    have hne : q ≠ r.next := Nat.ne_of_lt hq
    simp [hne]
  by_cases hfull : r.entries.length ≥ maxEntries
  · rw [AddDeclared_full srt r e low high hfull]
    exact h
  · by_cases h0 : r.entries.length = 0
    · rw [AddDeclared_empty srt r e low high hfull h0]
      exact Cancellable_frame r _ c h (Nat.le_succ _) hstore hgain
    · by_cases hov : (r.entries.any (fun p => intersect
        (HashRing.store r.heap r.next
          { Entry := e, Active := true, Low := low, High := high } p).Low
        (HashRing.store r.heap r.next
          { Entry := e, Active := true, Low := low, High := high } p).High
        low high) = true)
      · rw [AddDeclared_overlap srt r e low high hfull h0 hov]
        exact Cancellable_frame r _ c h (Nat.le_succ _) hstore (fun q _ => Iff.rfl)
      · rw [AddDeclared_inserted srt r e low high hfull h0 hov]
        refine Cancellable_frame r _ c h (Nat.le_succ _) hstore ?_
        intro q hq
        exact ((hs.perm _ _).mem_iff).trans (hgain q hq)

/-- The closures that `Add` returns are `Cancellable` on the ring it leaves. -/
theorem Cancellable_Add {E : Type} [Entry E] (srt : (Nat → Nat → Bool) → List Nat → List Nat)
    (hs : SortSpec srt) (r : HashRing E) (hwf : r.WF) (e : E) (res : AddResult E)
    (c : Closures E) (hres : r.Add srt e = some res) (hc : res.closures = some c) :
    res.ring.Cancellable c := by
  have hfresh : r.next ∉ r.entries := fun h => Nat.lt_irrefl _ (hwf.2 _ h)
  by_cases hfull : r.entries.length ≥ maxEntries
  · rw [Add_full srt r e hfull] at hres
    cases hres
    cases hc
  · by_cases h0 : r.entries.length = 0
    · rw [Add_empty srt r e h0] at hres
      cases hres
      cases hc
      refine ⟨Nat.lt_succ_self _, ?_⟩
      intro p hp
      cases hp
    · obtain ⟨P, hP, _, hcase⟩ := Add_cases srt hs r hwf e hfull h0
      rcases hcase with ⟨_, hadd⟩ | ⟨_, hadd⟩
      · rw [hadd] at hres
        cases hres
        cases hc
      · rw [hadd] at hres
        cases hres
        cases hc
        have hPlt := hwf.2 P hP
        refine ⟨Nat.lt_succ_self _, ?_⟩
        intro p hp
        cases hp
        refine ⟨Nat.lt_succ_of_lt hPlt, Nat.ne_of_lt hPlt, Or.inl ⟨?_, ?_, ?_⟩⟩
        · exact (split_entries_perm srt hs r e P).mem_iff.mpr (by simp)
        · show (r.splitHeap e P P).High = (r.splitHeap e P r.next).Low
          rw [splitHeap_source, splitHeap_next r hwf e P hP]
        · show Entry.Key (r.splitHeap e P r.next).Entry = Entry.Key e
          rw [splitHeap_next r hwf e P hP]

/-- A `cancel()` of closures that are `Cancellable` keeps `Inv`, and the closures
stay `Cancellable`. -/
theorem Inv_cancel {E : Type} [Entry E] (srt : (Nat → Nat → Bool) → List Nat → List Nat)
    (hs : SortSpec srt) (r : HashRing E) (hinv : r.Inv) (c : Closures E)
    (hcan : r.Cancellable c) (r' : HashRing E) (hcancel : r.cancel srt c = some r') :
    r'.Inv ∧ r'.Cancellable c := by
  obtain ⟨hwf, hranged, hdisj⟩ := hinv
  have h0 : ¬ r.entries.length = 0 := by
    intro h0
    simp [HashRing.cancel, h0] at hcancel
  cases hprev : c.prevActiveHashed with
  | none =>
    rw [cancel_eq_first srt r c hprev h0] at hcancel
    cases hcancel
    refine ⟨?_, hcan.1, ?_⟩
    · refine Inv_restrict r _ ⟨hwf, hranged, hdisj⟩ ?_ ?_ (Nat.le_refl _)
        (fun p _ => ⟨rfl, rfl⟩)
      · exact (hs.perm _ _).nodup_iff.mpr (hwf.1.filter _)
      · intro p hp
        exact (List.mem_filter.mp ((hs.perm _ _).mem_iff.mp hp)).1
    · intro p hp
      rw [hprev] at hp
      cases hp
  | some P =>
    rw [cancel_eq srt r c P hprev h0] at hcancel
    cases hcancel
    obtain ⟨hlt, hP⟩ := hcan
    obtain ⟨hPlt, hne, hcase⟩ := hP P hprev
    have hnodup : (srt (HashRing.lessAt
          (HashRing.store r.heap P { r.heap P with High := (r.heap c.hashed).High }))
        (r.entries.filter (fun q => !(Entry.Key
          (HashRing.store r.heap P { r.heap P with High := (r.heap c.hashed).High } q).Entry
            == Entry.Key c.entry)))).Nodup :=
      (hs.perm _ _).nodup_iff.mpr (hwf.1.filter _)
    have hsub : ∀ q ∈ srt (HashRing.lessAt
          (HashRing.store r.heap P { r.heap P with High := (r.heap c.hashed).High }))
        (r.entries.filter (fun q => !(Entry.Key
          (HashRing.store r.heap P { r.heap P with High := (r.heap c.hashed).High } q).Entry
            == Entry.Key c.entry))),
        q ∈ r.entries ∧ Entry.Key (HashRing.store r.heap P
          { r.heap P with High := (r.heap c.hashed).High } q).Entry ≠ Entry.Key c.entry := by
      intro q hq
      have hq2 := List.mem_filter.mp ((hs.perm _ _).mem_iff.mp hq)
      exact ⟨hq2.1, by simpa using hq2.2⟩
    have hafter : (HashRing.store r.heap P { r.heap P with High := (r.heap c.hashed).High }
        P).High = (HashRing.store r.heap P { r.heap P with High := (r.heap c.hashed).High }
        c.hashed).High := by
      rw [store_same, store_of_ne _ _ _ _ (Ne.symm hne)]
    refine ⟨?_, hlt, ?_⟩
    · rcases hcase with ⟨hin, hhl, hkey⟩ | hB
      · have hgone : ∀ q ∈ srt (HashRing.lessAt
              (HashRing.store r.heap P { r.heap P with High := (r.heap c.hashed).High }))
            (r.entries.filter (fun q => !(Entry.Key
              (HashRing.store r.heap P { r.heap P with High := (r.heap c.hashed).High } q).Entry
                == Entry.Key c.entry))), q ≠ c.hashed := by
          intro q hq hqc
          have h2 := (hsub q hq).2
          rw [hqc, store_of_ne _ _ _ _ (Ne.symm hne)] at h2
          exact h2 hkey
        have hcov : ∀ q ∈ r.entries, ∀ m, (HashRing.store r.heap P
            { r.heap P with High := (r.heap c.hashed).High } q).covers m = true →
            (r.heap q).covers m = true ∨ (q = P ∧ (r.heap c.hashed).covers m = true) := by
          intro q hq m hm
          by_cases hqP : q = P
          · subst hqP
            rw [store_same] at hm
            simp only [HashRingEntry.covers, Bool.and_eq_true, decide_eq_true_eq] at hm ⊢
            by_cases hmh : m < (r.heap q).High
            · exact Or.inl ⟨hm.1, hmh⟩
            · exact Or.inr ⟨trivial, by omega, hm.2⟩
          · rw [store_of_ne _ _ _ _ hqP] at hm
            exact Or.inl hm
        refine ⟨⟨hnodup, fun q hq => hwf.2 q (hsub q hq).1⟩, ?_, ?_⟩
        · intro q hq
          have hq2 := (hsub q hq).1
          show (HashRing.store r.heap P _ q).Low ≤ (HashRing.store r.heap P _ q).High ∧
            (HashRing.store r.heap P _ q).High < 2 ^ 64
          by_cases hqP : q = P
          · subst hqP
            rw [store_same]
            have h1 := hranged q hq2
            have h2 := hranged c.hashed hin
            simp only
            omega
          · rw [store_of_ne _ _ _ _ hqP]
            exact hranged q hq2
        · intro p hp q hq hpq m ⟨hcp, hcq⟩
          change (HashRing.store r.heap P _ p).covers m = true at hcp
          change (HashRing.store r.heap P _ q).covers m = true at hcq
          have hp2 := (hsub p hp).1
          have hq2 := (hsub q hq).1
          rcases hcov p hp2 m hcp with h1 | ⟨_, h1⟩ <;>
            rcases hcov q hq2 m hcq with h2 | ⟨_, h2⟩
          · exact hdisj p hp2 q hq2 hpq m ⟨h1, h2⟩
          · exact hdisj p hp2 c.hashed hin (hgone p hp) m ⟨h1, h2⟩
          · exact hdisj c.hashed hin q hq2 (Ne.symm (hgone q hq)) m ⟨h1, h2⟩
          · rename_i hpP hqP
            exact hpq (hpP.trans hqP.symm)
      · refine Inv_restrict r _ ⟨hwf, hranged, hdisj⟩ hnodup (fun q hq => (hsub q hq).1)
          (Nat.le_refl _) ?_
        intro q hq
        show (HashRing.store r.heap P _ q).Low = _ ∧ (HashRing.store r.heap P _ q).High = _
        by_cases hqP : q = P
        · subst hqP
          rw [store_same]
          exact ⟨rfl, (hB hq).symm⟩
        · rw [store_of_ne _ _ _ _ hqP]
          exact ⟨rfl, rfl⟩
    · intro p hp
      rw [hprev] at hp
      cases hp
      exact ⟨hPlt, hne, Or.inr (fun _ => hafter)⟩

/-- What the sequences of `disciplined` keep: the ring has `Inv`, the closures
returned so far are as many as the `Add` calls, and the closures of the last
`Add` are `Cancellable`. -/
theorem run_Inv {E : Type} [Entry E] (srt : (Nat → Nat → Bool) → List Nat → List Nat)
    (hs : SortSpec srt) (calls : List (Call E)) :
    ∀ (adds : Nat) (s s' : Session E),
      disciplined adds calls = true → s.ring.Inv → s.closures.length = adds →
      (∀ c, s.closures.getLast? = some (some c) → s.ring.Cancellable c) →
      Session.run srt s calls = some s' → s'.ring.Inv := by
  induction calls with
  | nil =>
    intro adds s s' _ hinv _ _ hrun
    simp only [Session.run, Option.some.injEq] at hrun
    subst hrun
    exact hinv
  | cons call rest ih =>
    intro adds s s' hd hinv hlen hpend hrun
    cases call with
    | Add entry =>
      simp only [disciplined] at hd
      simp only [Session.run, Session.call] at hrun
      cases hadd : s.ring.Add srt entry with
      | none => simp [hadd] at hrun
      | some res =>
        simp only [hadd] at hrun
        refine ih (adds + 1) ⟨res.ring, s.closures ++ [res.closures]⟩ s' hd
          (Inv_Add srt hs s.ring hinv entry res hadd) (by simp [hlen]) ?_ hrun
        intro c hc
        have hc2 : res.closures = some c := by simpa using hc
        exact Cancellable_Add srt hs s.ring hinv.1 entry res c hadd hc2
    | AddDeclared entry low high =>
      simp only [disciplined, Bool.and_eq_true, decide_eq_true_eq] at hd
      simp only [Session.run, Session.call] at hrun
      refine ih adds ⟨(s.ring.AddDeclared srt entry low high).1, s.closures⟩ s' hd.2
        (Inv_AddDeclared srt hs s.ring hinv entry low high hd.1.1 hd.1.2) hlen ?_ hrun
      intro c hc
      exact Cancellable_AddDeclared srt hs s.ring c (hpend c hc) entry low high
    | active k =>
      simp only [disciplined] at hd
      simp only [Session.run, Session.call] at hrun
      cases hk : s.closures[k]? with
      | none => simp [hk] at hrun
      | some oc =>
        cases oc with
        | none => simp [hk] at hrun
        | some c' =>
          simp only [hk] at hrun
          refine ih adds ⟨s.ring.active c', s.closures⟩ s' hd (Inv_active s.ring c' hinv)
            hlen ?_ hrun
          intro c hc
          exact Cancellable_active s.ring c c' (hpend c hc)
    | cancel k =>
      simp only [disciplined, Bool.and_eq_true, decide_eq_true_eq] at hd
      obtain ⟨hk1, hd2⟩ := hd
      simp only [Session.run, Session.call] at hrun
      cases hk : s.closures[k]? with
      | none => simp [hk] at hrun
      | some oc =>
        cases oc with
        | none => simp [hk] at hrun
        | some c =>
          simp only [hk] at hrun
          have hkl : k = s.closures.length - 1 := by omega
          have hlast : s.closures.getLast? = some (some c) := by
            rw [List.getLast?_eq_getElem?, ← hkl, hk]
          cases hcan : s.ring.cancel srt c with
          | none => simp [hcan] at hrun
          | some ring =>
            simp only [hcan] at hrun
            obtain ⟨hinv2, hcan2⟩ := Inv_cancel srt hs s.ring hinv c (hpend c hlast) ring hcan
            refine ih adds ⟨ring, s.closures⟩ s' hd2 hinv2 hlen ?_ hrun
            intro c2 hc2
            rw [hlast] at hc2
            simp only [Option.some.injEq] at hc2
            subst hc2
            exact hcan2

/-- C9, amended: in every ring state reached from `NewHashed(entries...)` by a
sequence of `Add`, `AddDeclared` with `low ≤ high`, `active()` closures of
earlier `Add` calls, and `cancel()` closures called while no `Add` has been
called since the `Add` that returned them, no slot is held by two entries of
the ring, so the ranges of the entries with `Active = true` are pairwise
disjoint. -/
theorem C9_ranges_stay_disjoint {E : Type} [Entry E]
    (srt : (Nat → Nat → Bool) → List Nat → List Nat) (hs : SortSpec srt)
    (entries : List E) (calls : List (Call E)) (s : Session E)
    (hd : disciplined 0 calls = true)
    (hrun : Session.run srt (Session.start entries) calls = some s) :
    ∀ (i j : Nat) (x y : HashRingEntry E), i < j →
      s.ring.view[i]? = some x → s.ring.view[j]? = some y →
      ∀ m, ¬ (x.covers m = true ∧ y.covers m = true) := by
  have hinv : s.ring.Inv :=
    run_Inv srt hs calls 0 (Session.start entries) s hd (Inv_NewHashed entries) rfl
      (fun c h => by cases h) hrun
  intro i j x y hij hx hy m
  unfold HashRing.view at hx hy
  rw [List.getElem?_map] at hx hy
  cases hp : s.ring.entries[i]? with
  | none => rw [hp] at hx; cases hx
  | some p =>
    cases hq : s.ring.entries[j]? with
    | none => rw [hq] at hy; cases hy
    | some q =>
      rw [hp] at hx
      rw [hq] at hy
      simp only [Option.map_some', Option.some.injEq] at hx hy
      subst hx
      subst hy
      refine hinv.2.2 p (List.getElem?_mem hp) q (List.getElem?_mem hq) ?_ m
      intro hpq
      subst hpq
      have := List.getElem?_inj (by
        by_contra hc
        rw [List.getElem?_eq_none (Nat.le_of_not_lt hc)] at hp
        cases hp) hinv.1.1 (hp.trans hq.symm)
      omega

/-- C9, amended, on the calls of `TestHashed`: `NewHashed` of three entries, an
`Add` made active and then cancelled, and five more `Add` calls, each made
active.  The neighbours `[42,85)` and `[85,127)` of the ring reached do not
both hold slot `85`. -/
theorem C9_ranges_stay_disjoint_witness :
    SortSpec insertionSort ∧
    disciplined 0 [Call.Add (Item.mk "4" 4), Call.active 0, Call.cancel 0,
      Call.Add (Item.mk "4" 4), Call.active 1, Call.Add (Item.mk "5" 5), Call.active 2,
      Call.Add (Item.mk "6" 6), Call.active 3, Call.Add (Item.mk "7" 7), Call.active 4,
      Call.Add (Item.mk "8" 8), Call.active 5] = true ∧
    (Session.run insertionSort
      (Session.start [Item.mk "1" 1, Item.mk "2" 2, Item.mk "3" 3])
      [.Add (Item.mk "4" 4), .active 0, .cancel 0,
        .Add (Item.mk "4" 4), .active 1, .Add (Item.mk "5" 5), .active 2,
        .Add (Item.mk "6" 6), .active 3, .Add (Item.mk "7" 7), .active 4,
        .Add (Item.mk "8" 8), .active 5]).map (fun s => s.ring.view) =
      some [⟨Item.mk "1" 1, true, 0, 42⟩, ⟨Item.mk "6" 6, true, 42, 85⟩,
        ⟨Item.mk "2" 2, true, 85, 127⟩, ⟨Item.mk "5" 5, true, 127, 170⟩,
        ⟨Item.mk "3" 3, true, 170, 191⟩, ⟨Item.mk "8" 8, true, 191, 213⟩,
        ⟨Item.mk "4" 4, true, 213, 234⟩, ⟨Item.mk "7" 7, true, 234, 256⟩] ∧
    ¬ ((⟨Item.mk "6" 6, true, 42, 85⟩ : HashRingEntry Item).covers 85 = true ∧
      (⟨Item.mk "2" 2, true, 85, 127⟩ : HashRingEntry Item).covers 85 = true) :=
  ⟨insertionSort_spec, by decide, by decide, by
    cases hrun : Session.run insertionSort
        (Session.start [Item.mk "1" 1, Item.mk "2" 2, Item.mk "3" 3])
        [.Add (Item.mk "4" 4), .active 0, .cancel 0,
          .Add (Item.mk "4" 4), .active 1, .Add (Item.mk "5" 5), .active 2,
          .Add (Item.mk "6" 6), .active 3, .Add (Item.mk "7" 7), .active 4,
          .Add (Item.mk "8" 8), .active 5] with
    | none =>
      have h : (Session.run insertionSort
        (Session.start [Item.mk "1" 1, Item.mk "2" 2, Item.mk "3" 3])
        [.Add (Item.mk "4" 4), .active 0, .cancel 0,
          .Add (Item.mk "4" 4), .active 1, .Add (Item.mk "5" 5), .active 2,
          .Add (Item.mk "6" 6), .active 3, .Add (Item.mk "7" 7), .active 4,
          .Add (Item.mk "8" 8), .active 5]).isSome = true := by decide
      rw [hrun] at h
      cases h
    | some s =>
      have hview : (Session.run insertionSort
          (Session.start [Item.mk "1" 1, Item.mk "2" 2, Item.mk "3" 3])
          [.Add (Item.mk "4" 4), .active 0, .cancel 0,
            .Add (Item.mk "4" 4), .active 1, .Add (Item.mk "5" 5), .active 2,
            .Add (Item.mk "6" 6), .active 3, .Add (Item.mk "7" 7), .active 4,
            .Add (Item.mk "8" 8), .active 5]).map (fun s => s.ring.view) =
          some [⟨Item.mk "1" 1, true, 0, 42⟩, ⟨Item.mk "6" 6, true, 42, 85⟩,
            ⟨Item.mk "2" 2, true, 85, 127⟩, ⟨Item.mk "5" 5, true, 127, 170⟩,
            ⟨Item.mk "3" 3, true, 170, 191⟩, ⟨Item.mk "8" 8, true, 191, 213⟩,
            ⟨Item.mk "4" 4, true, 213, 234⟩, ⟨Item.mk "7" 7, true, 234, 256⟩] := by decide
      rw [hrun] at hview
      simp only [Option.map_some', Option.some.injEq] at hview
      exact C9_ranges_stay_disjoint insertionSort insertionSort_spec
        [Item.mk "1" 1, Item.mk "2" 2, Item.mk "3" 3]
        [.Add (Item.mk "4" 4), .active 0, .cancel 0,
          .Add (Item.mk "4" 4), .active 1, .Add (Item.mk "5" 5), .active 2,
          .Add (Item.mk "6" 6), .active 3, .Add (Item.mk "7" 7), .active 4,
          .Add (Item.mk "8" 8), .active 5] s (by decide) hrun 1 2 _ _ (by decide)
        (by rw [hview]; rfl) (by rw [hview]; rfl) 85⟩

/-- The discipline of `disciplined` does not extend to cancelling in stack
order.  After `NewHashed(A)`, `Add(X)`, its `active()` and the `Add` of a second
entry with the key `X`, the `cancel()` of the second `Add` removes both entries
with the key `X` and leaves `A:[0,128)`; `AddDeclared(Y, 250, 256)` is then
accepted, and the `cancel()` of the first `Add` stretches `A` to `[0,256)`, over
`Y`: both hold slot `252`. -/
theorem cancel_in_stack_order_overlaps :
    (Session.run insertionSort (Session.start [Item.mk "A" 1])
      [.Add (Item.mk "X" 2), .active 0, .Add (Item.mk "X" 3), .cancel 1]).map
        (fun s => s.ring.view) = some [⟨Item.mk "A" 1, true, 0, 128⟩] ∧
    (Session.run insertionSort (Session.start [Item.mk "A" 1])
      [.Add (Item.mk "X" 2), .active 0, .Add (Item.mk "X" 3), .cancel 1,
        .AddDeclared (Item.mk "Y" 5) 250 256, .cancel 0]).map (fun s => s.ring.view) =
      some [⟨Item.mk "A" 1, true, 0, 256⟩, ⟨Item.mk "Y" 5, true, 250, 256⟩] ∧
    (⟨Item.mk "A" 1, true, 0, 256⟩ : HashRingEntry Item).covers 252 = true ∧
    (⟨Item.mk "Y" 5, true, 250, 256⟩ : HashRingEntry Item).covers 252 = true := by
  refine ⟨by decide, by decide, by decide, by decide⟩

/-! ## `Sequence` -/

theorem Sequence.Next_value (seq : Sequence) (h : seq.value < 2 ^ 32) :
    seq.Next.2 = seq.value ∧ seq.Next.1.value = (seq.value + 1) % 2 ^ 32 ∧
      seq.Next.1.value < 2 ^ 32 ∧ seq.Next.1.Value = seq.value := by
  simp only [Sequence.Next, Sequence.Value, u32]
  refine ⟨?_, trivial, ?_, ?_⟩ <;> omega

theorem Sequence.run_value (n : Nat) :
    ∀ seq : Sequence, seq.value < 2 ^ 32 →
      (seq.run n).1.value = (seq.value + n) % 2 ^ 32 ∧
      (seq.run n).2 = (List.range n).map (fun k => (seq.value + k) % 2 ^ 32) := by
  induction n with
  | zero =>
    intro seq h
    simp only [Sequence.run, List.range_zero, List.map_nil, Nat.add_zero, and_true]
    omega
  | succ n ih =>
    intro seq h
    obtain ⟨h1, h2, h3, _⟩ := Sequence.Next_value seq h
    obtain ⟨ih1, ih2⟩ := ih seq.Next.1 h3
    simp only [Sequence.run]
    refine ⟨?_, ?_⟩
    · rw [ih1, h2]
      omega
    · rw [ih2, h1, List.range_succ_eq_map, List.map_cons, List.map_map]
      refine congrArg₂ List.cons (by simp; omega) ?_
      apply List.map_congr_left
      intro k _
      simp only [Function.comp, h2]
      omega

/-- C16: on a sequence made by `NewSequence` and used by one caller, the `k`-th
call of `Next()` (counted from `0`) returns `k mod 2^32`; the first `n ≤ 2^32`
calls return `0, 1, ..., n - 1`, each value once; and `Value()` called after a
`Next()` returns what that `Next()` returned. -/
theorem C16_Sequence_Next_counts_up :
    (∀ k, (NewSequence.run k).1.Next.2 = k % 2 ^ 32) ∧
    (∀ n, (NewSequence.run n).2 = (List.range n).map (fun k => k % 2 ^ 32)) ∧
    (∀ n, n ≤ 2 ^ 32 → (NewSequence.run n).2 = List.range n ∧ (NewSequence.run n).2.Nodup) ∧
    (∀ k, (NewSequence.run k).1.Next.1.Value = (NewSequence.run k).1.Next.2) := by
  have h0 : NewSequence.value < 2 ^ 32 := by decide
  have hv : ∀ k, (NewSequence.run k).1.value = k % 2 ^ 32 := by
    intro k
    have := (Sequence.run_value k NewSequence h0).1
    simpa [NewSequence] using this
  have hlist : ∀ n, (NewSequence.run n).2 = (List.range n).map (fun k => k % 2 ^ 32) := by
    intro n
    have := (Sequence.run_value n NewSequence h0).2
    simpa [NewSequence] using this
  have hlt : ∀ k, (NewSequence.run k).1.value < 2 ^ 32 := by
    intro k
    rw [hv k]
    exact Nat.mod_lt _ (by decide)
  refine ⟨?_, hlist, ?_, ?_⟩
  · intro k
    rw [(Sequence.Next_value _ (hlt k)).1, hv k]
  · intro n hn
    have heq : (NewSequence.run n).2 = List.range n := by
      rw [hlist n]
      conv => rhs; rw [← List.map_id (List.range n)]
      apply List.map_congr_left
      intro k hk
      have := List.mem_range.mp hk
      simp only [id]
      exact Nat.mod_eq_of_lt (by omega)
    exact ⟨heq, heq ▸ List.nodup_range n⟩
  · intro k
    obtain ⟨h1, _, _, h4⟩ := Sequence.Next_value _ (hlt k)
    rw [h4, h1]

/-! ## `NewImmutable` -/

theorem keyCounts_eq {E : Type} [Entry E] (values : List E) :
    ∀ (keys : String → Nat) (k : String),
      keyCounts values keys k = keys k + (values.map Entry.Key).count k := by
  induction values with
  | nil =>
    intro keys k
    simp [keyCounts]
  | cons value rest ih =>
    intro keys k
    rw [keyCounts, ih, List.map_cons, List.count_cons]
    by_cases hk : k = Entry.Key value
    · subst hk
      simp
      omega
    · have hk2 : ¬ (Entry.Key value == k) = true := by
        simpa using fun h => hk h.symm
      simp [hk, hk2]

/-- The duplicate test of `NewImmutable` fails exactly on lists whose keys are
pairwise distinct. -/
theorem duplicated_eq_false_iff {E : Type} [Entry E] (values : List E) :
    duplicated values = false ↔ (values.map Entry.Key).Nodup := by
  rw [List.nodup_iff_count_le_one]
  simp only [duplicated, List.any_eq_false, decide_eq_true_eq, keyCounts_eq, Nat.zero_add]
  constructor
  · intro h a
    by_cases ha : a ∈ values.map Entry.Key
    · obtain ⟨v, hv, rfl⟩ := List.mem_map.mp ha
      have := h v hv
      omega
    · rw [List.count_eq_zero_of_not_mem ha]
      omega
  · intro h v _
    have := h (Entry.Key v)
    omega

theorem capacityLoop_spec (valuesLen : Nat) :
    ∀ (rounds k c d : Nat), capacityLoop valuesLen rounds k = some (c, d) →
      c = 2 ^ d ∧ k ≤ d ∧ d < k + rounds ∧ valuesLen ≤ 2 ^ d ∧
        ∀ j, k ≤ j → j < d → 2 ^ j < valuesLen := by
  intro rounds
  induction rounds with
  | zero =>
    intro k c d h
    simp [capacityLoop] at h
  | succ rounds ih =>
    intro k c d h
    rw [capacityLoop] at h
    by_cases hk : 2 ^ k ≥ valuesLen
    · rw [if_pos hk] at h
      simp only [Option.some.injEq, Prod.mk.injEq] at h
      obtain ⟨h1, h2⟩ := h
      subst h2
      refine ⟨h1.symm, Nat.le_refl _, by omega, hk, ?_⟩
      intro j hj1 hj2
      omega
    · rw [if_neg hk] at h
      obtain ⟨h1, h2, h3, h4, h5⟩ := ih (k + 1) c d h
      refine ⟨h1, by omega, by omega, h4, ?_⟩
      intro j hj1 hj2
      by_cases hjk : j = k
      · subst hjk
        omega
      · exact h5 j (by omega) hj2

theorem fill_spec {E : Type} [Entry E] (filled : List E) :
    ∀ (rounds i : Nat) (r : ImmutableRing E), 0 < r.align →
      (∀ j, i ≤ j → j < i + rounds →
        r.cell j = j * r.align ∧ j * r.align < r.elements.length) →
      ∃ r', ImmutableRing.fill filled rounds i r = some r' ∧
        r'.sequence = r.sequence ∧ r'.size = r.size ∧ r'.align = r.align ∧
        r'.mask = r.mask ∧ r'.elements.length = r.elements.length ∧
        (∀ j, i ≤ j → j < i + rounds →
          r'.elements[j * r.align]? = some (filled.getD j default)) ∧
        (∀ m, (∀ j, i ≤ j → j < i + rounds → m ≠ j * r.align) →
          r'.elements[m]? = r.elements[m]?) := by
  intro rounds
  induction rounds with
  | zero =>
    intro i r _ _
    refine ⟨r, rfl, rfl, rfl, rfl, rfl, rfl, ?_, fun _ _ => rfl⟩
    intro j h1 h2
    omega
  | succ rounds ih =>
    intro i r halign hcells
    obtain ⟨hci, hlt⟩ := hcells i (Nat.le_refl _) (by omega)
    have hcond : r.cell i < r.elements.length := by
      rw [hci]
      exact hlt
    rw [ImmutableRing.fill, if_pos hcond]
    obtain ⟨r', h1, h2, h3, h4, h5, h6, h7, h8⟩ := ih (i + 1)
      { r with elements := r.elements.set (r.cell i) (filled.getD i default) } halign
      (by
        intro j hj1 hj2
        have := hcells j (by omega) (by omega)
        simp only [List.length_set]
        exact this)
    simp only [List.length_set] at h6
    refine ⟨r', h1, h2, h3, h4, h5, h6, ?_, ?_⟩
    · intro j hj1 hj2
      by_cases hji : j = i
      · subst hji
        rw [h8 (j * r.align)]
        · simp only [hci]
          rw [List.getElem?_set_self hlt]
        · intro j' hj'1 hj'2 heq
          have := Nat.eq_of_mul_eq_mul_right halign heq
          omega
      · exact h7 j (by omega) (by omega)
    · intro m hm
      rw [h8 m (fun j hj1 hj2 => hm j (by omega) (by omega))]
      have hne : r.cell i ≠ m := by
        rw [hci]
        exact fun h => hm i (Nat.le_refl _) (by omega) h.symm
      simp only
      rw [List.getElem?_set_ne hne]

theorem align_pos (arch : Arch) : 0 < arch.align := by
  cases arch <;> decide

theorem getD_map_range {α : Type} (f : Nat → α) (n i : Nat) (d : α) (hi : i < n) :
    ((List.range n).map f).getD i d = f i := by
  simp [List.getElem?_map, List.getElem?_range hi]

/-- The ring that `NewImmutable` builds when the capacity loop ends with
`capacity = 2 ^ d` and `capacity * align` fits `uint32`. -/
theorem NewImmutable_built {E : Type} [Entry E] (arch : Arch) (key : String) (values : List E)
    (c d : Nat) (hne : ¬ values.length = 0) (hnodup : (values.map Entry.Key).Nodup)
    (hcap : capacityLoop (values.length % u32) 31 1 = some (c, d))
    (hlen0 : ¬ values.length % u32 = 0) (hfit : c * arch.align < 2 ^ 32) :
    ∃ r, NewImmutable arch key values = some r ∧ r.sequence = NewSequence ∧
      r.size = 2 ^ d ∧ r.mask = 2 ^ d - 1 ∧
      ∀ idx, r.elementAt idx =
        some (values.getD ((idx % 2 ^ d) % (values.length % u32)) default) := by
  obtain ⟨hc, _, _, _, _⟩ := capacityLoop_spec _ _ _ _ _ hcap
  subst hc
  have hapos := align_pos arch
  have hpos : 0 < 2 ^ d := Nat.two_pow_pos d
  have hmod : (2 ^ d * arch.align) % u32 = 2 ^ d * arch.align := Nat.mod_eq_of_lt hfit
  have hnz : ¬ (2 ^ d * arch.align) % u32 = 0 := by
    rw [hmod]
    exact Nat.pos_iff_ne_zero.mp (Nat.mul_pos hpos hapos)
  have hdup : duplicated values = false := (duplicated_eq_false_iff values).mpr hnodup
  have hcell : ∀ (r : ImmutableRing E) (idx : Nat), r.mask = 2 ^ d - 1 → r.align = arch.align →
      r.cell idx = (idx % 2 ^ d) * arch.align := by
    intro r idx hm ha
    rw [ImmutableRing.cell, hm, ha, Nat.and_pow_two_sub_one_eq_mod]
    apply Nat.mod_eq_of_lt
    have : idx % 2 ^ d < 2 ^ d := Nat.mod_lt _ hpos
    calc idx % 2 ^ d * arch.align ≤ 2 ^ d * arch.align :=
          Nat.mul_le_mul_right _ (Nat.le_of_lt this)
      _ < u32 := hfit
  obtain ⟨r, h1, h2, h3, h4, h5, h6, h7, _⟩ := fill_spec
    ((List.range (2 ^ d)).map (fun i => values.getD (i % (values.length % u32)) default))
    (2 ^ d) 0
    { sequence := NewSequence
      elements := List.replicate ((2 ^ d * arch.align) % u32) default
      size := 2 ^ d
      shift := d
      align := arch.align
      mask := 2 ^ d - 1
      key := key } hapos
    (by
      intro j _ hj
      have hj2 : j < 2 ^ d := by omega
      constructor
      · rw [hcell _ j rfl rfl, Nat.mod_eq_of_lt hj2]
      · simp only [List.length_replicate, hmod]
        exact Nat.mul_lt_mul_of_pos_right hj2 hapos)
  refine ⟨r, ?_, h2, h3, h5, ?_⟩
  · rw [NewImmutable, if_neg hne, hdup]
    simp only [Bool.false_eq_true, if_false, hcap, if_neg hlen0, if_neg hnz]
    exact h1
  · intro idx
    have hlt : idx % 2 ^ d < 2 ^ d := Nat.mod_lt _ hpos
    rw [ImmutableRing.elementAt, hcell r idx h5 h4]
    have := h7 (idx % 2 ^ d) (Nat.zero_le _) (by omega)
    simp only at this
    rw [this, getD_map_range _ _ _ _ hlt]

theorem pow_mul_align_fits (arch : Arch) (d : Nat) (h : ¬ (2 ^ d * arch.align) % u32 = 0) :
    2 ^ d * arch.align < 2 ^ 32 := by
  by_contra hc
  apply h
  have hge : 2 ^ 32 ≤ 2 ^ d * arch.align := Nat.le_of_not_lt hc
  cases arch with
  | bits32 =>
    have h4 : 2 ^ d * Arch.bits32.align = 2 ^ (d + 2) := by
      rw [Nat.pow_succ, Nat.pow_succ, Nat.mul_assoc]
      rfl
    rw [h4] at hge ⊢
    have hd : 32 ≤ d + 2 := by
      by_contra hlt
      have : 2 ^ (d + 2) < 2 ^ 32 := Nat.pow_lt_pow_right (by decide) (by omega)
      omega
    exact Nat.mod_eq_zero_of_dvd (Nat.pow_dvd_pow 2 hd)
  | bits64 =>
    have h8 : 2 ^ d * Arch.bits64.align = 2 ^ (d + 3) := by
      rw [Nat.pow_succ, Nat.pow_succ, Nat.pow_succ, Nat.mul_assoc, Nat.mul_assoc]
      rfl
    rw [h8] at hge ⊢
    have hd : 32 ≤ d + 3 := by
      by_contra hlt
      have : 2 ^ (d + 3) < 2 ^ 32 := Nat.pow_lt_pow_right (by decide) (by omega)
      omega
    exact Nat.mod_eq_zero_of_dvd (Nat.pow_dvd_pow 2 hd)

/-- What holds of every ring that `NewImmutable` returns. -/
theorem NewImmutable_inv {E : Type} [Entry E] (arch : Arch) (key : String) (values : List E)
    (r : ImmutableRing E) (hnew : NewImmutable arch key values = some r) :
    values ≠ [] ∧ (values.map Entry.Key).Nodup ∧ values.length % 2 ^ 32 ≠ 0 ∧
      r.sequence = NewSequence ∧
      ∃ d, 1 ≤ d ∧ d ≤ 31 ∧ r.size = 2 ^ d ∧ r.mask = 2 ^ d - 1 ∧
        2 ^ d * arch.align < 2 ^ 32 ∧ values.length % 2 ^ 32 ≤ 2 ^ d ∧
        (∀ j, 1 ≤ j → j < d → 2 ^ j < values.length % 2 ^ 32) ∧
        ∀ idx, r.elementAt idx =
          some (values.getD ((idx % 2 ^ d) % (values.length % 2 ^ 32)) default) := by
  by_cases hne : values.length = 0
  · rw [NewImmutable, if_pos hne] at hnew
    cases hnew
  · rw [NewImmutable, if_neg hne] at hnew
    cases hdup : duplicated values with
    | true =>
      rw [hdup] at hnew
      simp at hnew
    | false =>
      rw [hdup] at hnew
      simp only [Bool.false_eq_true, if_false] at hnew
      cases hcap : capacityLoop (values.length % u32) 31 1 with
      | none =>
        rw [hcap] at hnew
        cases hnew
      | some cd =>
        obtain ⟨c, d⟩ := cd
        rw [hcap] at hnew
        simp only at hnew
        by_cases hlen0 : values.length % u32 = 0
        · rw [if_pos hlen0] at hnew
          cases hnew
        · rw [if_neg hlen0] at hnew
          by_cases hnz : (c * arch.align) % u32 = 0
          · rw [if_pos hnz] at hnew
            cases hnew
          · rw [if_neg hnz] at hnew
            obtain ⟨hc, h1d, hd, hle, hmin⟩ := capacityLoop_spec _ _ _ _ _ hcap
            subst hc
            have hfit := pow_mul_align_fits arch d hnz
            have hnodup := (duplicated_eq_false_iff values).mp hdup
            obtain ⟨r', hr', h2, h3, h4, h5⟩ :=
              NewImmutable_built arch key values _ d hne hnodup hcap hlen0 hfit
            have hnew2 : NewImmutable arch key values = some r := by
              rw [NewImmutable, if_neg hne, hdup]
              simp only [Bool.false_eq_true, if_false, hcap, if_neg hlen0, if_neg hnz]
              exact hnew
            rw [hr'] at hnew2
            cases hnew2
            refine ⟨fun h => hne (by simp [h]), hnodup, hlen0, h2, d, h1d, by omega, h3, h4,
              hfit, hle, hmin, h5⟩

/-! ## `ImmutableRing.Next` and `ImmutableRing.Head` -/

theorem mod_u32_mod_pow (n d : Nat) (hd : d ≤ 32) : n % 2 ^ 32 % 2 ^ d = n % 2 ^ d :=
  Nat.mod_mod_of_dvd n (Nat.pow_dvd_pow 2 hd)

/-- The calls of `Next` on a ring whose slot `idx` holds `f (idx mod 2^d)`. -/
theorem ImmutableRing.run_spec {E : Type} (d : Nat) (f : Nat → E) (hd : d ≤ 32) (n : Nat) :
    ∀ (r : ImmutableRing E), r.size = 2 ^ d → r.sequence.value < 2 ^ 32 →
      (∀ idx, r.elementAt idx = some (f (idx % 2 ^ d))) →
      r.run n = some ({ r with sequence := (r.sequence.run n).1 },
        (List.range n).map (fun k => f ((r.sequence.value + k) % 2 ^ d))) := by
  induction n with
  | zero =>
    intro r _ _ _
    rfl
  | succ n ih =>
    intro r hsize hv helem
    obtain ⟨h1, h2, h3, _⟩ := Sequence.Next_value r.sequence hv
    have hpos : ¬ r.size = 0 := by
      rw [hsize]
      exact Nat.pos_iff_ne_zero.mp (Nat.two_pow_pos d)
    have hnext : r.Next = some ({ r with sequence := r.sequence.Next.1 },
        f (r.sequence.value % 2 ^ d)) := by
      rw [ImmutableRing.Next, if_neg hpos]
      have : ({ r with sequence := r.sequence.Next.1 } : ImmutableRing E).elementAt
          (r.sequence.Next.2 % r.size) = some (f (r.sequence.value % 2 ^ d)) := by
        show r.elementAt (r.sequence.Next.2 % r.size) = _
        rw [helem, h1, hsize, Nat.mod_mod]
      rw [this]
    have ihn := ih { r with sequence := r.sequence.Next.1 } hsize h3 helem
    have hlist : (List.range (n + 1)).map (fun k => f ((r.sequence.value + k) % 2 ^ d)) =
        f (r.sequence.value % 2 ^ d) ::
          (List.range n).map (fun k => f ((r.sequence.Next.1.value + k) % 2 ^ d)) := by
      rw [List.range_succ_eq_map, List.map_cons, List.map_map, Nat.add_zero]
      refine congrArg₂ List.cons rfl ?_
      apply List.map_congr_left
      intro k _
      simp only [Function.comp, h2]
      have h5 := mod_u32_mod_pow (r.sequence.value + 1 + k) d hd
      have h4 := mod_u32_mod_pow ((r.sequence.value + 1) % 2 ^ 32 + k) d hd
      rw [← h4, Nat.mod_add_mod, h5]
      have : r.sequence.value + (k + 1) = r.sequence.value + 1 + k := by omega
      rw [this]
    rw [ImmutableRing.run, hnext]
    simp only [ihn, Sequence.run, hlist]

/-- The calls of `Next` on a ring fresh from `NewImmutable`. -/
theorem NewImmutable_run {E : Type} [Entry E] (arch : Arch) (key : String) (values : List E)
    (r : ImmutableRing E) (hnew : NewImmutable arch key values = some r) (n : Nat) :
    r.run n = some ({ r with sequence := (NewSequence.run n).1 },
      (List.range n).map (fun k =>
        values.getD ((k % r.size) % (values.length % 2 ^ 32)) default)) := by
  obtain ⟨_, _, _, hseq, d, _, hd, hsize, _, _, _, _, helem⟩ :=
    NewImmutable_inv arch key values r hnew
  have := ImmutableRing.run_spec d
    (fun i => values.getD (i % (values.length % 2 ^ 32)) default) (by omega) n r hsize
    (by rw [hseq]; decide)
    (by
      intro idx
      rw [helem idx])
  rw [this, hseq, hsize]
  simp [NewSequence]

theorem distinctItems_length (n : Nat) : (distinctItems n).length = n := by
  simp [distinctItems]

theorem distinctItems_nodup (n : Nat) : ((distinctItems n).map Entry.Key).Nodup := by
  rw [distinctItems, List.map_map]
  apply List.Nodup.map _ (List.nodup_range n)
  intro i j hij
  have h1 : (String.mk (List.replicate i 'a')) = String.mk (List.replicate j 'a') := hij
  have h2 : List.replicate i 'a' = List.replicate j 'a' := congrArg String.data h1
  have h3 := congrArg List.length h2
  simpa using h3

theorem distinctItems_getD (n i : Nat) (hi : i < n) :
    (distinctItems n).getD i default = Item.mk (String.mk (List.replicate i 'a')) i :=
  getD_map_range _ n i default hi

/-- C12, as the code has it, for a single value: the doubling loop starts at
`2 ^ 1`, so the ring has capacity `2` and mask `1`, and its two slots hold the
value. -/
theorem C12_capacity_of_single_value :
    (NewImmutable Arch.bits64 "immutable" [Item.mk "X" 1]).map
      (fun r => (r.size, r.mask, r.elementAt 0, r.elementAt 1)) =
      some (2, 1, some (Item.mk "X" 1), some (Item.mk "X" 1)) := by
  decide

/-- C12, amended: the ring that `NewImmutable` builds from fewer than `2 ^ 32`
values has as capacity a power of two `2 ^ d` with `d ≥ 1` that is at least the
number of values, and the smallest such; for two values or more this is the
smallest power of two that is at least the number of values; and
`mask = capacity - 1`. -/
theorem C12_capacity_is_next_power_of_two {E : Type} [Entry E] (arch : Arch) (key : String)
    (values : List E) (r : ImmutableRing E) (hnew : NewImmutable arch key values = some r)
    (hlen : values.length < 2 ^ 32) :
    ∃ d, 1 ≤ d ∧ r.size = 2 ^ d ∧ r.mask = r.size - 1 ∧ values.length ≤ r.size ∧
      (∀ j, 1 ≤ j → values.length ≤ 2 ^ j → r.size ≤ 2 ^ j) ∧
      (2 ≤ values.length → ∀ j, values.length ≤ 2 ^ j → r.size ≤ 2 ^ j) := by
  obtain ⟨_, _, _, _, d, h1d, _, hsize, hmask, _, hle, hmin, _⟩ :=
    NewImmutable_inv arch key values r hnew
  rw [Nat.mod_eq_of_lt hlen] at hle hmin
  have hsmall : ∀ j, 1 ≤ j → values.length ≤ 2 ^ j → r.size ≤ 2 ^ j := by
    intro j hj hlej
    rw [hsize]
    apply Nat.pow_le_pow_right (by decide)
    by_contra hc
    have := hmin j hj (by omega)
    omega
  refine ⟨d, h1d, hsize, by rw [hmask, hsize], by rw [hsize]; exact hle, hsmall, ?_⟩
  intro h2 j hlej
  apply hsmall j _ hlej
  by_contra hc
  have hj0 : j = 0 := by omega
  subst hj0
  simp at hlej
  omega

/-- C12, amended, on three and on five values: capacity `4` and `8`. -/
theorem C12_capacity_is_next_power_of_two_witness :
    (NewImmutable Arch.bits64 "immutable" (distinctItems 3)).map
      (fun r => (r.size, r.mask)) = some (4, 3) ∧
    (NewImmutable Arch.bits64 "immutable" (distinctItems 5)).map
      (fun r => (r.size, r.mask)) = some (8, 7) ∧
    (∃ r, NewImmutable Arch.bits64 "immutable" (distinctItems 3) = some r ∧
      r.mask = r.size - 1) := by
  refine ⟨by decide, by decide, ?_⟩
  cases hnew : NewImmutable Arch.bits64 "immutable" (distinctItems 3) with
  | none =>
    have h : (NewImmutable Arch.bits64 "immutable" (distinctItems 3)).isSome = true := by
      decide
    rw [hnew] at h
    cases h
  | some r =>
    obtain ⟨d, _, _, hmask, _⟩ := C12_capacity_is_next_power_of_two Arch.bits64 "immutable"
      (distinctItems 3) r hnew (by decide)
    exact ⟨r, rfl, hmask⟩

/-- C13, as the code has it, on `2^32 + 3` values with pairwise distinct keys:
`uint32(len(values))` is `3`, the capacity is `4` and the slots are filled from
the first three values, so the fourth call of `Next()` returns `values[0]`, not
`values[(3 mod 4) mod len(values)] = values[3]`. -/
theorem C13_Next_on_list_longer_than_uint32 :
    (distinctItems 4294967299).length = 2 ^ 32 + 3 ∧
    ((distinctItems 4294967299).map Entry.Key).Nodup ∧
    (NewImmutable Arch.bits64 "immutable" (distinctItems 4294967299)).bind
      (fun r => (r.run 4).map (fun out => (r.size, out.2))) =
      some (4, [Item.mk "" 0, Item.mk "a" 1, Item.mk "aa" 2, Item.mk "" 0]) ∧
    (distinctItems 4294967299).getD ((3 % 4) % 4294967299) default = Item.mk "aaa" 3 := by
  have hlen := distinctItems_length 4294967299
  refine ⟨hlen, distinctItems_nodup _, ?_, ?_⟩
  · obtain ⟨r, hr, _, hsize, _⟩ := NewImmutable_built Arch.bits64 "immutable"
      (distinctItems 4294967299) 4 2 (by rw [hlen]; decide) (distinctItems_nodup _)
      (by rw [hlen]; decide) (by rw [hlen]; decide) (by decide)
    rw [hr]
    simp only [Option.some_bind, NewImmutable_run _ _ _ _ hr 4, Option.map_some', hsize, hlen]
    have h0 := distinctItems_getD 4294967299 0 (by decide)
    have h1 := distinctItems_getD 4294967299 1 (by decide)
    have h2 := distinctItems_getD 4294967299 2 (by decide)
    have hrange : List.range 4 = [0, 1, 2, 3] := by decide
    have e0 : (0 % 2 ^ 2) % (4294967299 % 2 ^ 32) = 0 := by decide
    have e1 : (1 % 2 ^ 2) % (4294967299 % 2 ^ 32) = 1 := by decide
    have e2 : (2 % 2 ^ 2) % (4294967299 % 2 ^ 32) = 2 := by decide
    have e3 : (3 % 2 ^ 2) % (4294967299 % 2 ^ 32) = 0 := by decide
    simp only [hrange, List.map_cons, List.map_nil, e0, e1, e2, e3, h0, h1, h2]
    rfl
  · rw [distinctItems_getD 4294967299 _ (by decide)]
    rfl

theorem getElem?_eq_some_getD {α : Type} (l : List α) (i : Nat) (d : α) (hi : i < l.length) :
    l[i]? = some (l.getD i d) := by
  simp [List.getElem?_eq_getElem hi]

/-- C13, amended: on the ring that `NewImmutable` builds from `1 ≤ L < 2^32`
values, with capacity `c`, the `k`-th call of `Next()` in a row (counted from
`0`) returns the element of slot `k & mask`, which is `values[(k mod c) mod L]`;
the values returned repeat with period `c`, also past `2^32` calls. -/
theorem C13_Next_cycles_through_slots {E : Type} [Entry E] (arch : Arch) (key : String)
    (values : List E) (r : ImmutableRing E) (hnew : NewImmutable arch key values = some r)
    (hlen : values.length < 2 ^ 32) (n : Nat) :
    ∃ rn outs, r.run n = some (rn, outs) ∧ outs.length = n ∧
      (∀ k, k < n → outs[k]? = r.elementAt (k &&& r.mask) ∧
        outs[k]? = values[(k % r.size) % values.length]?) ∧
      (∀ k, k + r.size < n → outs[k + r.size]? = outs[k]?) := by
  obtain ⟨hne, _, _, _, d, _, _, hsize, hmask, _, _, _, helem⟩ :=
    NewImmutable_inv arch key values r hnew
  have hL : 0 < values.length := List.length_pos.mpr hne
  have hrun := NewImmutable_run arch key values r hnew n
  rw [Nat.mod_eq_of_lt hlen] at hrun helem
  have hout : ∀ k, k < n →
      ((List.range n).map (fun k =>
        values.getD ((k % r.size) % values.length) default))[k]? =
      some (values.getD ((k % r.size) % values.length) default) := by
    intro k hk
    rw [List.getElem?_map, List.getElem?_range hk]
    rfl
  refine ⟨_, _, hrun, by simp, ?_, ?_⟩
  · intro k hk
    rw [hout k hk]
    refine ⟨?_, ?_⟩
    · rw [helem, hmask, Nat.and_pow_two_sub_one_eq_mod, Nat.mod_mod, hsize]
    · exact (getElem?_eq_some_getD values _ default (Nat.mod_lt _ hL)).symm
  · intro k hk
    rw [hout k (by omega), hout (k + r.size) hk, Nat.add_mod_right]

/-- C13, amended, on three values `X`, `Y`, `Z`: eight calls of `Next()` return
`X, Y, Z, X, X, Y, Z, X`. -/
theorem C13_Next_cycles_through_slots_witness :
    (NewImmutable Arch.bits64 "immutable"
      [Item.mk "X" 1, Item.mk "Y" 2, Item.mk "Z" 3]).bind
      (fun r => (r.run 8).map (fun out => out.2)) =
      some [Item.mk "X" 1, Item.mk "Y" 2, Item.mk "Z" 3, Item.mk "X" 1,
        Item.mk "X" 1, Item.mk "Y" 2, Item.mk "Z" 3, Item.mk "X" 1] ∧
    (∃ r rn outs, NewImmutable Arch.bits64 "immutable"
        [Item.mk "X" 1, Item.mk "Y" 2, Item.mk "Z" 3] = some r ∧
      r.run 9 = some (rn, outs) ∧ outs[4 + r.size]? = outs[4]?) := by
  refine ⟨by decide, ?_⟩
  cases hnew : NewImmutable Arch.bits64 "immutable"
      [Item.mk "X" 1, Item.mk "Y" 2, Item.mk "Z" 3] with
  | none =>
    have h : (NewImmutable Arch.bits64 "immutable"
        [Item.mk "X" 1, Item.mk "Y" 2, Item.mk "Z" 3]).isSome = true := by decide
    rw [hnew] at h
    cases h
  | some r =>
    obtain ⟨rn, outs, hrun, _, _, hperiod⟩ := C13_Next_cycles_through_slots Arch.bits64
      "immutable" [Item.mk "X" 1, Item.mk "Y" 2, Item.mk "Z" 3] r hnew (by decide) 9
    have hsize : r.size = 4 := by
      have h : (NewImmutable Arch.bits64 "immutable"
          [Item.mk "X" 1, Item.mk "Y" 2, Item.mk "Z" 3]).map (fun r => r.size) = some 4 := by
        decide
      rw [hnew] at h
      simpa using h
    exact ⟨r, rn, outs, rfl, hrun, hperiod 4 (by rw [hsize]; decide)⟩

/-- C14, as the code has it, on `2^32 + 1` values with pairwise distinct keys:
`uint32(len(values))` is `1`, the capacity is `2`, and slot `1` holds
`values[0]`, not `values[1 mod len(values)] = values[1]`. -/
theorem C14_slots_of_list_longer_than_uint32 :
    (distinctItems 4294967297).length = 2 ^ 32 + 1 ∧
    ((distinctItems 4294967297).map Entry.Key).Nodup ∧
    (NewImmutable Arch.bits64 "immutable" (distinctItems 4294967297)).bind
      (fun r => (r.elementAt 1).map (fun value => (r.size, value))) =
      some (2, Item.mk "" 0) ∧
    (distinctItems 4294967297).getD (1 % 4294967297) default = Item.mk "a" 1 := by
  have hlen := distinctItems_length 4294967297
  refine ⟨hlen, distinctItems_nodup _, ?_, ?_⟩
  · obtain ⟨r, hr, _, hsize, _, helem⟩ := NewImmutable_built Arch.bits64 "immutable"
      (distinctItems 4294967297) 2 1 (by rw [hlen]; decide) (distinctItems_nodup _)
      (by rw [hlen]; decide) (by rw [hlen]; decide) (by decide)
    have e1 : (1 % 2 ^ 1) % (4294967297 % u32) = 0 := by decide
    rw [hr]
    simp only [Option.some_bind, helem, hlen, e1, Option.map_some', hsize,
      distinctItems_getD 4294967297 0 (by decide)]
    rfl
  · rw [distinctItems_getD 4294967297 _ (by decide)]
    rfl

/-- C14, amended: in the ring that `NewImmutable` builds from `1 ≤ L < 2^32`
values, slot `i` (for `i` below the capacity `c`) holds `values[i mod L]`, and
every value `values[j]` is held by the `c / L` different slots `j + m * L`,
`m < c / L`. -/
theorem C14_slots_repeat_values {E : Type} [Entry E] (arch : Arch) (key : String)
    (values : List E) (r : ImmutableRing E) (hnew : NewImmutable arch key values = some r)
    (hlen : values.length < 2 ^ 32) :
    (∀ i, i < r.size → r.elementAt i = values[i % values.length]? ∧
      i % values.length < values.length) ∧
    (∀ j, j < values.length → ∀ m, m < r.size / values.length →
      j + m * values.length < r.size ∧
      r.elementAt (j + m * values.length) = values[j]?) := by
  obtain ⟨hne, _, _, _, d, _, _, hsize, _, _, _, _, helem⟩ :=
    NewImmutable_inv arch key values r hnew
  have hL : 0 < values.length := List.length_pos.mpr hne
  rw [Nat.mod_eq_of_lt hlen] at helem
  have hslot : ∀ i, i < r.size → r.elementAt i = values[i % values.length]? := by
    intro i hi
    rw [helem, ← hsize, Nat.mod_eq_of_lt hi]
    exact (getElem?_eq_some_getD values _ default (Nat.mod_lt _ hL)).symm
  refine ⟨fun i hi => ⟨hslot i hi, Nat.mod_lt _ hL⟩, ?_⟩
  intro j hj m hm
  have hlt : j + m * values.length < r.size := by
    have h1 : (m + 1) * values.length ≤ r.size / values.length * values.length :=
      Nat.mul_le_mul_right _ hm
    have h2 : r.size / values.length * values.length ≤ r.size := Nat.div_mul_le_self _ _
    have h3 : (m + 1) * values.length = m * values.length + values.length :=
      Nat.succ_mul _ _
    omega
  refine ⟨hlt, ?_⟩
  rw [hslot _ hlt, Nat.add_mul_mod_self_right, Nat.mod_eq_of_lt hj]

/-- C14, amended, on three values: the slots are `X, Y, Z, X`. -/
theorem C14_slots_repeat_values_witness :
    (NewImmutable Arch.bits64 "immutable"
      [Item.mk "X" 1, Item.mk "Y" 2, Item.mk "Z" 3]).map
      (fun r => [r.elementAt 0, r.elementAt 1, r.elementAt 2, r.elementAt 3]) =
      some [some (Item.mk "X" 1), some (Item.mk "Y" 2), some (Item.mk "Z" 3),
        some (Item.mk "X" 1)] ∧
    (∃ r, NewImmutable Arch.bits64 "immutable"
        [Item.mk "X" 1, Item.mk "Y" 2, Item.mk "Z" 3] = some r ∧
      r.elementAt (2 + 0 * 3) = some (Item.mk "Z" 3)) := by
  refine ⟨by decide, ?_⟩
  cases hnew : NewImmutable Arch.bits64 "immutable"
      [Item.mk "X" 1, Item.mk "Y" 2, Item.mk "Z" 3] with
  | none =>
    have h : (NewImmutable Arch.bits64 "immutable"
        [Item.mk "X" 1, Item.mk "Y" 2, Item.mk "Z" 3]).isSome = true := by decide
    rw [hnew] at h
    cases h
  | some r =>
    have hsize : r.size = 4 := by
      have h : (NewImmutable Arch.bits64 "immutable"
          [Item.mk "X" 1, Item.mk "Y" 2, Item.mk "Z" 3]).map (fun r => r.size) = some 4 := by
        decide
      rw [hnew] at h
      simpa using h
    exact ⟨r, rfl, ((C14_slots_repeat_values Arch.bits64 "immutable"
      [Item.mk "X" 1, Item.mk "Y" 2, Item.mk "Z" 3] r hnew (by decide)).2 2 (by decide) 0
      (by rw [hsize]; decide)).2⟩

/-- C15: on a ring built by `NewImmutable`, after any number of calls of
`Next()`, `Head()` returns `has = true` with the element of slot
`Value() & mask` (it reads the ring and changes nothing, so it returns the same
again); after at least one `Next()` this is the element that the most recent
`Next()` returned. -/
theorem C15_Head_returns_last_dispatched {E : Type} [Entry E] (arch : Arch) (key : String)
    (values : List E) (r : ImmutableRing E) (hnew : NewImmutable arch key values = some r)
    (n : Nat) (rn : ImmutableRing E) (outs : List E) (hrun : r.run n = some (rn, outs)) :
    ∃ v, rn.Head = some (v, true) ∧
      rn.elementAt (rn.sequence.Value &&& rn.mask) = some v ∧
      (∀ last, outs.getLast? = some last → v = last) := by
  obtain ⟨_, _, _, _, d, _, hd, hsize, hmask, _, _, _, helem⟩ :=
    NewImmutable_inv arch key values r hnew
  have hrun2 := NewImmutable_run arch key values r hnew n
  rw [hrun] at hrun2
  simp only [Option.some.injEq, Prod.mk.injEq] at hrun2
  obtain ⟨hrn, houts⟩ := hrun2
  have helem2 : ∀ idx, rn.elementAt idx =
      some (values.getD ((idx % 2 ^ d) % (values.length % 2 ^ 32)) default) := by
    intro idx
    rw [hrn]
    exact helem idx
  have hmask2 : rn.mask = 2 ^ d - 1 := by
    rw [hrn]
    exact hmask
  have hval : rn.sequence.Value = (n % 2 ^ 32 + 2 ^ 32 - 1) % 2 ^ 32 := by
    rw [hrn]
    show (NewSequence.run n).1.Value = _
    have := (Sequence.run_value n NewSequence (by decide)).1
    simp only [NewSequence, Nat.zero_add] at this
    simp only [Sequence.Value, u32, NewSequence, this]
  refine ⟨_, by rw [ImmutableRing.Head, helem2], ?_, ?_⟩
  · rw [helem2, hmask2, Nat.and_pow_two_sub_one_eq_mod, Nat.mod_mod]
  · intro last hlast
    rw [houts, List.getLast?_eq_getElem?, List.length_map, List.length_range,
      List.getElem?_map] at hlast
    have hn : 0 < n := by
      by_contra hc
      have : n = 0 := by omega
      subst this
      simp at hlast
    rw [List.getElem?_range (by omega)] at hlast
    simp only [Option.map_some', Option.some.injEq] at hlast
    rw [← hlast, hval, hsize]
    have h1 : (n % 2 ^ 32 + 2 ^ 32 - 1) % 2 ^ 32 = (n - 1) % 2 ^ 32 := by omega
    rw [h1, mod_u32_mod_pow _ d (by omega)]

/-- C15 on three values `X`, `Y`, `Z`: after two calls of `Next()`, which
return `X` and `Y`, `Head()` returns `Y`. -/
theorem C15_Head_returns_last_dispatched_witness :
    (NewImmutable Arch.bits64 "immutable"
      [Item.mk "X" 1, Item.mk "Y" 2, Item.mk "Z" 3]).bind
      (fun r => (r.run 2).bind (fun out => out.1.Head.map (fun head => (out.2, head)))) =
      some ([Item.mk "X" 1, Item.mk "Y" 2], (Item.mk "Y" 2, true)) ∧
    (∃ r rn outs v, NewImmutable Arch.bits64 "immutable"
        [Item.mk "X" 1, Item.mk "Y" 2, Item.mk "Z" 3] = some r ∧
      r.run 2 = some (rn, outs) ∧ rn.Head = some (v, true)) := by
  refine ⟨by decide, ?_⟩
  cases hnew : NewImmutable Arch.bits64 "immutable"
      [Item.mk "X" 1, Item.mk "Y" 2, Item.mk "Z" 3] with
  | none =>
    have h : (NewImmutable Arch.bits64 "immutable"
        [Item.mk "X" 1, Item.mk "Y" 2, Item.mk "Z" 3]).isSome = true := by decide
    rw [hnew] at h
    cases h
  | some r =>
    have hrun := NewImmutable_run Arch.bits64 "immutable"
      [Item.mk "X" 1, Item.mk "Y" 2, Item.mk "Z" 3] r hnew 2
    obtain ⟨v, hv, _⟩ := C15_Head_returns_last_dispatched Arch.bits64 "immutable"
      [Item.mk "X" 1, Item.mk "Y" 2, Item.mk "Z" 3] r hnew 2 _ _ hrun
    exact ⟨r, _, _, v, rfl, hrun, hv⟩

/-! ## Lookup of a staged range -/

theorem pairwise_getElem? {α : Type} {R : α → α → Prop} (l : List α) (h : l.Pairwise R)
    (a b : Nat) (x y : α) (hab : a < b) (hx : l[a]? = some x) (hy : l[b]? = some y) :
    R x y := by
  have hb : b < l.length := by
    by_contra hc
    rw [List.getElem?_eq_none (Nat.le_of_not_lt hc)] at hy
    cases hy
  have ha : a < l.length := by omega
  rw [List.getElem?_eq_getElem ha] at hx
  rw [List.getElem?_eq_getElem hb] at hy
  cases hx
  cases hy
  exact List.pairwise_iff_getElem.mp h a b ha hb hab

theorem getElem?_lt_length {α : Type} (l : List α) (i : Nat) (x : α) (h : l[i]? = some x) :
    i < l.length := by
  by_contra hc
  rw [List.getElem?_eq_none (Nat.le_of_not_lt hc)] at h
  cases h

/-- C17: on a ring whose entries have ranges that are not empty and pairwise
share no slot, if `Add(e)` succeeds with the previous owner `P` and the staged
range `[cLow, cHigh)`, then in the ring as `Add` leaves it `P` stands directly
before the staged entry, and `HashRingEntries.Get(n)` returns `P`, now with the
range `[P.Low, cLow)`, with `has = true` for every slot `cLow ≤ n < cHigh`. -/
theorem C17_staged_slot_resolves_to_previous_owner {E : Type} [Entry E]
    (srt : (Nat → Nat → Bool) → List Nat → List Nat) (hs : SortSpec srt)
    (r : HashRing E) (hwf : r.WF) (e : E)
    (hrange : ∀ p ∈ r.entries, (r.heap p).Low < (r.heap p).High ∧ (r.heap p).High < 2 ^ 64)
    (hdisj : ∀ p ∈ r.entries, ∀ q ∈ r.entries, p ≠ q →
      ∀ m, ¬ ((r.heap p).covers m = true ∧ (r.heap q).covers m = true))
    (res : AddResult E) (c : Closures E) (P : Nat)
    (hres : r.Add srt e = some res) (hc : res.closures = some c)
    (hP : c.prevActiveHashed = some P) (n : Nat) (hlo : res.cLow ≤ n) (hhi : n < res.cHigh) :
    (∃ i, res.ring.entries[i]? = some P ∧ res.ring.entries[i + 1]? = some c.hashed) ∧
    HashRingEntries.Get res.ring.view n =
      some ({ r.heap P with High := res.cLow }, true) ∧
    (r.heap P).Entry = res.prevActive ∧ (r.heap P).Active = true := by
  obtain ⟨hPm, hPact, _, _, heq⟩ := Add_ok_split srt hs r hwf e res c P hres hc hP
  subst heq
  cases hc
  simp only at hlo hhi ⊢
  have hfresh : r.next ∉ r.entries := fun h => Nat.lt_irrefl _ (hwf.2 _ h)
  have hPn : P ≠ r.next := fun h => hfresh (h ▸ hPm)
  obtain ⟨hLH, hH⟩ := hrange P hPm
  obtain ⟨hm1, hm2⟩ := mid_bounds (r.heap P) (Nat.le_of_lt hLH) hH
  have hmid := mid_eq (r.heap P) (Nat.le_of_lt hLH) hH
  have hperm := split_entries_perm srt hs r e P
  have hnext := splitHeap_next r hwf e P hPm
  have hsrc := splitHeap_source r e P
  have hold : ∀ q ∈ r.entries, q ≠ P → r.splitHeap e P q = r.heap q :=
    fun q hq hqP => splitHeap_other r e P q hqP (fun h => hfresh (h ▸ hq))
  have hsorted : (r.split srt e P).entries.Pairwise
      (fun a b => HashRing.lessAt (r.splitHeap e P) b a = false) :=
    sorted_lessAt srt hs _ _
  have hnodup : (r.split srt e P).entries.Nodup := by
    rw [hperm.nodup_iff]
    apply List.Nodup.append hwf.1 (List.nodup_singleton _)
    intro a ha1 ha2
    have : a = r.next := by simpa using ha2
    exact hfresh (this ▸ ha1)
  obtain ⟨idx, hidx⟩ := List.getElem?_of_mem
    (hperm.mem_iff.mpr (by simp) : r.next ∈ (r.split srt e P).entries)
  obtain ⟨j, hj⟩ := List.getElem?_of_mem
    (hperm.mem_iff.mpr (by simp [hPm]) : P ∈ (r.split srt e P).entries)
  -- an old entry other than `P` holds no slot of `[L, H)`
  have hother : ∀ q ∈ r.entries, q ≠ P →
      (r.heap q).High ≤ (r.heap P).Low ∨ (r.heap P).High ≤ (r.heap q).Low := by
    intro q hq hqP
    obtain ⟨hq1, _⟩ := hrange q hq
    by_contra hcon
    have h1 : (r.heap P).Low < (r.heap q).High := by omega
    have h2 : (r.heap q).Low < (r.heap P).High := by omega
    apply hdisj q hq P hPm hqP (max (r.heap q).Low (r.heap P).Low)
    simp only [HashRingEntry.covers, Bool.and_eq_true, decide_eq_true_eq]
    omega
  have hmem : ∀ (k q : Nat), (r.split srt e P).entries[k]? = some q → q ≠ r.next →
      q ∈ r.entries := by
    intro k q hk hqn
    have := hperm.mem_iff.mp (List.getElem?_mem hk)
    rcases List.mem_append.mp this with h | h
    · exact h
    · exact absurd (by simpa using h) hqn
  have hinj : ∀ (a b q : Nat), (r.split srt e P).entries[a]? = some q →
      (r.split srt e P).entries[b]? = some q → a = b := by
    intro a b q ha hb
    exact List.getElem?_inj (getElem?_lt_length _ _ _ ha) hnodup (ha.trans hb.symm)
  -- `P` comes before the staged entry
  have hjidx : j < idx := by
    by_contra hcon
    have hne : j ≠ idx := fun h => hPn (by
      rw [h] at hj
      rw [hidx] at hj
      exact (Option.some.inj hj).symm)
    have h := pairwise_getElem? _ hsorted idx j _ _ (by omega) hidx hj
    rw [HashRing.lessAt, Less_eq_false_iff, hsrc, hnext] at h
    simp only at h
    omega
  -- and nothing stands between them
  have hadjacent : idx = j + 1 := by
    by_contra hcon
    have hk : j + 1 < idx := by omega
    have hklen : j + 1 < (r.split srt e P).entries.length := by
      have := getElem?_lt_length _ _ _ hidx
      omega
    have hX := List.getElem?_eq_getElem hklen
    have hXn : (r.split srt e P).entries[j + 1] ≠ r.next := by
      intro h
      rw [h] at hX
      have := hinj _ _ _ hX hidx
      omega
    have hXP : (r.split srt e P).entries[j + 1] ≠ P := by
      intro h
      rw [h] at hX
      have := hinj _ _ _ hX hj
      omega
    have hXm := hmem _ _ hX hXn
    have h1 := pairwise_getElem? _ hsorted j (j + 1) _ _ (by omega) hj hX
    have h2 := pairwise_getElem? _ hsorted (j + 1) idx _ _ hk hX hidx
    rw [HashRing.lessAt, Less_eq_false_iff, hsrc, hold _ hXm hXP] at h1
    rw [HashRing.lessAt, Less_eq_false_iff, hnext, hold _ hXm hXP] at h2
    simp only at h1 h2
    obtain ⟨hX1, _⟩ := hrange _ hXm
    rcases hother _ hXm hXP with h | h <;> omega
  subst hadjacent
  refine ⟨⟨j, hj, hidx⟩, ?_, trivial, hPact⟩
  have hview : ∀ (k q : Nat), (r.split srt e P).entries[k]? = some q →
      (r.split srt e P).view[k]? = some (r.splitHeap e P q) := by
    intro k q hk
    unfold HashRing.view
    rw [List.getElem?_map, hk]
    rfl
  have hscan := HashRingEntries.scan_first n (r.split srt e P).view (j + 1) 0
    (r.splitHeap e P r.next) (hview _ _ hidx)
    (by
      rw [hnext]
      simp only [HashRingEntry.covers, Bool.and_eq_true, decide_eq_true_eq]
      omega)
    (by
      intro k y hk hy
      have hklen : k < (r.split srt e P).entries.length := by
        have := getElem?_lt_length _ _ _ hidx
        omega
      have hX := List.getElem?_eq_getElem hklen
      rw [hview _ _ hX] at hy
      cases hy
      have hXn : (r.split srt e P).entries[k] ≠ r.next := by
        intro h
        rw [h] at hX
        have := hinj _ _ _ hX hidx
        omega
      have hXm := hmem _ _ hX hXn
      by_cases hXP : (r.split srt e P).entries[k] = P
      · rw [hXP, hsrc]
        simp only [HashRingEntry.covers, Bool.and_eq_false_iff, decide_eq_false_iff_not]
        omega
      · rw [hold _ hXm hXP]
        obtain ⟨hX1, _⟩ := hrange _ hXm
        simp only [HashRingEntry.covers, Bool.and_eq_false_iff, decide_eq_false_iff_not]
        rcases hother _ hXm hXP with h | h <;> omega)
  rw [Nat.zero_add] at hscan
  have hstaged : (r.splitHeap e P r.next).Active = false := by rw [hnext]
  have hlen : j + 1 ≤ (r.split srt e P).view.length := by
    have := getElem?_lt_length _ _ _ (hview _ _ hidx)
    omega
  rw [HashRingEntries.Get, hscan]
  simp only [hview _ _ hidx, hstaged, Bool.false_eq_true, if_false]
  rw [HashRingEntries.walkBack_active (r.split srt e P).view (j + 1) j _
    (r.splitHeap e P P) (by omega) (hview _ _ hj) (by rw [hsrc]; exact hPact) hlen
    (by
      intro k z hk1 hk2
      omega)]
  rw [hsrc]

/-- C17 on `A:[0,85)`, `B:[85,170)`, `C:[170,256)`: after `Add(D)`, which stages
`D` over `[213,256)`, slot `220` is answered by `C`. -/
theorem C17_staged_slot_resolves_to_previous_owner_witness :
    SortSpec insertionSort ∧
    (NewHashed [Item.mk "A" 1, Item.mk "B" 2, Item.mk "C" 3]).WF ∧
    (Session.run insertionSort (Session.start [Item.mk "A" 1, Item.mk "B" 2, Item.mk "C" 3])
      [.Add (Item.mk "D" 4)]).bind (fun s => HashRingEntries.Get s.ring.view 220) =
      some (⟨Item.mk "C" 3, true, 170, 213⟩, true) ∧
    HashRingEntries.Get ((NewHashed [Item.mk "A" 1, Item.mk "B" 2, Item.mk "C" 3]).split
      insertionSort (Item.mk "D" 4) 2).view 220 =
      some ({ (NewHashed [Item.mk "A" 1, Item.mk "B" 2, Item.mk "C" 3]).heap 2 with
              High := ((NewHashed [Item.mk "A" 1, Item.mk "B" 2, Item.mk "C" 3]).heap 2).mid },
        true) :=
  ⟨insertionSort_spec, WF_NewHashed _, by decide,
    (C17_staged_slot_resolves_to_previous_owner insertionSort insertionSort_spec
      (NewHashed [Item.mk "A" 1, Item.mk "B" 2, Item.mk "C" 3]) (WF_NewHashed _)
      (Item.mk "D" 4) (by decide)
      (by
        intro p hp q hq hpq m
        have hp3 : p < 3 := List.mem_range.mp hp
        have hq3 : q < 3 := List.mem_range.mp hq
        interval_cases p <;> interval_cases q <;>
          simp [NewHashed, NewHashedEntries, HashRingEntry.covers, maxEntries] at hpq ⊢ <;>
          omega)
      _ ⟨3, some 2, Item.mk "D" 4⟩ 2
      (Add_split insertionSort (NewHashed [Item.mk "A" 1, Item.mk "B" 2, Item.mk "C" 3])
        (WF_NewHashed _) (Item.mk "D" 4) 2 (by decide) (by decide) (by decide) (by decide)
        (by decide)) rfl rfl 220 (by decide) (by decide)).2.1⟩

/-! ## Ranges inside the keyspace -/

theorem Within_NewHashed {E : Type} [Entry E] (entries : List E) :
    (NewHashed entries).Within := by
  refine ⟨WF_NewHashed entries, ?_⟩
  intro p
  have hlen := NewHashedEntries_length entries
  have h := NewHashedEntries_getElem? entries p
  by_cases hp : p < entries.length
  · rw [List.getElem?_eq_getElem hp] at h
    have hheap : (NewHashed entries).heap p =
        ({ Entry := entries[p], Active := true, Low := maxEntries / entries.length * p,
           High := if p + 1 = entries.length then maxEntries
                   else maxEntries / entries.length * (p + 1) } : HashRingEntry E) := by
      show (NewHashedEntries entries).getD p _ = _
      rw [List.getD_eq_getElem?_getD, h]
      rfl
    have hmul : ∀ k, k ≤ entries.length → maxEntries / entries.length * k ≤ maxEntries := by
      intro k hk
      calc maxEntries / entries.length * k ≤ maxEntries / entries.length * entries.length :=
            Nat.mul_le_mul_left _ hk
        _ ≤ maxEntries := Nat.div_mul_le_self _ _
    have h1 := hmul p (by omega)
    have h2 := hmul (p + 1) (by omega)
    have h3 : maxEntries / entries.length * p ≤ maxEntries / entries.length * (p + 1) :=
      Nat.mul_le_mul_left _ (by omega)
    rw [hheap]
    simp only
    split <;> omega
  · have hheap : (NewHashed entries).heap p =
        ({ Entry := default, Active := false, Low := 0, High := 0 } : HashRingEntry E) := by
      show (NewHashedEntries entries).getD p _ = _
      rw [List.getD_eq_getElem?_getD, List.getElem?_eq_none (by omega)]
      rfl
    rw [hheap]
    simp

/-- The closure `active` keeps `Within` and every `Low`. -/
theorem Within_active {E : Type} [Entry E] (r : HashRing E) (c : Closures E)
    (h : r.Within) :
    (r.active c).Within ∧ ∀ q, ((r.active c).heap q).Low = (r.heap q).Low := by
  have hsame : ∀ q, ((r.active c).heap q).Low = (r.heap q).Low ∧
      ((r.active c).heap q).High = (r.heap q).High := by
    intro q
    show (HashRing.store r.heap c.hashed { r.heap c.hashed with Active := true } q).Low = _ ∧
      (HashRing.store r.heap c.hashed { r.heap c.hashed with Active := true } q).High = _
    by_cases hq : q = c.hashed
    · subst hq
      rw [store_same]
      exact ⟨rfl, rfl⟩
    · rw [store_of_ne _ _ _ _ hq]
      exact ⟨rfl, rfl⟩
  refine ⟨⟨h.1, ?_⟩, fun q => (hsame q).1⟩
  intro q
  rw [(hsame q).1, (hsame q).2]
  exact h.2 q

/-- The method `AddDeclared` with `low ≤ high ≤ maxEntries` keeps `Within` and
the allocated records. -/
theorem Within_AddDeclared {E : Type} [Entry E]
    (srt : (Nat → Nat → Bool) → List Nat → List Nat) (hs : SortSpec srt) (r : HashRing E)
    (h : r.Within) (e : E) (low high : Nat) (hle : low ≤ high) (hhigh : high ≤ maxEntries) :
    (r.AddDeclared srt e low high).1.Within ∧
    r.next ≤ (r.AddDeclared srt e low high).1.next ∧
    ∀ q, q < r.next → (r.AddDeclared srt e low high).1.heap q = r.heap q := by
  obtain ⟨hwf, hall⟩ := h
  have hfresh : r.next ∉ r.entries := fun h => Nat.lt_irrefl _ (hwf.2 _ h)
  have hheap : ∀ q, (HashRing.store r.heap r.next
        { Entry := e, Active := true, Low := low, High := high } q).Low ≤
      (HashRing.store r.heap r.next
        { Entry := e, Active := true, Low := low, High := high } q).High ∧
      (HashRing.store r.heap r.next
        { Entry := e, Active := true, Low := low, High := high } q).High ≤ maxEntries := by
    intro q
    by_cases hq : q = r.next
    · subst hq
      rw [store_same]
      exact ⟨hle, hhigh⟩
    · rw [store_of_ne _ _ _ _ hq]
      exact hall q
  have hold : ∀ q, q < r.next → HashRing.store r.heap r.next
      { Entry := e, Active := true, Low := low, High := high } q = r.heap q :=
    fun q hq => store_of_ne _ _ _ _ (Nat.ne_of_lt hq)
  have hwf1 : (r.entries ++ [r.next]).Nodup ∧ ∀ p ∈ r.entries ++ [r.next], p < r.next + 1 := by
    refine ⟨?_, ?_⟩
    · apply List.Nodup.append hwf.1 (List.nodup_singleton _)
      intro a ha1 ha2
      have : a = r.next := by simpa using ha2
      exact hfresh (this ▸ ha1)
    · intro p hp
      rcases List.mem_append.mp hp with h1 | h1
      · exact Nat.lt_succ_of_lt (hwf.2 p h1)
      · have : p = r.next := by simpa using h1
        omega
  by_cases hfull : r.entries.length ≥ maxEntries
  · rw [AddDeclared_full srt r e low high hfull]
    exact ⟨⟨hwf, hall⟩, Nat.le_refl _, fun _ _ => rfl⟩
  · by_cases h0 : r.entries.length = 0
    · rw [AddDeclared_empty srt r e low high hfull h0]
      exact ⟨⟨hwf1, hheap⟩, Nat.le_succ _, hold⟩
    · by_cases hov : (r.entries.any (fun p => intersect
        (HashRing.store r.heap r.next
          { Entry := e, Active := true, Low := low, High := high } p).Low
        (HashRing.store r.heap r.next
          { Entry := e, Active := true, Low := low, High := high } p).High
        low high) = true)
      · rw [AddDeclared_overlap srt r e low high hfull h0 hov]
        exact ⟨⟨⟨hwf.1, fun p hp => Nat.lt_succ_of_lt (hwf.2 p hp)⟩, hheap⟩, Nat.le_succ _, hold⟩
      · rw [AddDeclared_inserted srt r e low high hfull h0 hov]
        refine ⟨⟨⟨(hs.perm _ _).nodup_iff.mpr hwf1.1, ?_⟩, hheap⟩, Nat.le_succ _, hold⟩
        intro p hp
        exact hwf1.2 p ((hs.perm _ _).mem_iff.mp hp)

/-- The method `Add` keeps `Within` and every `Low` of an allocated record, and
the closures it returns capture allocated records, the previous owner
starting no later than the staged record. -/
theorem Within_Add {E : Type} [Entry E] (srt : (Nat → Nat → Bool) → List Nat → List Nat)
    (hs : SortSpec srt) (r : HashRing E) (h : r.Within) (e : E)
    (res : AddResult E) (hres : r.Add srt e = some res) :
    res.ring.Within ∧ r.next ≤ res.ring.next ∧
    (∀ q, q < r.next → (res.ring.heap q).Low = (r.heap q).Low) ∧
    (∀ c, res.closures = some c → c.hashed < res.ring.next ∧
      ∀ p, c.prevActiveHashed = some p →
        p < res.ring.next ∧ (res.ring.heap p).Low ≤ (res.ring.heap c.hashed).Low) := by
  obtain ⟨hwf, hall⟩ := h
  have hfresh : r.next ∉ r.entries := fun h => Nat.lt_irrefl _ (hwf.2 _ h)
  have hwf1 : (r.entries ++ [r.next]).Nodup ∧ ∀ p ∈ r.entries ++ [r.next], p < r.next + 1 := by
    refine ⟨?_, ?_⟩
    · apply List.Nodup.append hwf.1 (List.nodup_singleton _)
      intro a ha1 ha2
      have : a = r.next := by simpa using ha2
      exact hfresh (this ▸ ha1)
    · intro p hp
      rcases List.mem_append.mp hp with h1 | h1
      · exact Nat.lt_succ_of_lt (hwf.2 p h1)
      · have : p = r.next := by simpa using h1
        omega
  have halloc : ∀ q, (r.allocated e q).Low ≤ (r.allocated e q).High ∧
      (r.allocated e q).High ≤ maxEntries := by
    intro q
    unfold HashRing.allocated
    by_cases hq : q = r.next
    · subst hq
      rw [store_same]
      exact ⟨Nat.zero_le _, Nat.le_refl _⟩
    · rw [store_of_ne _ _ _ _ hq]
      exact hall q
  have hold : ∀ q, q < r.next → r.allocated e q = r.heap q :=
    fun q hq => store_of_ne _ _ _ _ (Nat.ne_of_lt hq)
  by_cases hfull : r.entries.length ≥ maxEntries
  · rw [Add_full srt r e hfull] at hres
    cases hres
    refine ⟨⟨hwf, hall⟩, Nat.le_refl _, fun _ _ => rfl, ?_⟩
    intro c hc
    cases hc
  · by_cases h0 : r.entries.length = 0
    · rw [Add_empty srt r e h0] at hres
      cases hres
      refine ⟨⟨hwf1, halloc⟩, Nat.le_succ _, fun q hq => congrArg _ (hold q hq), ?_⟩
      intro c hc
      cases hc
      refine ⟨Nat.lt_succ_self _, ?_⟩
      intro p hp
      cases hp
    · obtain ⟨P, hP, _, hcase⟩ := Add_cases srt hs r hwf e hfull h0
      rcases hcase with ⟨_, hadd⟩ | ⟨_, hadd⟩
      · rw [hadd] at hres
        cases hres
        refine ⟨⟨⟨?_, ?_⟩, halloc⟩, Nat.le_succ _, fun q hq => congrArg _ (hold q hq), ?_⟩
        · exact (resorted_perm srt hs r e).nodup_iff.mpr hwf.1
        · intro p hp
          exact Nat.lt_succ_of_lt (hwf.2 p ((resorted_perm srt hs r e).mem_iff.mp hp))
        · intro c hc
          cases hc
      · rw [hadd] at hres
        cases hres
        have hPlt := hwf.2 P hP
        obtain ⟨hLH, hH⟩ := hall P
        have hH64 : (r.heap P).High < 2 ^ 64 := by
          simp only [maxEntries] at hH
          omega
        obtain ⟨hm1, hm2⟩ := mid_bounds (r.heap P) hLH hH64
        have hnext := splitHeap_next r hwf e P hP
        have hperm := split_entries_perm srt hs r e P
        refine ⟨⟨⟨hperm.nodup_iff.mpr hwf1.1, fun p hp => hwf1.2 p (hperm.mem_iff.mp hp)⟩,
          ?_⟩, Nat.le_succ _, ?_, ?_⟩
        · intro q
          show (r.splitHeap e P q).Low ≤ (r.splitHeap e P q).High ∧
            (r.splitHeap e P q).High ≤ maxEntries
          by_cases hqP : q = P
          · subst hqP
            rw [splitHeap_source]
            exact ⟨hm1, Nat.le_trans hm2 hH⟩
          · by_cases hqn : q = r.next
            · subst hqn
              rw [hnext]
              exact ⟨hm2, hH⟩
            · rw [splitHeap_other r e P q hqP hqn]
              exact hall q
        · intro q hq
          show (r.splitHeap e P q).Low = _
          by_cases hqP : q = P
          · subst hqP
            rw [splitHeap_source]
          · rw [splitHeap_other r e P q hqP (Nat.ne_of_lt hq)]
        · intro c hc
          cases hc
          refine ⟨Nat.lt_succ_self _, ?_⟩
          intro p hp
          cases hp
          refine ⟨Nat.lt_succ_of_lt hPlt, ?_⟩
          show (r.splitHeap e P P).Low ≤ (r.splitHeap e P r.next).Low
          rw [splitHeap_source, hnext]
          exact hm1

/-- The closure `cancel`, whenever it is called, keeps `Within` and every
`Low`, when the previous owner starts no later than the staged record. -/
theorem Within_cancel {E : Type} [Entry E] (srt : (Nat → Nat → Bool) → List Nat → List Nat)
    (hs : SortSpec srt) (r : HashRing E) (h : r.Within) (c : Closures E)
    (hanch : ∀ p, c.prevActiveHashed = some p → (r.heap p).Low ≤ (r.heap c.hashed).Low)
    (r' : HashRing E) (hcancel : r.cancel srt c = some r') :
    r'.Within ∧ r'.next = r.next ∧ ∀ q, (r'.heap q).Low = (r.heap q).Low := by
  obtain ⟨hwf, hall⟩ := h
  have h0 : ¬ r.entries.length = 0 := by
    intro h0
    simp [HashRing.cancel, h0] at hcancel
  cases hprev : c.prevActiveHashed with
  | none =>
    rw [cancel_eq_first srt r c hprev h0] at hcancel
    cases hcancel
    refine ⟨⟨⟨(hs.perm _ _).nodup_iff.mpr (hwf.1.filter _), ?_⟩, hall⟩, rfl, fun _ => rfl⟩
    intro p hp
    exact hwf.2 p (List.mem_filter.mp ((hs.perm _ _).mem_iff.mp hp)).1
  | some P =>
    rw [cancel_eq srt r c P hprev h0] at hcancel
    cases hcancel
    refine ⟨⟨⟨(hs.perm _ _).nodup_iff.mpr (hwf.1.filter _), ?_⟩, ?_⟩, rfl, ?_⟩
    · intro p hp
      exact hwf.2 p (List.mem_filter.mp ((hs.perm _ _).mem_iff.mp hp)).1
    · intro q
      show (HashRing.store r.heap P _ q).Low ≤ (HashRing.store r.heap P _ q).High ∧
        (HashRing.store r.heap P _ q).High ≤ maxEntries
      by_cases hqP : q = P
      · subst hqP
        rw [store_same]
        have h1 := hanch q hprev
        have h2 := hall c.hashed
        simp only
        omega
      · rw [store_of_ne _ _ _ _ hqP]
        exact hall q
    · intro q
      show (HashRing.store r.heap P _ q).Low = _
      by_cases hqP : q = P
      · subst hqP
        rw [store_same]
      · rw [store_of_ne _ _ _ _ hqP]

/-- The closures stay `Anchored` when the ring keeps them, allocates, and keeps
every `Low` of an allocated record. -/
theorem Anchored_frame {E : Type} (s s' : Session E) (h : s.Anchored)
    (hc : s'.closures = s.closures) (hnext : s.ring.next ≤ s'.ring.next)
    (hlow : ∀ q, q < s.ring.next → (s'.ring.heap q).Low = (s.ring.heap q).Low) :
    s'.Anchored := by
  intro c hmem
  rw [hc] at hmem
  obtain ⟨h1, h2⟩ := h c hmem
  refine ⟨Nat.lt_of_lt_of_le h1 hnext, ?_⟩
  intro p hp
  obtain ⟨h3, h4⟩ := h2 p hp
  refine ⟨Nat.lt_of_lt_of_le h3 hnext, ?_⟩
  rw [hlow p h3, hlow c.hashed h1]
  exact h4

/-- What every sequence of calls with declared ranges inside the keyspace
keeps: `Within`, and the closures returned so far are `Anchored`. -/
theorem run_Within {E : Type} [Entry E] (srt : (Nat → Nat → Bool) → List Nat → List Nat)
    (hs : SortSpec srt) (calls : List (Call E)) :
    ∀ (s s' : Session E), declaredInKeyspace calls = true → s.ring.Within → s.Anchored →
      Session.run srt s calls = some s' → s'.ring.Within := by
  induction calls with
  | nil =>
    intro s s' _ hw _ hrun
    simp only [Session.run, Option.some.injEq] at hrun
    subst hrun
    exact hw
  | cons call rest ih =>
    intro s s' hk hw hanch hrun
    cases call with
    | Add entry =>
      simp only [declaredInKeyspace] at hk
      simp only [Session.run, Session.call] at hrun
      cases hadd : s.ring.Add srt entry with
      | none => simp [hadd] at hrun
      | some res =>
        simp only [hadd] at hrun
        obtain ⟨hw2, hnext, hlow, hnew⟩ := Within_Add srt hs s.ring hw entry res hadd
        refine ih ⟨res.ring, s.closures ++ [res.closures]⟩ s' hk hw2 ?_ hrun
        intro c hmem
        rcases List.mem_append.mp hmem with h1 | h1
        · exact Anchored_frame s ⟨res.ring, s.closures⟩ hanch rfl hnext hlow c h1
        · have hc : res.closures = some c := (List.mem_singleton.mp h1).symm
          exact hnew c hc
    | AddDeclared entry low high =>
      simp only [declaredInKeyspace, Bool.and_eq_true, decide_eq_true_eq] at hk
      simp only [Session.run, Session.call] at hrun
      obtain ⟨hw2, hnext, hheap⟩ :=
        Within_AddDeclared srt hs s.ring hw entry low high hk.1.1 hk.1.2
      refine ih ⟨(s.ring.AddDeclared srt entry low high).1, s.closures⟩ s' hk.2 hw2 ?_ hrun
      exact Anchored_frame s _ hanch rfl hnext (fun q hq => congrArg _ (hheap q hq))
    | active k =>
      simp only [declaredInKeyspace] at hk
      simp only [Session.run, Session.call] at hrun
      cases hc : s.closures[k]? with
      | none => simp [hc] at hrun
      | some oc =>
        cases oc with
        | none => simp [hc] at hrun
        | some c =>
          simp only [hc] at hrun
          obtain ⟨hw2, hlow⟩ := Within_active s.ring c hw
          refine ih ⟨s.ring.active c, s.closures⟩ s' hk hw2 ?_ hrun
          exact Anchored_frame s _ hanch rfl (Nat.le_refl _) (fun q _ => hlow q)
    | cancel k =>
      simp only [declaredInKeyspace] at hk
      simp only [Session.run, Session.call] at hrun
      cases hc : s.closures[k]? with
      | none => simp [hc] at hrun
      | some oc =>
        cases oc with
        | none => simp [hc] at hrun
        | some c =>
          simp only [hc] at hrun
          cases hcan : s.ring.cancel srt c with
          | none => simp [hcan] at hrun
          | some ring =>
            simp only [hcan] at hrun
            have hmem : some c ∈ s.closures := List.getElem?_mem hc
            obtain ⟨hw2, hnext, hlow⟩ := Within_cancel srt hs s.ring hw c
              (fun p hp => ((hanch c hmem).2 p hp).2) ring hcan
            refine ih ⟨ring, s.closures⟩ s' hk hw2 ?_ hrun
            exact Anchored_frame s ⟨ring, s.closures⟩ hanch rfl (Nat.le_of_eq hnext.symm)
              (fun q _ => hlow q)

/-- C18, as the code has it: after `NewHashed()` and `AddDeclared(A, 0, 1)` the
call `Add(B)` splits `A` at `0` and leaves it the empty range `[0, 0)`; and
`AddDeclared(C, 300, 400)` on the empty ring is accepted although the range
lies outside `[0, 256)`. -/
theorem C18_empty_range_and_range_outside_keyspace :
    (Session.run insertionSort (Session.start ([] : List Item))
      [.AddDeclared (Item.mk "A" 1) 0 1, .Add (Item.mk "B" 2)]).map (fun s => s.ring.view) =
      some [⟨Item.mk "A" 1, true, 0, 0⟩, ⟨Item.mk "B" 2, false, 0, 1⟩] ∧
    (Session.run insertionSort (Session.start ([] : List Item))
      [.AddDeclared (Item.mk "C" 3) 300 400]).map (fun s => s.ring.view) =
      some [⟨Item.mk "C" 3, true, 300, 400⟩] := by
  refine ⟨by decide, by decide⟩

/-- C18, amended: in every ring state reached from `NewHashed(entries...)` by
any sequence of `Add`, `AddDeclared` with `low ≤ high ≤ 256`, and `active()` and
`cancel()` closures of earlier `Add` calls, every entry has `Low ≤ High ≤ 256`. -/
theorem C18_ranges_stay_in_keyspace {E : Type} [Entry E]
    (srt : (Nat → Nat → Bool) → List Nat → List Nat) (hs : SortSpec srt)
    (entries : List E) (calls : List (Call E)) (s : Session E)
    (hk : declaredInKeyspace calls = true)
    (hrun : Session.run srt (Session.start entries) calls = some s) :
    ∀ x ∈ s.ring.view, x.Low ≤ x.High ∧ x.High ≤ 256 := by
  have hw : s.ring.Within :=
    run_Within srt hs calls (Session.start entries) s hk (Within_NewHashed entries)
      (fun c hc => by cases hc) hrun
  intro x hx
  unfold HashRing.view at hx
  obtain ⟨p, _, rfl⟩ := List.mem_map.mp hx
  exact hw.2 p

/-- C18, amended, on `NewHashed(A)` followed by three `Add` calls, each made
active, the late `cancel()` of the first and of the second `Add`, and a declared
range: the entry `A`, stretched to `[0, 192)` by the late `cancel()`, lies in the
keyspace. -/
theorem C18_ranges_stay_in_keyspace_witness :
    SortSpec insertionSort ∧
    declaredInKeyspace [Call.Add (Item.mk "B" 2), Call.active 0, Call.Add (Item.mk "C" 3),
      Call.active 1, Call.Add (Item.mk "D" 4), Call.active 2, Call.cancel 0, Call.cancel 1,
      Call.AddDeclared (Item.mk "E" 5) 250 256] = true ∧
    (Session.run insertionSort (Session.start [Item.mk "A" 1])
      [.Add (Item.mk "B" 2), .active 0, .Add (Item.mk "C" 3), .active 1,
        .Add (Item.mk "D" 4), .active 2, .cancel 0, .cancel 1,
        .AddDeclared (Item.mk "E" 5) 250 256]).map (fun s => s.ring.view) =
      some [⟨Item.mk "D" 4, true, 64, 128⟩, ⟨Item.mk "A" 1, true, 0, 192⟩,
        ⟨Item.mk "E" 5, true, 250, 256⟩] ∧
    ((⟨Item.mk "A" 1, true, 0, 192⟩ : HashRingEntry Item).Low ≤
        (⟨Item.mk "A" 1, true, 0, 192⟩ : HashRingEntry Item).High ∧
      (⟨Item.mk "A" 1, true, 0, 192⟩ : HashRingEntry Item).High ≤ 256) :=
  ⟨insertionSort_spec, by decide, by decide, by
    cases hrun : Session.run insertionSort (Session.start [Item.mk "A" 1])
        [.Add (Item.mk "B" 2), .active 0, .Add (Item.mk "C" 3), .active 1,
          .Add (Item.mk "D" 4), .active 2, .cancel 0, .cancel 1,
          .AddDeclared (Item.mk "E" 5) 250 256] with
    | none =>
      have h : (Session.run insertionSort (Session.start [Item.mk "A" 1])
        [.Add (Item.mk "B" 2), .active 0, .Add (Item.mk "C" 3), .active 1,
          .Add (Item.mk "D" 4), .active 2, .cancel 0, .cancel 1,
          .AddDeclared (Item.mk "E" 5) 250 256]).isSome = true := by decide
      rw [hrun] at h
      cases h
    | some s =>
      have hview : (Session.run insertionSort (Session.start [Item.mk "A" 1])
          [.Add (Item.mk "B" 2), .active 0, .Add (Item.mk "C" 3), .active 1,
            .Add (Item.mk "D" 4), .active 2, .cancel 0, .cancel 1,
            .AddDeclared (Item.mk "E" 5) 250 256]).map (fun s => s.ring.view) =
          some [⟨Item.mk "D" 4, true, 64, 128⟩, ⟨Item.mk "A" 1, true, 0, 192⟩,
            ⟨Item.mk "E" 5, true, 250, 256⟩] := by decide
      rw [hrun] at hview
      simp only [Option.map_some', Option.some.injEq] at hview
      exact C18_ranges_stay_in_keyspace insertionSort insertionSort_spec
        [Item.mk "A" 1]
        [.Add (Item.mk "B" 2), .active 0, .Add (Item.mk "C" 3), .active 1,
          .Add (Item.mk "D" 4), .active 2, .cancel 0, .cancel 1,
          .AddDeclared (Item.mk "E" 5) 250 256] s (by decide) hrun
        ⟨Item.mk "A" 1, true, 0, 192⟩ (by rw [hview]; simp)⟩

/-! ## The linked ring -/

/-- C19: `Pop()` never sets `ok`: on the ring with the one element `A` it
returns `(A, false)` and empties the ring; on the ring `A, B` it returns
`(A, false)`, `Len()` becomes `1` and `B` is the head; whatever the ring, the
`ok` it returns is `false`. -/
theorem C19_Pop_reports_false :
    ((Ring.New "1" : Ring Item).run [.Push (Item.mk "A" 1)]).bind
      (fun r => r.Pop.map (fun out => (out.2.1, out.2.2, out.1.Len, out.1.head))) =
      some (Item.mk "A" 1, false, 0, none) ∧
    ((Ring.New "1" : Ring Item).run [.Push (Item.mk "A" 1), .Push (Item.mk "B" 2)]).bind
      (fun r => r.Pop.map (fun out => (out.2.1, out.2.2, out.1.Len,
        out.1.head.map (fun head => (out.1.nodes head).value)))) =
      some (Item.mk "A" 1, false, 1, some (Item.mk "B" 2)) ∧
    (∀ (r : Ring Item) (out : Ring Item × Item × Bool), r.Pop = some out →
      out.2.2 = false) := by
  refine ⟨by decide, by decide, ?_⟩
  intro r out h
  unfold Ring.Pop at h
  split at h
  · cases h
    rfl
  · simp only at h
    split at h
    · cases h
      rfl
    · split at h
      · cases h
      · cases h
        rfl

/-- C20: `Len()` and the cycle of nodes come apart.  After `Push(A)`, `Push(B)`
the call `Remove` of a key that is not in the ring leaves both nodes on the
cycle and makes `Len()` `1`; and after `Push(A)`, `Push(B)`, `Pop()` the popped
`A` is still on the cycle behind the head `B`, `Len()` is `1`, and two calls of
`Next()` return `B` and then `A`. -/
theorem C20_Len_differs_from_cycle :
    ((Ring.New "1" : Ring Item).run
      [.Push (Item.mk "A" 1), .Push (Item.mk "B" 2), .Remove "C"]).map
      (fun r => (r.Len, r.cycle 4)) = some (1, [Item.mk "A" 1, Item.mk "B" 2]) ∧
    ((Ring.New "1" : Ring Item).run
      [.Push (Item.mk "A" 1), .Push (Item.mk "B" 2), .Pop]).map
      (fun r => (r.Len, r.cycle 4)) = some (1, [Item.mk "B" 2, Item.mk "A" 1]) ∧
    ((Ring.New "1" : Ring Item).run
      [.Push (Item.mk "A" 1), .Push (Item.mk "B" 2), .Pop]).bind
      (fun r => r.Next.bind (fun first => first.1.Next.map
        (fun second => (first.2, second.2)))) = some (Item.mk "B" 2, Item.mk "A" 1) := by
  refine ⟨by decide, by decide, by decide⟩

end Rings
